import Mathlib

/-!
# KonaCodeJS (`src/kc.js`): registry, matcher and completion resolver

A shallow embedding of the class `KonaCode`: the code registry built by
`register`, the constructor's singleton and validation guards, and the
sequence matcher `handler` with its deferred completion (`exec`, the timer,
`cleanExecTimeout`, `resetCurrentSequence`).

Modelling conventions

* JavaScript values that reach the matcher are strings or numbers (`JsVal`);
  a missing property (`undefined`) is `none`.
* An element of a sequence passed to `register` is a string, a number,
  `undefined` or `null` (`Element`): on the last two the arrow of line 92
  throws, and `register` with it.
* The document the constructor runs in is a `Page`: whether `DOMParser`
  exists, whether the `head` element is there for `appendStyles`, and whether
  `document.body` is there for `prepareFeedback`.  The constructor records the
  instance in `KonaCode.n_n` before it makes these calls.
* A stored sequence is a list of `Key`: `register` keeps an entry only when
  every element of its upper-cased sequence is one of the eight strings of
  `KonaCode.keys`, so a stored element is always one of them.  Wherever the
  source reads the element as a string (`join`, `==`, `transcript`) the model
  goes through `Key.toJs`.
* The progress percentage is computed as JavaScript does, in IEEE-754 double
  arithmetic (`roundDouble`, `percent`).
* Calls that leave the matcher (progress and completion callbacks, joystick
  and feedback requests) are recorded, in call order, as a list of `Effect`.
* The pending `setTimeout` of `exec` is the field `execTimeout`; the firing
  of the timer is the separate transition `timeout`.
-/

namespace KonaCode

/-! ## Values -/

/-- A JavaScript string or number; numbers are the integers that key codes
and array lengths are. -/
inductive JsVal where
  | str (s : String)
  | num (n : Int)
  deriving DecidableEq

/-- Truthiness of a value: the empty string and `0` are falsy. -/
def JsVal.truthy : JsVal → Bool
  | .str s => s != ""
  | .num n => n != 0

/-- String conversion, as done by `join` and by a template literal. -/
def JsVal.toStr : JsVal → String
  | .str s => s
  | .num n => toString n

/-- The upper-case form of one character, as `String.prototype.toUpperCase`
gives it (the Unicode mapping, the same in every locale).  `Char.toUpper`
maps the ASCII letters.  The characters listed are all the characters outside
ASCII whose upper-case form holds an ASCII letter: the sharp s, the dotless
i, the n with apostrophe, the long s, the j with caron, the h, t, w, y and a
with their marks (U+1E96 to U+1E9A) and the ligatures U+FB00 to U+FB06.  The
upper-case form of any other character outside ASCII is made of characters
outside ASCII; the model leaves such a character as it is, which no comparison
with a key string tells apart, the key strings being ASCII. -/
def upperChar (c : Char) : List Char :=
  if c.toNat = 0xDF then ['S', 'S']
  else if c.toNat = 0x131 then ['I']
  else if c.toNat = 0x149 then [Char.ofNat 0x2BC, 'N']
  else if c.toNat = 0x17F then ['S']
  else if c.toNat = 0x1F0 then ['J', Char.ofNat 0x30C]
  else if c.toNat = 0x1E96 then ['H', Char.ofNat 0x331]
  else if c.toNat = 0x1E97 then ['T', Char.ofNat 0x308]
  else if c.toNat = 0x1E98 then ['W', Char.ofNat 0x30A]
  else if c.toNat = 0x1E99 then ['Y', Char.ofNat 0x30A]
  else if c.toNat = 0x1E9A then ['A', Char.ofNat 0x2BE]
  else if c.toNat = 0xFB00 then ['F', 'F']
  else if c.toNat = 0xFB01 then ['F', 'I']
  else if c.toNat = 0xFB02 then ['F', 'L']
  else if c.toNat = 0xFB03 then ['F', 'F', 'I']
  else if c.toNat = 0xFB04 then ['F', 'F', 'L']
  else if c.toNat = 0xFB05 then ['S', 'T']
  else if c.toNat = 0xFB06 then ['S', 'T']
  else [c.toUpper]

/-- The method `String.prototype.toUpperCase`: every character is replaced by
its upper-case form. -/
def upperString (s : String) : String := ⟨s.data.flatMap upperChar⟩

/-- The arrow `k => k.toUpperCase ? k.toUpperCase() : k` of `register`:
strings are upper-cased, numbers have no `toUpperCase` and stay. -/
def JsVal.toUpperCase : JsVal → JsVal
  | .str s => .str (upperString s)
  | .num n => .num n

/-- The members of `KonaCode.keys`, in declaration order. -/
inductive Key where
  | UP | DOWN | LEFT | RIGHT | B | A | X | Y
  deriving DecidableEq

/-- The string value of a member of `KonaCode.keys`. -/
def Key.name : Key → String
  | .UP => "UP"
  | .DOWN => "DOWN"
  | .LEFT => "LEFT"
  | .RIGHT => "RIGHT"
  | .B => "B"
  | .A => "A"
  | .X => "X"
  | .Y => "Y"

/-- A key as the JavaScript value stored in a sequence. -/
def Key.toJs (k : Key) : JsVal := .str k.name

/-- All keys, in the order of `Object.values( KonaCode.keys )`. -/
def Key.all : List Key := [.UP, .DOWN, .LEFT, .RIGHT, .B, .A, .X, .Y]

/-- The list `Object.values( KonaCode.keys )`. -/
def keysValues : List JsVal := Key.all.map Key.toJs

/-- The key whose string value is the given JavaScript value, if any. -/
def Key.ofJs? (v : JsVal) : Option Key := Key.all.find? (fun k => k.toJs == v)

/-- The list `[ keys.UP, keys.DOWN, keys.LEFT, keys.RIGHT ]` of `register`. -/
def startKeys : List JsVal := [Key.UP.toJs, Key.DOWN.toJs, Key.LEFT.toJs, Key.RIGHT.toJs]

/-- Characters of `Array.prototype.join` with the default separator `,`. -/
def joinChars : List String → List Char
  | [] => []
  | [a] => a.data
  | a :: b :: rest => a.data ++ ',' :: joinChars (b :: rest)

/-- The call `xs.join()` on an array of values. -/
def join (xs : List JsVal) : String := ⟨joinChars (xs.map JsVal.toStr)⟩

/-! ## Double-precision arithmetic of the progress percentage -/

/-- Binary logarithm with an explicit recursion budget. -/
def log2Fuel : Nat → Nat → Nat
  | 0, _ => 0
  | fuel + 1, n => if n < 2 then 0 else log2Fuel fuel (n / 2) + 1

/-- The number `⌊log₂ n⌋` (and `0` for `n = 0`). -/
def log2 (n : Nat) : Nat := log2Fuel n n

/-- The IEEE-754 double nearest to the positive rational `n / d` (53-bit
significand, ties to even), returned as a fraction `(numerator, denominator)`.
Exponent range is not modelled: the values that occur lie between `2⁻⁵³`
and `100`. -/
def roundDouble (n d : Nat) : Nat × Nat :=
  if n = 0 ∨ d = 0 then (0, 1) else
  let k0 : Int := (log2 n : Int) - (log2 d : Int)
  let ge : Bool := if 0 ≤ k0 then decide (d * 2 ^ k0.toNat ≤ n) else decide (d ≤ n * 2 ^ (-k0).toNat)
  let k : Int := if ge then k0 else k0 - 1
  let sh : Int := 52 - k
  let sn : Nat := if 0 ≤ sh then n * 2 ^ sh.toNat else n
  let sd : Nat := if 0 ≤ sh then d else d * 2 ^ (-sh).toNat
  let q := sn / sd
  let r := sn % sd
  let m := if sd < 2 * r then q + 1 else if 2 * r = sd then q + q % 2 else q
  if 0 ≤ sh then (m, 2 ^ sh.toNat) else (m * 2 ^ (-sh).toNat, 1)

/-- The expression `Math.floor( count / length * 100 )` of `handler`, in
double arithmetic: the quotient is rounded, then the product, then floored.
For `length = 0` (never the case for a matched code) the model gives `0`. -/
def percent (count length : Nat) : Nat :=
  let x := roundDouble count length
  let y := roundDouble (x.1 * 100) x.2
  y.1 / y.2

/-! ## Registry entries -/

/-- A property that may hold a function (`callback`, `progress`): missing or
falsy, a truthy value that is not a function, or a function (told apart by
an identifier). -/
inductive Slot where
  | absent
  | value
  | fn (id : Nat)
  deriving DecidableEq

/-- Truthiness of the property. -/
def Slot.truthy : Slot → Bool
  | .absent => false
  | _ => true

/-- The test `typeof f == 'function'`. -/
def Slot.isFunction : Slot → Bool
  | .fn _ => true
  | _ => false

/-- The test `typeof v != "string"`. -/
def JsVal.isString : JsVal → Bool
  | .str _ => true
  | .num _ => false

/-- An element of the array `sequence` of an entry passed to `register`: a
string, a number, `undefined` (what a misspelt member of `KonaCode.keys`
evaluates to) or `null`. -/
inductive Element where
  | str (s : String)
  | num (n : Int)
  | undefined
  | null
  deriving DecidableEq

/-- The elements on which reading the property `toUpperCase` throws a
`TypeError`. -/
def Element.isNullish : Element → Bool
  | .undefined => true
  | .null => true
  | _ => false

/-- The arrow `k => k.toUpperCase ? k.toUpperCase() : k` of line 92 applied
to an element: its value, or `none` when it throws. -/
def Element.toUpperCase : Element → Option JsVal
  | .str s => some (JsVal.toUpperCase (.str s))
  | .num n => some (JsVal.toUpperCase (.num n))
  | .undefined => none
  | .null => none

/-- The property `sequence` of an entry passed to `register`, when truthy:
an array of elements, or a value that is not an array. -/
inductive SequenceArg where
  | array (xs : List Element)
  | other
  deriving DecidableEq

/-- An entry of `setup.codes` as the caller passes it; `sequence = none` is
a missing or falsy `sequence`. -/
structure CodeArg where
  sequence : Option SequenceArg := none
  callback : Slot := .absent
  progress : Slot := .absent
  skin : Option JsVal := none
  color : Option JsVal := none
  deriving DecidableEq

/-- An entry of `this.codes`. -/
structure Code where
  sequence : List Key
  callback : Slot := .absent
  progress : Slot := .absent
  skin : Option JsVal := none
  color : Option JsVal := none
  deriving DecidableEq

/-- The object `KonaCode.skins`, as `Object.values` lists it. -/
def skins : List JsVal := [.str "snes", .str "switch"]

/-- The object `KonaCode.colors`, as `Object.values` lists it. -/
def colors : List JsVal :=
  [.str "red", .str "blue", .str "yellow", .str "green", .str "pink", .str "purple",
   .str "gray", .str "rainbow"]

/-- The static method `basicSetup`: the original sequence and the SNES skin. -/
def basicSetup : Code :=
  { sequence := [.UP, .UP, .DOWN, .DOWN, .LEFT, .RIGHT, .LEFT, .RIGHT, .B, .A]
    skin := some (.str "snes") }

/-- Line 92 of `register` throws a `TypeError`: the sequence is an array of
at least three elements (a shorter one is skipped at line 90, before its
elements are read) and one of its elements is `undefined` or `null`. -/
def sequenceThrows : Option SequenceArg → Bool
  | some (.array xs) => !decide (xs.length < 3) && xs.any Element.isNullish
  | _ => false

/-- Lines 88-105 of `register`: the sequence an entry is stored with, or
`none` when no entry is stored: the loop moves on (`continue`), or line 92
throws (`sequenceThrows`) and the loop ends there. -/
def checkSequence : Option SequenceArg → Option (List Key)
  | some (.array xs) =>
    if xs.length < 3 then none
    else if xs.any Element.isNullish then none
    else
      let sequence := xs.filterMap Element.toUpperCase
      if !(sequence.head?.any fun k => startKeys.contains k) then none
      else if join sequence != join (sequence.filter fun key => keysValues.contains key) then none
      else some (sequence.filterMap Key.ofJs?)
  | some .other => none
  | none => some basicSetup.sequence

/-- Lines 107-110 of `register`: an unknown skin becomes the default one. -/
def checkSkin : Option JsVal → Option JsVal
  | some v => if v.truthy && (!v.isString || !skins.contains v) then basicSetup.skin else some v
  | none => none

/-- Lines 112-115 of `register`: an unknown colour is deleted. -/
def checkColor : Option JsVal → Option JsVal
  | some v => if v.truthy && (!v.isString || !colors.contains v) then none else some v
  | none => none

/-- The predicate `c => c.sequence.join() == code.sequence.join()`. -/
def sameSequence (code c : Code) : Bool :=
  join (c.sequence.map Key.toJs) == join (code.sequence.map Key.toJs)

/-- One turn of the loop of `register` (lines 85-125) that does not throw. -/
def registerCode (codes : List Code) (code : CodeArg) : List Code :=
  match checkSequence code.sequence with
  | none => codes
  | some sequence =>
    let code : Code :=
      { sequence := sequence, callback := code.callback, progress := code.progress
        skin := checkSkin code.skin, color := checkColor code.color }
    let codes :=
      if (codes.find? (sameSequence code)).isSome then
        codes.eraseIdx (codes.findIdx (sameSequence code))
      else codes
    codes ++ [code]

/-- The argument of `register`, when truthy: one entry or an array. -/
inductive CodesArg where
  | single (code : CodeArg)
  | array (codes : List CodeArg)
  deriving DecidableEq

/-- An error thrown by `register`, with `this.codes` as the call leaves
it. -/
structure RegisterError where
  message : String
  codes : Option (List Code)
  deriving DecidableEq

/-- The loop of `register` over the entries: `this.codes` at the end, or
`this.codes` at the entry on which line 92 throws. -/
def registerLoop : List Code → List CodeArg → Except (List Code) (List Code)
  | codes, [] => .ok codes
  | codes, code :: rest =>
    if sequenceThrows code.sequence then .error codes
    else registerLoop (registerCode codes code) rest

/-- The method `register`: the new `this.codes`, or the error thrown.
`thisCodes = none` is an instance whose `codes` is not set yet.  The error
for a missing argument is thrown before `this.codes` is touched; a
`TypeError` of line 92 leaves in `this.codes` the entries stored before it. -/
def register (thisCodes : Option (List Code)) (codes : Option CodesArg) :
    Except RegisterError (List Code) :=
  match codes with
  | none => .error { message := "You have to define at least 1 code", codes := thisCodes }
  | some arg =>
    let codes := match arg with
      | .single code => [code]
      | .array codes => codes
    match registerLoop (thisCodes.getD []) codes with
    | .ok codes => .ok codes
    | .error codes => .error { message := "TypeError", codes := some codes }

end KonaCode

/-- The fields of a `KonaCode` instance that the registry and the matcher
use.  `validCodes = none` is the deleted property; `execTimeout` holds the
code of the pending `setTimeout` of `exec`, if one is pending. -/
structure KonaCode where
  codes : List KonaCode.Code
  currentSequence : List KonaCode.JsVal := []
  validCodes : Option (List KonaCode.Code) := none
  execTimeout : Option KonaCode.Code := none
  delayedDelta : Nat := 500
  keyboardEvent : String := "keyup"
  joystickEnable : Bool := true
  feedbackEnable : Bool := false
  touchXStart : Option Int := none
  touchYStart : Option Int := none
  touchXEnd : Option Int := none
  touchYEnd : Option Int := none
  touchMinMovement : Int := 15
  deriving DecidableEq

namespace KonaCode

/-- The argument `setup` of the constructor. -/
structure Setup where
  codes : Option CodesArg := none
  event : Option JsVal := none
  joystickEnable : Option Bool := none
  feedback : Option Bool := none
  deriving DecidableEq

/-- The document the constructor runs in, as far as its calls can fail:
`domParser`, the global `DOMParser` exists (line 47); `head`, the document has
the `head` element that `appendStyles` appends to (line 48); `body`,
`document.body` is an element and not `null`, as it is while a script of the
`head` runs (`prepareFeedback`, line 60). -/
structure Page where
  domParser : Bool := true
  head : Bool := true
  body : Bool := true
  deriving DecidableEq

/-- The constructor: the outcome (the new instance or the error thrown) and
the static slot `KonaCode.n_n` afterwards.  The instance is recorded in the
slot at line 43, before the calls that need the page; when one of them throws,
the slot keeps the instance as it is at that line (its properties not yet
assigned have the initial values of the structure; nothing reads them, the
slot is only tested).  Lines 51-54 normalise `setup.event` and then assign the
literal `'keyup'` to `this.keyboardEvent`.  Without a `page` argument the page
is one in which every call succeeds. -/
def constructor (n_n : Option KonaCode) (setup : Setup) (page : Page := {}) :
    Except String KonaCode × Option KonaCode :=
  if n_n.isSome then (.error "Only one instance of KC allowed", n_n)
  else
    match register none setup.codes with
    | .error e => (.error e.message, n_n)
    | .ok codes =>
      if codes.length = 0 then (.error "You have to define at least 1 valid code", n_n)
      else
        let this : KonaCode := { codes := codes, currentSequence := [], delayedDelta := 500 }
        if !page.domParser then (.error "ReferenceError", some this)
        else if !page.head then (.error "TypeError", some this)
        else
          let this : KonaCode :=
            { this with
              keyboardEvent := "keyup"
              joystickEnable := setup.joystickEnable.getD true
              feedbackEnable := setup.feedback.getD false }
          if this.feedbackEnable && !page.body then (.error "TypeError", some this)
          else
            let this : KonaCode :=
              { this with
                touchXStart := none, touchYStart := none, touchXEnd := none, touchYEnd := none
                touchMinMovement := 15 }
            (.ok this, some this)

/-! ## The matcher -/

/-- A call that leaves the matcher, in the order the calls are made. -/
inductive Effect where
  | progress (code : Code) (count percent : Nat)
  | callback (code : Code)
  | appendToFeedback (key : JsVal)
  | hideFromFeedback
  | showJoystick (code : Code)
  | hideJoystick
  deriving DecidableEq

/-- The event object passed to `handler`: its properties `code` and
`keyCode`, each possibly missing. -/
structure KeyEvent where
  code : Option JsVal := none
  keyCode : Option JsVal := none
  deriving DecidableEq

/-- The value `e.code || e.keyCode` when the guard `!e.code && !e.keyCode`
lets the event through, and `none` when the guard returns. -/
def KeyEvent.pressed (e : KeyEvent) : Option JsVal :=
  match e.code.filter JsVal.truthy with
  | some v => some v
  | none => e.keyCode.filter JsVal.truthy

/-- The method `transcript`: a `switch` over strict equality, the default
being `-1`.  The argument `none` is `undefined`. -/
def transcript : Option JsVal → JsVal
  | some (.str "ArrowUp") | some (.num 38) | some (.str "UP") => Key.UP.toJs
  | some (.str "ArrowDown") | some (.num 40) | some (.str "DOWN") => Key.DOWN.toJs
  | some (.str "ArrowLeft") | some (.num 37) | some (.str "LEFT") => Key.LEFT.toJs
  | some (.str "ArrowRight") | some (.num 39) | some (.str "RIGHT") => Key.RIGHT.toJs
  | some (.str "KeyA") | some (.num 65) | some (.str "A") => Key.A.toJs
  | some (.str "KeyB") | some (.num 66) | some (.str "B") => Key.B.toJs
  | some (.str "KeyX") | some (.num 88) | some (.str "X") => Key.X.toJs
  | some (.str "KeyY") | some (.num 89) | some (.str "Y") => Key.Y.toJs
  | _ => .num (-1)

/-- The static method `needJoystick`: the key, as a string, is one of
`A`, `B`, `X`, `Y`. -/
def needJoystick (keyCode : JsVal) : Bool :=
  [Key.A.name, Key.B.name, Key.X.name, Key.Y.name].contains keyCode.toStr

/-- The element `code.sequence[ i ]`, `none` past the end of the array. -/
def Code.sequenceAt (code : Code) (i : Nat) : Option JsVal :=
  code.sequence[i]?.map Key.toJs

/-- The comparison `code.sequence[ i ] == keyCode`.  The left side is
`undefined` or one of the eight key strings and the right side a string or a
number: `==` holds exactly when both are the same string (a key string
converts to no number, `undefined` equals neither). -/
def looseEq (element : Option JsVal) (keyCode : JsVal) : Bool :=
  element == some keyCode

/-- The guarded call `code.progress( count, percent )`. -/
def progressCall (count percent : Nat) (code : Code) : List Effect :=
  if code.progress.isFunction then [.progress code count percent] else []

/-- The method `cleanExecTimeout`. -/
def cleanExecTimeout (this : KonaCode) : KonaCode :=
  { this with execTimeout := none }

/-- The method `resetCurrentSequence`. -/
def resetCurrentSequence (this : KonaCode) : KonaCode × List Effect :=
  ({ this with currentSequence := [], validCodes := none },
    this.codes.flatMap (progressCall 0 0) ++ [.hideJoystick])

/-- The method `exec`. -/
def exec (this : KonaCode) (code : Code) (delayed : Bool) : KonaCode × List Effect :=
  if code.callback.truthy then
    if delayed then
      ({ this with execTimeout := some code }, [])
    else
      let called : List Effect := if code.callback.isFunction then [.callback code] else []
      let (this, reset) := resetCurrentSequence this
      (this, called ++ [.hideFromFeedback] ++ reset)
  else
    resetCurrentSequence this

/-- Lines 194-215 of `handler`: a finished code is executed, at once or
delayed; otherwise the joystick is shown or hidden for the next key. -/
def finish (this : KonaCode) : KonaCode × List Effect :=
  let validCodes := this.validCodes.getD []
  let sequenceFinish :=
    validCodes.filter fun code => code.sequence.length == this.currentSequence.length
  match sequenceFinish with
  | code :: _ => exec this code (validCodes.length != 1)
  | [] =>
    let nextKeys := validCodes.filter fun code =>
      needJoystick (transcript (code.sequenceAt this.currentSequence.length))
    match nextKeys with
    | code :: _ => (this, [.showJoystick code])
    | [] => (this, [.hideJoystick])

/-- Lines 163-222 of `handler`: the matching of the transcribed key. -/
def handleKey (this : KonaCode) (keyCode : JsVal) : KonaCode × List Effect :=
  let currentIndex := this.currentSequence.length
  let live := this.validCodes.getD this.codes
  let invalidCodes := live.filter fun code => !looseEq (code.sequenceAt currentIndex) keyCode
  let validCodes := live.filter fun code => looseEq (code.sequenceAt currentIndex) keyCode
  if validCodes.length ≠ 0 then
    let this := { this with
      validCodes := some validCodes, currentSequence := this.currentSequence ++ [keyCode] }
    let calls : List Effect :=
      [.appendToFeedback keyCode]
        ++ validCodes.flatMap (fun code =>
            progressCall this.currentSequence.length
              (percent this.currentSequence.length code.sequence.length) code)
        ++ invalidCodes.flatMap (progressCall 0 0)
    let (this, rest) := finish this
    (this, calls ++ rest)
  else
    let (this, reset) := resetCurrentSequence { this with validCodes := some validCodes }
    (this, [.hideFromFeedback] ++ reset)

/-- The method `handler`, on an instance whose construction has completed
(so that `KonaCode.n_n` is set). -/
def handler (this : KonaCode) (e : KeyEvent) : KonaCode × List Effect :=
  let this := cleanExecTimeout this
  match e.pressed with
  | none => (this, [])
  | some code => handleKey this (transcript (some code))

/-- The callback of the `setTimeout` of `exec`, run when the timer fires:
`this.exec( code )`, with `delayed` undefined. -/
def timeout (this : KonaCode) : KonaCode × List Effect :=
  match this.execTimeout with
  | none => (this, [])
  | some code => exec { this with execTimeout := none } code false

/-- What can happen to an instance: an event reaches `handler`, or the
pending timer fires. -/
inductive Input where
  | key (e : KeyEvent)
  | timer
  deriving DecidableEq

/-- One input. -/
def step (this : KonaCode) : Input → KonaCode × List Effect
  | .key e => handler this e
  | .timer => timeout this

/-- A succession of inputs, with all the calls made on the way. -/
def run (this : KonaCode) : List Input → KonaCode × List Effect
  | [] => (this, [])
  | i :: rest =>
    let (this, calls) := step this i
    let (this, more) := run this rest
    (this, calls ++ more)

/-- The session right after construction, and after every reset: nothing
typed, every code a candidate, no timer pending. -/
def idle (codes : List Code) : KonaCode := { codes := codes }

/-- The candidates still alive: `this.validCodes`, and all of `this.codes`
when the property is deleted. -/
def liveCandidates (this : KonaCode) : List Code := this.validCodes.getD this.codes

/-- The codes whose completion callbacks were invoked, in call order. -/
def callbacks (calls : List Effect) : List Code :=
  calls.filterMap fun
    | .callback code => some code
    | _ => none

/-- The progress calls made, in call order. -/
def progressCalls (calls : List Effect) : List (Code × Nat × Nat) :=
  calls.filterMap fun
    | .progress code count percent => some (code, count, percent)
    | _ => none

/-- An event that `handler` lets through and `transcript` maps to the key. -/
def Presses (e : KeyEvent) (key : Key) : Prop :=
  e.pressed.map (fun code => transcript (some code)) = some key.toJs

instance (e : KeyEvent) (key : Key) : Decidable (Presses e key) :=
  inferInstanceAs (Decidable (_ = _))

/-- The codes of a registry whose sequence starts with the keys typed. -/
def matching (codes : List Code) (typed : List Key) : List Code :=
  codes.filter fun code => typed.isPrefixOf code.sequence

/-- An idle session: nothing typed, `validCodes` deleted, no timer pending. -/
def Idle (this : KonaCode) : Prop :=
  this.currentSequence = [] ∧ this.validCodes = none ∧ this.execTimeout = none

instance (this : KonaCode) : Decidable (Idle this) :=
  inferInstanceAs (Decidable (_ ∧ _))

/-- The session reached from the idle session `this` once the keys `typed`
have been accepted one after the other with no reset in between: the keys are
in `currentSequence`, the candidates are the codes starting with them, and
the timer is pending for the code they complete, if there is one. -/
def typedState (this : KonaCode) (typed : List Key) : KonaCode :=
  { this with
    currentSequence := typed.map Key.toJs
    validCodes := if typed = [] then none else some (matching this.codes typed)
    execTimeout :=
      if typed = [] then none else this.codes.find? fun code => code.sequence == typed }

/-! ## Series of registrations -/

/-- The entries passed in a call of `register`. -/
def suppliedEntries : Option CodesArg → List CodeArg
  | none => []
  | some (.single code) => [code]
  | some (.array codes) => codes

/-- The entries a call of `register` gets through: the entries passed, up to
the first one on which line 92 throws. -/
def entriesOf (codes : Option CodesArg) : List CodeArg :=
  (suppliedEntries codes).takeWhile fun code => !sequenceThrows code.sequence

/-- A series of calls of `register` on one instance; a call that throws
leaves `this.codes` as it is at the throw. -/
def registerSeries (thisCodes : Option (List Code)) (calls : List (Option CodesArg)) :
    Option (List Code) :=
  calls.foldl
    (fun cur arg =>
      match register cur arg with
      | .ok codes => some codes
      | .error e => e.codes)
    thisCodes

/-! ## The validation rule, in the words of the specification -/

/-- A sequence as the specification wants it: a list of at least three
elements whose first element is one of `UP`, `DOWN`, `LEFT`, `RIGHT` and
whose every element is in the alphabet, string elements being compared after
upper-casing.  An element `undefined` or `null` is not in the alphabet. -/
def ValidSequence : SequenceArg → Prop
  | .array xs =>
    3 ≤ xs.length
      ∧ (∃ key ∈ [Key.UP, Key.DOWN, Key.LEFT, Key.RIGHT],
          xs.head?.bind Element.toUpperCase = some key.toJs)
      ∧ ∀ x ∈ xs, ∃ key : Key, x.toUpperCase = some key.toJs
  | .other => False

/-- The entry `register` stores for an argument whose sequence is kept as
`sequence`. -/
def storedCode (code : CodeArg) (sequence : List Key) : Code :=
  { sequence := sequence, callback := code.callback, progress := code.progress
    skin := checkSkin code.skin, color := checkColor code.color }

/-! ## Touch and mouse input -/

/-- The coordinates `clientX` and `clientY` of the first touch of a touch
event, or of a mouse event, in whole pixels. -/
structure TouchPoint where
  clientX : Int
  clientY : Int
  deriving DecidableEq

/-- The method `touchStart`. -/
def touchStart (this : KonaCode) (e : TouchPoint) : KonaCode :=
  { this with touchXStart := some e.clientX, touchYStart := some e.clientY }

/-- The method `touchEnd` that checks the movement (the class declares the
name twice; the second declaration, lines 349-387, is the one it keeps). -/
def touchEnd (this : KonaCode) (e : TouchPoint) : KonaCode × List Effect :=
  match this.touchXStart, this.touchYStart with
  | some touchXStart, some touchYStart =>
    let this := { this with touchXEnd := some e.clientX, touchYEnd := some e.clientY }
    if |e.clientX - touchXStart| ≤ |e.clientY - touchYStart| then
      if e.clientY + this.touchMinMovement < touchYStart then
        handler this { code := some (.str "ArrowUp") }
      else if e.clientY - this.touchMinMovement > touchYStart then
        handler this { code := some (.str "ArrowDown") }
      else (this, [])
    else
      if e.clientX + this.touchMinMovement < touchXStart then
        handler this { code := some (.str "ArrowLeft") }
      else if e.clientX - this.touchMinMovement > touchXStart then
        handler this { code := some (.str "ArrowRight") }
      else (this, [])
  | _, _ => (this, [])

/-- The direction of a drag in the words of the specification: the axis with
the larger absolute displacement decides (the vertical one when both are
equal), a displacement of at most 15 pixels on that axis gives no symbol, and
otherwise the sign of the displacement gives the symbol. -/
def swipeSymbol (dx dy : Int) : Option Key :=
  if |dx| ≤ |dy| then
    if |dy| ≤ 15 then none else if dy < 0 then some .UP else some .DOWN
  else
    if |dx| ≤ 15 then none else if dx < 0 then some .LEFT else some .RIGHT

/-- The event `touchEnd` passes to `handler` for a direction. -/
def swipeEvent : Key → KeyEvent
  | .UP => { code := some (.str "ArrowUp") }
  | .DOWN => { code := some (.str "ArrowDown") }
  | .LEFT => { code := some (.str "ArrowLeft") }
  | .RIGHT => { code := some (.str "ArrowRight") }
  | key => { code := some key.toJs }

/-! ## The keyboard event of the setup -/

/-- The static list `KonaCode.keyboardEvent`. -/
def keyboardEvents : List JsVal := [.str "keyup", .str "keydown"]

/-- Lines 50-53 of the constructor: the value of `setup.event` after the
check, `'keyup'` replacing a missing or unknown event. -/
def checkEvent : Option JsVal → JsVal
  | some event =>
    if !event.truthy || (event.truthy && !keyboardEvents.contains event) then .str "keyup"
    else event
  | none => .str "keyup"

/-! ## The accepted raw forms, in the words of the specification -/

/-- The raw values the specification lists for a key: the named key, the
numeric code, and the canonical symbol itself. -/
def Key.rawForms : Key → List JsVal
  | .UP => [.str "ArrowUp", .num 38, .str "UP"]
  | .DOWN => [.str "ArrowDown", .num 40, .str "DOWN"]
  | .LEFT => [.str "ArrowLeft", .num 37, .str "LEFT"]
  | .RIGHT => [.str "ArrowRight", .num 39, .str "RIGHT"]
  | .A => [.str "KeyA", .num 65, .str "A"]
  | .B => [.str "KeyB", .num 66, .str "B"]
  | .X => [.str "KeyX", .num 88, .str "X"]
  | .Y => [.str "KeyY", .num 89, .str "Y"]

/-! ## The session invariant, in the words of the specification -/

/-- The registry entries, in registry order, whose sequence has the values
typed as a prefix. -/
def candidatesFor (codes : List Code) (typed : List JsVal) : List Code :=
  codes.filter fun code => typed.isPrefixOf (code.sequence.map Key.toJs)

/-- The keys that need the on-screen joystick. -/
def Key.isButton : Key → Bool
  | .A | .B | .X | .Y => true
  | _ => false

/-- The joystick calls among the calls made, in call order. -/
def joystickCalls (calls : List Effect) : List Effect :=
  calls.filter fun
    | .showJoystick _ => true
    | .hideJoystick => true
    | _ => false

/-! ## Example registries -/

/-- The event of a key press whose `code` is the key string itself. -/
def press (key : Key) : KeyEvent := { code := some key.toJs }

/-- A short code with both callbacks. -/
def exampleShort : CodeArg :=
  { sequence := some (.array [.str "UP", .str "UP", .str "DOWN"])
    callback := .fn 1, progress := .fn 11 }

/-- A longer code that starts with the keys of `exampleShort`. -/
def exampleLong : CodeArg :=
  { sequence := some (.array [.str "UP", .str "UP", .str "DOWN", .str "DOWN", .str "LEFT"])
    callback := .fn 2, progress := .fn 12 }

/-- A setup with the two codes above. -/
def exampleSetup : Setup := { codes := some (.array [exampleShort, exampleLong]) }

/-- The stored form of `exampleShort`. -/
def storedShort : Code :=
  { sequence := [.UP, .UP, .DOWN], callback := .fn 1, progress := .fn 11 }

/-- The stored form of `exampleLong`. -/
def storedLong : Code :=
  { sequence := [.UP, .UP, .DOWN, .DOWN, .LEFT], callback := .fn 2, progress := .fn 12 }

/-- The instance the constructor builds from `exampleSetup`. -/
def exampleInstance : KonaCode := { codes := [storedShort, storedLong] }

/-- The original sequence with a completion callback, as stored for the
entry `{ callback: f }`. -/
def konamiCode : Code := { sequence := basicSetup.sequence, callback := .fn 1 }

/-- The instance built from the single entry `{ callback: f }`. -/
def konamiInstance : KonaCode := { codes := [konamiCode] }

/-- The keys of `exampleShort` without any callback. -/
def exampleMute : CodeArg :=
  { sequence := some (.array [.str "UP", .str "UP", .str "DOWN"]) }

/-- A code one key longer than `exampleShort`. -/
def exampleMid : CodeArg :=
  { sequence := some (.array [.str "UP", .str "UP", .str "DOWN", .str "DOWN"])
    callback := .fn 3 }

/-- The stored form of `exampleMute`. -/
def storedMute : Code := { sequence := [.UP, .UP, .DOWN] }

/-- The stored form of `exampleMid`. -/
def storedMid : Code := { sequence := [.UP, .UP, .DOWN, .DOWN], callback := .fn 3 }

/-- A setup in which a code without callback starts two codes with one. -/
def muteSetup : Setup := { codes := some (.array [exampleMute, exampleMid, exampleLong]) }

/-- The instance the constructor builds from `muteSetup`. -/
def muteInstance : KonaCode := { codes := [storedMute, storedMid, storedLong] }

/-- A setup with a code and the code one key longer. -/
def adjacentSetup : Setup := { codes := some (.array [exampleShort, exampleMid]) }

/-- The instance the constructor builds from `adjacentSetup`. -/
def adjacentInstance : KonaCode := { codes := [storedShort, storedMid] }

/-- An entry whose sequence is fifty times `UP`, with both callbacks. -/
def exampleFifty : CodeArg :=
  { sequence := some (.array (List.replicate 50 (.str "UP")))
    callback := .fn 1, progress := .fn 11 }

/-- The stored form of `exampleFifty`. -/
def storedFifty : Code :=
  { sequence := List.replicate 50 .UP, callback := .fn 1, progress := .fn 11 }

/-- The instance the constructor builds from `exampleFifty` alone. -/
def fiftyInstance : KonaCode := { codes := [storedFifty] }

/-- The inputs that press the given keys one after the other. -/
def pressAll (keys : List Key) : List Input := keys.map fun key => .key (press key)

/-- A setup like `exampleSetup` that asks for the `keydown` event. -/
def keydownSetup : Setup :=
  { codes := some (.array [exampleShort, exampleLong]), event := some (.str "keydown") }

/-- The session invariant: the live candidates are the registry entries, in
registry order, whose sequence has the values typed as a prefix, and there is
one at least when something is typed. -/
def SessionInv (this : KonaCode) : Prop :=
  liveCandidates this = candidatesFor this.codes this.currentSequence
    ∧ (this.currentSequence ≠ [] → liveCandidates this ≠ [])

/-- A setup with the code without callback and the long code it starts. -/
def muteLongSetup : Setup := { codes := some (.array [exampleMute, exampleLong]) }

/-- The instance the constructor builds from `muteLongSetup`. -/
def muteLongInstance : KonaCode := { codes := [storedMute, storedLong] }

/-- A setup with the short example code alone. -/
def shortSetup : Setup := { codes := some (.single exampleShort) }

/-- The instance the constructor builds from `shortSetup`. -/
def shortInstance : KonaCode := { codes := [storedShort] }

/-- An entry whose sequence holds `undefined`, as a misspelt member of
`KonaCode.keys` leaves it. -/
def exampleBroken : CodeArg :=
  { sequence := some (.array [.str "UP", .str "UP", .undefined]), callback := .fn 4 }

/-- A setup with the entry above between the two example codes. -/
def brokenSetup : Setup := { codes := some (.array [exampleShort, exampleBroken, exampleLong]) }

/-- An entry whose first element is `right` written with the dotless i. -/
def exampleDotless : CodeArg :=
  { sequence := some (.array [.str "rıght", .str "up", .str "up"]), callback := .fn 5 }

/-- The setup of the two example codes that asks for the feedback. -/
def feedbackSetup : Setup :=
  { codes := some (.array [exampleShort, exampleLong]), feedback := some true }

/-- The page while a script of the `head` runs: `document.body` is `null`. -/
def headPage : Page := { body := false }

/-- The guard that a code without callback keeps: the values typed never
reach its sequence, and a pending completion is that of a code with a
callback whose sequence is the values typed. -/
def Guarded (mute : Code) (this : KonaCode) : Prop :=
  ¬ (mute.sequence.map Key.toJs <+: this.currentSequence)
    ∧ ∀ c, this.execTimeout = some c →
        c.callback.truthy = true ∧ c.sequence.map Key.toJs = this.currentSequence

end KonaCode

/-! ## Theorems -/

namespace KonaCode

/-! ### Keys and prefixes -/

theorem Key.toJs_injective : ∀ a b : Key, a.toJs = b.toJs → a = b := by
  intro a b
  cases a <;> cases b <;> decide

theorem transcript_toJs : ∀ key : Key, transcript (some key.toJs) = key.toJs := by
  intro key
  cases key <;> decide

theorem isPrefixOf_snoc (typed : List Key) (key : Key) (l : List Key) :
    (typed ++ [key]).isPrefixOf l = (typed.isPrefixOf l && (l[typed.length]? == some key)) := by
  induction typed generalizing l with
  | nil => cases l <;> simp [List.isPrefixOf, eq_comm]
  | cons a t ih =>
    cases l with
    | nil => simp [List.isPrefixOf]
    | cons b l => simp [List.isPrefixOf, ih, Bool.and_assoc]

theorem looseEq_sequenceAt (code : Code) (i : Nat) (key : Key) :
    looseEq (code.sequenceAt i) key.toJs = (code.sequence[i]? == some key) := by
  unfold looseEq Code.sequenceAt
  cases h : code.sequence[i]? with
  | none => simp
  | some a =>
    by_cases hk : a = key
    · subst hk; simp
    · have : a.toJs ≠ key.toJs := fun h => hk (Key.toJs_injective _ _ h)
      simp [hk, this]

theorem matching_filter_snoc (codes : List Code) (typed : List Key) (key : Key) :
    (matching codes typed).filter (fun code => looseEq (code.sequenceAt typed.length) key.toJs)
      = matching codes (typed ++ [key]) := by
  unfold matching
  rw [List.filter_filter]
  apply List.filter_congr
  intro code _
  rw [looseEq_sequenceAt, isPrefixOf_snoc, Bool.and_comm]

theorem matching_nil (codes : List Code) : matching codes [] = codes := by
  simp [matching, List.isPrefixOf]

theorem mem_matching {codes : List Code} {typed : List Key} {code : Code} :
    code ∈ matching codes typed ↔ code ∈ codes ∧ typed <+: code.sequence := by
  simp [matching, List.isPrefixOf_iff_prefix]

/-! ### Effects -/

@[simp] theorem callbacks_nil : callbacks [] = [] := rfl

@[simp] theorem callbacks_append (a b : List Effect) :
    callbacks (a ++ b) = callbacks a ++ callbacks b := by
  simp [callbacks]

@[simp] theorem callbacks_progressCall (count pct : Nat) (code : Code) :
    callbacks (progressCall count pct code) = [] := by
  unfold progressCall
  split <;> rfl

theorem callbacks_flatMap_nil (l : List Code) (f : Code → List Effect)
    (h : ∀ code, callbacks (f code) = []) : callbacks (l.flatMap f) = [] := by
  induction l with
  | nil => rfl
  | cons a t ih => simp [h a, ih]

@[simp] theorem callbacks_flatMap_progressCall (l : List Code) (count pct : Nat) :
    callbacks (l.flatMap (progressCall count pct)) = [] :=
  callbacks_flatMap_nil l _ (callbacks_progressCall count pct)

@[simp] theorem callbacks_cons_callback (code : Code) (l : List Effect) :
    callbacks (.callback code :: l) = code :: callbacks l := by
  simp [callbacks]

@[simp] theorem callbacks_cons_progress (code : Code) (count pct : Nat) (l : List Effect) :
    callbacks (.progress code count pct :: l) = callbacks l := by
  simp [callbacks]

@[simp] theorem callbacks_cons_appendToFeedback (key : JsVal) (l : List Effect) :
    callbacks (.appendToFeedback key :: l) = callbacks l := by
  simp [callbacks]

@[simp] theorem callbacks_cons_hideFromFeedback (l : List Effect) :
    callbacks (.hideFromFeedback :: l) = callbacks l := by
  simp [callbacks]

@[simp] theorem callbacks_cons_showJoystick (code : Code) (l : List Effect) :
    callbacks (.showJoystick code :: l) = callbacks l := by
  simp [callbacks]

@[simp] theorem callbacks_cons_hideJoystick (l : List Effect) :
    callbacks (.hideJoystick :: l) = callbacks l := by
  simp [callbacks]

@[simp] theorem callbacks_resetCurrentSequence (this : KonaCode) :
    callbacks (resetCurrentSequence this).2 = [] := by
  simp [resetCurrentSequence]

theorem progressCalls_reset (codes : List Code) :
    progressCalls (codes.flatMap (progressCall 0 0))
      = (codes.filter fun code => code.progress.isFunction).map fun code => (code, 0, 0) := by
  induction codes with
  | nil => rfl
  | cons a t ih =>
    have h := ih
    unfold progressCalls at h ⊢
    by_cases hp : a.progress.isFunction = true <;>
      simp [progressCall, hp, List.filterMap_append, h]

/-- The mismatch branch of `handler`: when no live candidate accepts the
key, the session is reset. -/
theorem handleKey_of_no_match (this : KonaCode) (keyCode : JsVal)
    (h : ∀ code ∈ liveCandidates this,
      looseEq (code.sequenceAt this.currentSequence.length) keyCode = false) :
    handleKey this keyCode
      = ({ this with currentSequence := [], validCodes := none },
          [.hideFromFeedback] ++ this.codes.flatMap (progressCall 0 0) ++ [.hideJoystick]) := by
  have hnil : (this.validCodes.getD this.codes).filter
      (fun code => looseEq (code.sequenceAt this.currentSequence.length) keyCode) = [] := by
    rw [List.filter_eq_nil_iff]
    intro code hc
    simpa using h code hc
  simp [handleKey, hnil, resetCurrentSequence]

/-- The whole of `handler` when no live candidate accepts the key. -/
theorem handler_of_no_match (this : KonaCode) (e : KeyEvent) (code : JsVal)
    (hpress : e.pressed = some code)
    (hno : ∀ c ∈ liveCandidates this,
      looseEq (c.sequenceAt this.currentSequence.length) (transcript (some code)) = false) :
    handler this e
      = ({ this with currentSequence := [], validCodes := none, execTimeout := none },
          [.hideFromFeedback] ++ this.codes.flatMap (progressCall 0 0) ++ [.hideJoystick]) := by
  have hstep := handleKey_of_no_match (cleanExecTimeout this) (transcript (some code))
    (by simpa [cleanExecTimeout, liveCandidates] using hno)
  have hh : handler this e = handleKey (cleanExecTimeout this) (transcript (some code)) := by
    simp [handler, hpress]
  rw [hh, hstep]
  simp [cleanExecTimeout]

theorem progressCalls_of_reset (codes : List Code) :
    progressCalls ([.hideFromFeedback] ++ codes.flatMap (progressCall 0 0) ++ [.hideJoystick])
      = (codes.filter fun c => c.progress.isFunction).map fun c => (c, 0, 0) := by
  have h := progressCalls_reset codes
  unfold progressCalls at h ⊢
  simp [List.filterMap_append, h]

/-- Claim C4. For every session state and every event let through by `handler`
whose transcribed key is not the next required key of any live candidate:
the session is left idle (nothing typed, so the key was not appended;
`validCodes` deleted, so the candidates are the whole registry again; no timer
pending), no completion callback is invoked, and `progress( 0, 0 )` is called
on exactly the registered codes that have a progress function, in registry
order; the candidates that accept a following key are the registered codes
whose first key it is. -/
theorem handler_mismatch_resets (this : KonaCode) (e : KeyEvent) (code : JsVal)
    (hpress : e.pressed = some code)
    (hno : ∀ c ∈ liveCandidates this,
      looseEq (c.sequenceAt this.currentSequence.length) (transcript (some code)) = false) :
    (handler this e).1
        = { this with currentSequence := [], validCodes := none, execTimeout := none }
      ∧ Idle (handler this e).1
      ∧ liveCandidates (handler this e).1 = this.codes
      ∧ callbacks (handler this e).2 = []
      ∧ progressCalls (handler this e).2
          = (this.codes.filter fun c => c.progress.isFunction).map (fun c => (c, 0, 0))
      ∧ ∀ key : Key,
          ((liveCandidates (handler this e).1).filter fun c =>
              looseEq (c.sequenceAt (handler this e).1.currentSequence.length) key.toJs)
            = this.codes.filter fun c => c.sequence[0]? == some key := by
  rw [handler_of_no_match this e code hpress hno]
  refine ⟨rfl, ⟨rfl, rfl, rfl⟩, rfl, ?_, ?_, ?_⟩
  · simp
  · exact progressCalls_of_reset this.codes
  · intro key
    apply List.filter_congr
    intro c _
    exact looseEq_sequenceAt c 0 key

/-- Witness of claim C4: after `UP`, `UP` on the example instance, the key `A`
is accepted by no candidate. -/
theorem handler_mismatch_resets_witness :
    Idle (handler (typedState exampleInstance [.UP, .UP]) (press .A)).1
      ∧ liveCandidates (handler (typedState exampleInstance [.UP, .UP]) (press .A)).1
          = (typedState exampleInstance [.UP, .UP]).codes
      ∧ callbacks (handler (typedState exampleInstance [.UP, .UP]) (press .A)).2 = []
      ∧ progressCalls (handler (typedState exampleInstance [.UP, .UP]) (press .A)).2
          = ((typedState exampleInstance [.UP, .UP]).codes.filter
              fun c => c.progress.isFunction).map fun c => (c, 0, 0) :=
  have h := handler_mismatch_resets (typedState exampleInstance [.UP, .UP]) (press .A)
    Key.A.toJs (by decide) (by decide)
  ⟨h.2.1, h.2.2.1, h.2.2.2.1, h.2.2.2.2.1⟩

theorem looseEq_invalid (code : Code) (i : Nat) :
    looseEq (code.sequenceAt i) (.num (-1)) = false := by
  unfold looseEq Code.sequenceAt
  cases code.sequence[i]? <;> simp [Key.toJs]

theorem constructor_exampleSetup :
    constructor none exampleSetup = (.ok exampleInstance, some exampleInstance) := by
  rfl

/-- Claim C10, as stated, fails.  On the instance built from `exampleSetup`:
the code `KeyQ` maps to no key (`transcript` gives `-1`), yet after `UP`, `UP`
handling it empties `currentSequence` and makes progress calls; and after
`UP`, `UP`, `DOWN`, with the completion of the short code pending, an event
with neither `code` nor `keyCode` cancels the pending completion. -/
theorem handler_unmapped_changes_session :
    transcript (some (.str "KeyQ")) = .num (-1)
      ∧ (run exampleInstance [.key (press .UP), .key (press .UP)]).1.currentSequence
          = [Key.UP.toJs, Key.UP.toJs]
      ∧ (run exampleInstance
          [.key (press .UP), .key (press .UP), .key { code := some (.str "KeyQ") }]).1.currentSequence
          = []
      ∧ progressCalls (handler (run exampleInstance [.key (press .UP), .key (press .UP)]).1
          { code := some (.str "KeyQ") }).2 = [(storedShort, 0, 0), (storedLong, 0, 0)]
      ∧ (run exampleInstance
          [.key (press .UP), .key (press .UP), .key (press .DOWN)]).1.execTimeout
          = some storedShort
      ∧ (run exampleInstance
          [.key (press .UP), .key (press .UP), .key (press .DOWN), .key {}]).1.execTimeout
          = none := by
  decide

/-- Claim C10, amended.  For every session state: an event with neither
`code` nor `keyCode` leaves `currentSequence`, `validCodes` and the registry
as they were and makes no call at all; an event whose code `transcript` maps
to `-1` is handled as a mismatch: no completion callback is invoked, a
pending deferred completion is cancelled, `progress( 0, 0 )` is called on
every registered code that has a progress function, and the session is reset
to idle. -/
theorem handler_unmapped (this : KonaCode) (e : KeyEvent)
    (h : ∀ code, e.pressed = some code → transcript (some code) = .num (-1)) :
    callbacks (handler this e).2 = []
      ∧ (e.pressed = none →
          (handler this e).1.currentSequence = this.currentSequence
            ∧ (handler this e).1.validCodes = this.validCodes
            ∧ (handler this e).1.codes = this.codes
            ∧ (handler this e).2 = [])
      ∧ (e.pressed ≠ none →
          (handler this e).1
              = { this with currentSequence := [], validCodes := none, execTimeout := none }
            ∧ Idle (handler this e).1
            ∧ progressCalls (handler this e).2
              = (this.codes.filter fun c => c.progress.isFunction).map fun c => (c, 0, 0)) := by
  cases hp : e.pressed with
  | none => simp [handler, hp, cleanExecTimeout]
  | some code =>
    have hm := handler_of_no_match this e code hp
      (by intro c _; rw [h code hp]; exact looseEq_invalid c _)
    rw [hm]
    refine ⟨by simp, by simp, fun _ => ⟨rfl, ⟨rfl, rfl, rfl⟩, progressCalls_of_reset this.codes⟩⟩

/-- Witness of the amended claim C10: the code `KeyQ` after `UP`, `UP`. -/
theorem handler_unmapped_witness :
    callbacks (handler (typedState exampleInstance [.UP, .UP]) { code := some (.str "KeyQ") }).2
        = []
      ∧ Idle (handler (typedState exampleInstance [.UP, .UP])
          { code := some (.str "KeyQ") }).1 :=
  have h := handler_unmapped (typedState exampleInstance [.UP, .UP])
    { code := some (.str "KeyQ") } (by
      intro code hc
      have : code = .str "KeyQ" := by
        have h2 : (KeyEvent.pressed { code := some (.str "KeyQ") }) = some (.str "KeyQ") := by
          decide
        rw [h2] at hc
        exact (Option.some.inj hc).symm
      subst this
      decide)
  ⟨h.1, (h.2.2 (by decide)).2.1⟩

/-! ### Validation of a sequence (`register`, lines 88-105) -/

/-- Total number of characters of the elements, one more for each. -/
theorem joinChars_length (l : List String) :
    (joinChars l).length + 1 = (l.map fun a => a.data.length + 1).sum ∨ l = [] := by
  induction l with
  | nil => right; rfl
  | cons a t ih =>
    left
    cases t with
    | nil => simp [joinChars]
    | cons b r =>
      rcases ih with ih | ih
      · simp only [joinChars, List.length_append, List.length_cons, List.map_cons,
          List.sum_cons] at ih ⊢
        omega
      · cases ih

theorem sum_filter_le (p : JsVal → Bool) (l : List JsVal) :
    ((l.filter p).map fun x => x.toStr.data.length + 1).sum
      ≤ (l.map fun x => x.toStr.data.length + 1).sum := by
  induction l with
  | nil => simp
  | cons a t ih =>
    by_cases h : p a = true
    · rw [List.filter_cons_of_pos h]
      simp only [List.map_cons, List.sum_cons]
      omega
    · rw [List.filter_cons_of_neg h]
      simp only [List.map_cons, List.sum_cons]
      omega

theorem filter_eq_of_sum_eq (p : JsVal → Bool) (l : List JsVal)
    (h : ((l.filter p).map fun x => x.toStr.data.length + 1).sum
      = (l.map fun x => x.toStr.data.length + 1).sum) : l.filter p = l := by
  induction l with
  | nil => rfl
  | cons a t ih =>
    have hle := sum_filter_le p t
    by_cases hp : p a = true
    · simp only [List.filter_cons, hp, if_true, List.map_cons, List.sum_cons] at h ⊢
      rw [ih (by omega)]
    · simp only [List.filter_cons, hp, List.map_cons, List.sum_cons] at h
      exfalso
      have h3 : ((List.filter p t).map fun x => x.toStr.data.length + 1).sum
          = a.toStr.data.length + 1 + (t.map fun x => x.toStr.data.length + 1).sum := by
        simpa using h
      omega

/-- The comparison of the two `join`s in `register` succeeds exactly when the
filter removes nothing. -/
theorem join_filter_eq_iff (p : JsVal → Bool) (l : List JsVal) (hlong : 2 ≤ l.length) :
    join l = join (l.filter p) ↔ ∀ x ∈ l, p x = true := by
  constructor
  · intro h
    have hc : joinChars (l.map JsVal.toStr) = joinChars ((l.filter p).map JsVal.toStr) := by
      simpa [join] using congrArg String.data h
    have hlen := congrArg List.length hc
    rw [← List.filter_eq_self]
    by_cases hnil : l.filter p = []
    · rw [hnil] at hlen ⊢
      simp only [List.map_nil, joinChars, List.length_nil] at hlen
      cases l with
      | nil => rfl
      | cons a t =>
        exfalso
        cases t with
        | nil => simp at hlong
        | cons b r => simp [joinChars] at hlen
    · apply filter_eq_of_sum_eq
      have h1 := joinChars_length (l.map JsVal.toStr)
      have h2 := joinChars_length ((l.filter p).map JsVal.toStr)
      have hl : l ≠ [] := by
        intro hl
        rw [hl] at hnil
        exact hnil rfl
      rcases h1 with h1 | h1
      · rcases h2 with h2 | h2
        · simp only [List.map_map] at h1 h2
          have e1 : ((fun a : String => a.data.length + 1) ∘ JsVal.toStr)
              = fun x : JsVal => x.toStr.data.length + 1 := rfl
          rw [e1] at h1 h2
          omega
        · exact absurd (List.map_eq_nil_iff.mp h2) hnil
      · exact absurd (List.map_eq_nil_iff.mp h1) hl
  · intro h
    rw [List.filter_eq_self.mpr h]

theorem Key.mem_all (key : Key) : key ∈ Key.all := by
  cases key <;> simp [Key.all]

theorem Key.ofJs?_toJs (key : Key) : Key.ofJs? key.toJs = some key := by
  cases key <;> rfl

theorem contains_keysValues (v : JsVal) :
    keysValues.contains v = true ↔ ∃ key : Key, v = key.toJs := by
  show List.elem v keysValues = true ↔ _
  rw [List.elem_iff]
  simp only [keysValues, List.mem_map]
  constructor
  · rintro ⟨key, _, h⟩
    exact ⟨key, h.symm⟩
  · rintro ⟨key, h⟩
    exact ⟨key, Key.mem_all key, h.symm⟩

theorem contains_startKeys (v : JsVal) :
    startKeys.contains v = true
      ↔ ∃ key ∈ [Key.UP, Key.DOWN, Key.LEFT, Key.RIGHT], v = key.toJs := by
  show List.elem v startKeys = true ↔ _
  rw [List.elem_iff]
  constructor
  · intro h
    simp only [startKeys, List.mem_cons, List.mem_singleton, List.not_mem_nil, or_false] at h
    rcases h with h | h | h | h
    · exact ⟨.UP, by simp, h⟩
    · exact ⟨.DOWN, by simp, h⟩
    · exact ⟨.LEFT, by simp, h⟩
    · exact ⟨.RIGHT, by simp, h⟩
  · rintro ⟨key, hk, rfl⟩
    simp only [List.mem_cons, List.mem_singleton, List.not_mem_nil, or_false] at hk
    rcases hk with rfl | rfl | rfl | rfl <;> simp [startKeys]

theorem map_toJs_filterMap_ofJs? (l : List JsVal) (h : ∀ x ∈ l, ∃ key : Key, x = key.toJs) :
    (l.filterMap Key.ofJs?).map Key.toJs = l := by
  induction l with
  | nil => rfl
  | cons a t ih =>
    obtain ⟨key, hk⟩ := h a (List.mem_cons_self a t)
    subst hk
    rw [List.filterMap_cons, Key.ofJs?_toJs]
    simp only [List.map_cons]
    rw [ih fun x hx => h x (List.mem_cons_of_mem _ hx)]

theorem Element.toUpperCase_eq_none (x : Element) :
    x.toUpperCase = none ↔ x.isNullish = true := by
  cases x <;> simp [Element.toUpperCase, Element.isNullish]

/-- On an array without `undefined` and `null` the arrow of line 92 gives a
value for every element. -/
theorem map_toUpperCase_of_not_nullish (xs : List Element)
    (h : xs.any Element.isNullish = false) :
    xs.map Element.toUpperCase = (xs.filterMap Element.toUpperCase).map some := by
  induction xs with
  | nil => rfl
  | cons a t ih =>
    rw [List.any_cons, Bool.or_eq_false_iff] at h
    cases ha : a.toUpperCase with
    | none =>
      rw [(Element.toUpperCase_eq_none a).mp ha] at h
      exact absurd h.1 (by decide)
    | some v =>
      rw [List.map_cons, List.filterMap_cons, ha, ih h.2]
      rfl

theorem sequenceThrows_array (xs : List Element) :
    sequenceThrows (some (.array xs)) = true
      ↔ 3 ≤ xs.length ∧ ∃ x ∈ xs, x.isNullish = true := by
  simp [sequenceThrows]

/-- What lines 88-100 of `register` decide for an array: the entry is kept
exactly when the array is a valid sequence in the sense of the
specification. -/
theorem checkSequence_array (xs : List Element) :
    (ValidSequence (.array xs) →
        ∃ sequence, checkSequence (some (.array xs)) = some sequence
          ∧ xs.map Element.toUpperCase = sequence.map fun key => some key.toJs)
      ∧ (¬ ValidSequence (.array xs) → checkSequence (some (.array xs)) = none) := by
  by_cases hlen : xs.length < 3
  · refine ⟨fun hv => absurd hv.1 (by omega), fun _ => ?_⟩
    simp only [checkSequence, hlen, if_true]
  by_cases hnull : xs.any Element.isNullish = true
  · refine ⟨fun hv => ?_, fun _ => ?_⟩
    · exfalso
      obtain ⟨x, hx, hxn⟩ := List.any_eq_true.mp hnull
      obtain ⟨key, hkey⟩ := hv.2.2 x hx
      rw [(Element.toUpperCase_eq_none x).mpr hxn] at hkey
      cases hkey
    · simp only [checkSequence, hlen, if_false, hnull, if_true]
  have hnull2 : xs.any Element.isNullish = false := by simpa using hnull
  have hmap := map_toUpperCase_of_not_nullish xs hnull2
  have hlen2 : (xs.filterMap Element.toUpperCase).length = xs.length := by
    have := congrArg List.length hmap
    simpa using this.symm
  have hall : (∀ y ∈ xs.filterMap Element.toUpperCase,
        (fun key => keysValues.contains key) y = true)
      ↔ ∀ x ∈ xs, ∃ key : Key, x.toUpperCase = some key.toJs := by
    simp only [contains_keysValues]
    constructor
    · intro h x hx
      have hm : x.toUpperCase ∈ xs.map Element.toUpperCase := List.mem_map.mpr ⟨x, hx, rfl⟩
      rw [hmap] at hm
      obtain ⟨y, hy, hxy⟩ := List.mem_map.mp hm
      obtain ⟨key, hkey⟩ := h y hy
      exact ⟨key, by rw [← hxy, hkey]⟩
    · intro h y hy
      obtain ⟨x, hx, hxy⟩ := List.mem_filterMap.mp hy
      obtain ⟨key, hkey⟩ := h x hx
      rw [hxy] at hkey
      exact ⟨key, Option.some.inj hkey⟩
  have hhead : ((xs.filterMap Element.toUpperCase).head?.any fun k => startKeys.contains k)
        = true
      ↔ ∃ key ∈ [Key.UP, Key.DOWN, Key.LEFT, Key.RIGHT],
          xs.head?.bind Element.toUpperCase = some key.toJs := by
    cases xs with
    | nil => simp
    | cons a t =>
      cases ha : a.toUpperCase with
      | none =>
        rw [List.any_cons, (Element.toUpperCase_eq_none a).mp ha] at hnull2
        cases hnull2
      | some v =>
        simp only [List.filterMap_cons, ha, List.head?_cons, Option.any_some,
          contains_startKeys, Option.some_bind, Option.some.injEq]
  have hjoin := join_filter_eq_iff (fun key => keysValues.contains key)
    (xs.filterMap Element.toUpperCase) (by omega)
  constructor
  · rintro ⟨_, h1, h2⟩
    refine ⟨(xs.filterMap Element.toUpperCase).filterMap Key.ofJs?, ?_, ?_⟩
    · have hj := hjoin.mpr (hall.mpr h2)
      have e1 : (!((xs.filterMap Element.toUpperCase).head?.any
          fun k => startKeys.contains k)) = false := by
        rw [hhead.mpr h1]; rfl
      have e2 : (join (xs.filterMap Element.toUpperCase)
          != join ((xs.filterMap Element.toUpperCase).filter
            fun key => keysValues.contains key)) = false := by
        rw [← hj]; exact bne_self_eq_false _
      simp only [checkSequence, hlen, if_false, hnull, e1, e2, Bool.false_eq_true]
    · rw [hmap]
      have hk := map_toJs_filterMap_ofJs? (xs.filterMap Element.toUpperCase) (by
        intro y hy
        have := (hall.mpr h2) y hy
        exact (contains_keysValues y).mp this)
      nth_rewrite 1 [← hk]
      rw [List.map_map]
      rfl
  · intro hv
    by_cases h1 : ((xs.filterMap Element.toUpperCase).head?.any
        fun k => startKeys.contains k) = true
    · have e1 : (!((xs.filterMap Element.toUpperCase).head?.any
          fun k => startKeys.contains k)) = false := by
        rw [h1]; rfl
      have e2 : (join (xs.filterMap Element.toUpperCase)
          != join ((xs.filterMap Element.toUpperCase).filter
            fun key => keysValues.contains key)) = true := by
        rw [bne_iff_ne]
        intro hj
        exact hv ⟨by omega, hhead.mp h1, hall.mp (hjoin.mp hj)⟩
      simp only [checkSequence, hlen, if_false, hnull, e1, e2, Bool.false_eq_true, if_true]
    · have e1 : (!((xs.filterMap Element.toUpperCase).head?.any
          fun k => startKeys.contains k)) = true := by
        rw [Bool.not_eq_true] at h1
        rw [h1]; rfl
      simp only [checkSequence, hlen, if_false, hnull, e1, if_true, Bool.false_eq_true]

/-- An entry that carries a sequence on which line 92 does not throw: if the
sequence is a list of at least three elements that starts with `UP`, `DOWN`,
`LEFT` or `RIGHT` and has all its elements in the alphabet (strings compared
after upper-casing), `register` adds the entry, as the last entry of the
registry and with the upper-cased sequence; otherwise the entry is skipped
and the registry is unchanged. -/
theorem registerCode_of_sequence (codes : List Code) (code : CodeArg) (arg : SequenceArg)
    (h : code.sequence = some arg) :
    (ValidSequence arg →
        ∃ sequence,
          (∀ xs, arg = .array xs →
              xs.map Element.toUpperCase = sequence.map fun key => some key.toJs)
            ∧ storedCode code sequence ∈ registerCode codes code
            ∧ (registerCode codes code).getLast? = some (storedCode code sequence))
      ∧ (¬ ValidSequence arg → registerCode codes code = codes) := by
  cases arg with
  | other =>
    refine ⟨fun hv => absurd hv (by simp [ValidSequence]), fun _ => ?_⟩
    simp [registerCode, h, checkSequence]
  | array xs =>
    constructor
    · intro hv
      obtain ⟨sequence, hs, hmap⟩ := (checkSequence_array xs).1 hv
      refine ⟨sequence, ?_, ?_, ?_⟩
      · intro ys hy
        cases hy
        exact hmap
      · simp [registerCode, h, hs, storedCode]
      · simp [registerCode, h, hs, storedCode]
    · intro hv
      simp [registerCode, h, (checkSequence_array xs).2 hv]

/-! ### Replacement of a registered sequence (`register`, lines 117-123) -/

theorem Key.name_separator (a b : Key) (x y : List Char)
    (h : a.name.data ++ ',' :: x = b.name.data ++ ',' :: y) : a = b ∧ x = y := by
  cases a <;> cases b <;> simp [Key.name] at h ⊢ <;> exact h

theorem Key.name_ne_separator (a b : Key) (y : List Char) :
    a.name.data ≠ b.name.data ++ ',' :: y := by
  intro h
  cases a <;> cases b <;> simp [Key.name] at h

theorem Key.name_data_ne_nil (a : Key) : a.name.data ≠ [] := by
  cases a <;> simp [Key.name]

theorem Key.name_injective (a b : Key) (h : a.name.data = b.name.data) : a = b := by
  cases a <;> cases b <;> simp [Key.name] at h ⊢

/-- Two stored sequences with the same `join` are the same sequence: no key
string contains the separator. -/
theorem joinChars_keys_injective :
    ∀ a b : List Key, joinChars (a.map Key.name) = joinChars (b.map Key.name) → a = b
  | [], [] => fun _ => rfl
  | [], [b] => fun h => absurd h.symm (by simpa [joinChars] using Key.name_data_ne_nil b)
  | [], b :: b2 :: r => fun h => by simp [joinChars] at h
  | [a], [] => fun h => absurd h (by simpa [joinChars] using Key.name_data_ne_nil a)
  | a :: a2 :: r, [] => fun h => by simp [joinChars] at h
  | [a], [b] => fun h => by
    rw [Key.name_injective a b (by simpa [joinChars] using h)]
  | [a], b :: b2 :: r => fun h => by
    exact absurd (by simpa [joinChars] using h) (Key.name_ne_separator a b _)
  | a :: a2 :: r, [b] => fun h => by
    exact absurd (by simpa [joinChars] using h.symm) (Key.name_ne_separator b a _)
  | a :: a2 :: r, b :: b2 :: r2 => fun h => by
    have h2 := Key.name_separator a b _ _ (by simpa [joinChars] using h)
    have ih := joinChars_keys_injective (a2 :: r) (b2 :: r2) (by simpa using h2.2)
    rw [h2.1, ih]

theorem sameSequence_iff (code c : Code) :
    sameSequence code c = true ↔ c.sequence = code.sequence := by
  unfold sameSequence
  rw [beq_iff_eq]
  constructor
  · intro h
    apply joinChars_keys_injective
    have h2 := congrArg String.data h
    simpa [join, List.map_map, Function.comp_def, Key.toJs, JsVal.toStr] using h2
  · intro h
    rw [h]

theorem sameSequence_eq (code : Code) :
    sameSequence code = fun c => c.sequence == code.sequence := by
  funext c
  rw [Bool.eq_iff_iff, sameSequence_iff, beq_iff_eq]

/-- Removing the first entry with a given sequence removes every entry with
that sequence, when no two entries share a sequence. -/
theorem eraseIdx_findIdx_eq_filter (sequence : List Key) (codes : List Code)
    (h : (codes.map Code.sequence).Nodup) :
    (if (codes.find? fun c => c.sequence == sequence).isSome then
        codes.eraseIdx (codes.findIdx fun c => c.sequence == sequence)
      else codes)
      = codes.filter fun c => c.sequence != sequence := by
  induction codes with
  | nil => rfl
  | cons a t ih =>
    rw [List.map_cons, List.nodup_cons] at h
    by_cases ha : a.sequence = sequence
    · have hrest : ∀ c ∈ t, (c.sequence != sequence) = true := by
        intro c hc
        rw [bne_iff_ne]
        intro hcs
        exact h.1 (List.mem_map.mpr ⟨c, hc, by rw [hcs, ha]⟩)
      simp [List.find?_cons, List.findIdx_cons, ha, List.filter_cons,
        List.filter_eq_self.mpr hrest]
    · have ih2 := ih h.2
      have hb : (a.sequence == sequence) = false := by simpa using ha
      by_cases hf : (t.find? fun c => c.sequence == sequence).isSome = true
      · rw [if_pos hf] at ih2
        simp [List.find?_cons, List.findIdx_cons, ha, hb, List.filter_cons, hf, ih2]
      · rw [if_neg hf] at ih2
        simp [List.find?_cons, List.findIdx_cons, ha, hb, List.filter_cons, hf, ← ih2]

/-- One turn of the loop of `register` on a registry without repeated
sequences: the entry with the same sequence, if any, is dropped and the new
entry is appended. -/
theorem registerCode_eq (codes : List Code) (code : CodeArg) (sequence : List Key)
    (h : (codes.map Code.sequence).Nodup) (hs : checkSequence code.sequence = some sequence) :
    registerCode codes code
      = (codes.filter fun c => c.sequence != sequence) ++ [storedCode code sequence] := by
  have e := eraseIdx_findIdx_eq_filter sequence codes h
  unfold registerCode
  rw [hs]
  simp only [sameSequence_eq]
  rw [e]
  rfl

theorem registerCode_nodup (codes : List Code) (code : CodeArg)
    (h : (codes.map Code.sequence).Nodup) :
    ((registerCode codes code).map Code.sequence).Nodup := by
  cases hs : checkSequence code.sequence with
  | none => simpa [registerCode, hs] using h
  | some sequence =>
    rw [registerCode_eq codes code sequence h hs, List.map_append, List.nodup_append]
    refine ⟨(List.filter_sublist _).map _ |>.nodup h, by simp, ?_⟩
    intro x hx hy
    obtain ⟨c, hc, rfl⟩ := List.mem_map.mp hx
    have hc2 := (List.mem_filter.mp hc).2
    rw [bne_iff_ne] at hc2
    simp [storedCode] at hy
    exact hc2 hy

theorem foldl_registerCode_nodup (entries : List CodeArg) (codes : List Code)
    (h : (codes.map Code.sequence).Nodup) :
    ((entries.foldl registerCode codes).map Code.sequence).Nodup := by
  induction entries generalizing codes with
  | nil => exact h
  | cons a t ih => exact ih _ (registerCode_nodup codes a h)

/-- The loop of `register`: it throws exactly when line 92 throws on one of
the entries, and it leaves in `this.codes` what the entries before that one
give. -/
theorem registerLoop_eq (codes : List Code) (entries : List CodeArg) :
    registerLoop codes entries
      = if entries.any (fun code => sequenceThrows code.sequence) then
          .error ((entries.takeWhile fun code => !sequenceThrows code.sequence).foldl
            registerCode codes)
        else .ok (entries.foldl registerCode codes) := by
  induction entries generalizing codes with
  | nil => rfl
  | cons a t ih =>
    by_cases ha : sequenceThrows a.sequence = true
    · simp [registerLoop, ha]
    · have hf : sequenceThrows a.sequence = false := by simpa using ha
      simp only [registerLoop, hf, Bool.false_eq_true, if_false, ih, List.any_cons,
        Bool.false_or, List.takeWhile_cons, Bool.not_false, if_true, List.foldl_cons]

theorem takeWhile_of_not_any (entries : List CodeArg)
    (h : entries.any (fun code => sequenceThrows code.sequence) = false) :
    (entries.takeWhile fun code => !sequenceThrows code.sequence) = entries := by
  rw [List.takeWhile_eq_self_iff]
  intro code hc
  have := List.any_eq_false.mp h code hc
  simpa using this

/-- A call of `register` with an argument: the call throws exactly when line
92 throws on an entry; in both cases `this.codes` holds what the entries the
call got through give. -/
theorem register_some (thisCodes : Option (List Code)) (arg : CodesArg) :
    register thisCodes (some arg)
      = if (suppliedEntries (some arg)).any (fun code => sequenceThrows code.sequence) then
          .error { message := "TypeError"
                   codes := some ((entriesOf (some arg)).foldl registerCode
                    (thisCodes.getD [])) }
        else .ok ((entriesOf (some arg)).foldl registerCode (thisCodes.getD [])) := by
  have key : ∀ entries : List CodeArg,
      (match registerLoop (thisCodes.getD []) entries with
        | .ok codes => (.ok codes : Except RegisterError (List Code))
        | .error codes => .error { message := "TypeError", codes := some codes })
      = if entries.any (fun code => sequenceThrows code.sequence) then
          .error { message := "TypeError"
                   codes := some ((entries.takeWhile fun code =>
                    !sequenceThrows code.sequence).foldl registerCode (thisCodes.getD [])) }
        else .ok ((entries.takeWhile fun code =>
                    !sequenceThrows code.sequence).foldl registerCode (thisCodes.getD [])) := by
    intro entries
    rw [registerLoop_eq]
    by_cases h : entries.any (fun code => sequenceThrows code.sequence) = true
    · simp only [h, if_true]
    · have hf : entries.any (fun code => sequenceThrows code.sequence) = false := by
        simpa using h
      simp only [hf, Bool.false_eq_true, if_false, takeWhile_of_not_any entries hf]
  cases arg with
  | single code => exact key [code]
  | array codes => exact key codes

theorem registerSeries_getD (calls : List (Option CodesArg)) (cur : Option (List Code)) :
    (registerSeries cur calls).getD []
      = (calls.flatMap entriesOf).foldl registerCode (cur.getD []) := by
  induction calls generalizing cur with
  | nil => rfl
  | cons arg rest ih =>
    have hstep : registerSeries cur (arg :: rest)
        = registerSeries
            (match register cur arg with
              | .ok codes => some codes
              | .error e => e.codes) rest := rfl
    rw [hstep, ih, List.flatMap_cons, List.foldl_append]
    cases arg with
    | none => rfl
    | some a =>
      rw [register_some]
      split_ifs <;> rfl

theorem mem_registerCode_of_mem (codes : List Code) (code : CodeArg) (c : Code)
    (h : (codes.map Code.sequence).Nodup) (hc : c ∈ codes)
    (hne : checkSequence code.sequence ≠ some c.sequence) : c ∈ registerCode codes code := by
  cases hs : checkSequence code.sequence with
  | none => simpa [registerCode, hs] using hc
  | some sequence =>
    rw [registerCode_eq codes code sequence h hs]
    apply List.mem_append_left
    rw [List.mem_filter, bne_iff_ne]
    refine ⟨hc, fun hcs => hne ?_⟩
    rw [hs, hcs]

theorem mem_foldl_registerCode (after : List CodeArg) (codes : List Code) (c : Code)
    (h : (codes.map Code.sequence).Nodup) (hc : c ∈ codes)
    (hne : ∀ later ∈ after, checkSequence later.sequence ≠ some c.sequence) :
    c ∈ after.foldl registerCode codes := by
  induction after generalizing codes with
  | nil => exact hc
  | cons a t ih =>
    exact ih _ (registerCode_nodup codes a h)
      (mem_registerCode_of_mem codes a c h hc (hne a (List.mem_cons_self a t)))
      (fun later hl => hne later (List.mem_cons_of_mem _ hl))

theorem filter_sublist_registerCode (codes : List Code) (code : CodeArg)
    (h : (codes.map Code.sequence).Nodup) :
    List.Sublist (codes.filter fun c => checkSequence code.sequence != some c.sequence)
      (registerCode codes code) := by
  cases hs : checkSequence code.sequence with
  | none => simp [registerCode, hs]
  | some sequence =>
    rw [registerCode_eq codes code sequence h hs]
    have e : (fun c : Code => some sequence != some c.sequence)
        = fun c : Code => c.sequence != sequence := by
      funext c
      rw [Bool.eq_iff_iff, bne_iff_ne, bne_iff_ne]
      constructor
      · intro hne hcs
        exact hne (by rw [hcs])
      · intro hne hcs
        exact hne (Option.some.inj hcs).symm
    rw [e]
    exact List.sublist_append_left _ _

theorem filter_sublist_foldl_registerCode (after : List CodeArg) (codes : List Code)
    (h : (codes.map Code.sequence).Nodup) :
    List.Sublist
      (codes.filter fun c => after.all fun code => checkSequence code.sequence != some c.sequence)
      (after.foldl registerCode codes) := by
  induction after generalizing codes with
  | nil => simp
  | cons a t ih =>
    have h1 := (filter_sublist_registerCode codes a h).filter
      (fun c => t.all fun code => checkSequence code.sequence != some c.sequence)
    rw [List.filter_filter] at h1
    have h2 := ih (registerCode codes a) (registerCode_nodup codes a h)
    have e : (fun c : Code =>
          (a :: t).all fun code => checkSequence code.sequence != some c.sequence)
        = fun c : Code =>
          (t.all fun code => checkSequence code.sequence != some c.sequence)
            && (checkSequence a.sequence != some c.sequence) := by
      funext c
      rw [List.all_cons, Bool.and_comm]
    rw [e]
    exact h1.trans h2

/-- Claim C7. After any series of calls of `register` on a new instance: no
two entries of the registry have the same sequence; an entry that passed
validation and whose sequence was not registered again later is in the
registry, and it is the only entry with that sequence (last write wins); and
the entries present after any earlier part of the series whose sequence is
not registered again afterwards stay, in their relative order. -/
theorem registerSeries_lastWriteWins (calls : List (Option CodesArg)) :
    (((registerSeries none calls).getD []).map Code.sequence).Nodup
      ∧ (∀ before code after sequence,
          calls.flatMap entriesOf = before ++ code :: after →
          checkSequence code.sequence = some sequence →
          (∀ later ∈ after, checkSequence later.sequence ≠ some sequence) →
          storedCode code sequence ∈ (registerSeries none calls).getD []
            ∧ ∀ c ∈ (registerSeries none calls).getD [],
                c.sequence = sequence → c = storedCode code sequence)
      ∧ (∀ earlier later, calls = earlier ++ later →
          List.Sublist
            (((registerSeries none earlier).getD []).filter fun c =>
              (later.flatMap entriesOf).all fun code =>
                checkSequence code.sequence != some c.sequence)
            ((registerSeries none calls).getD [])) := by
  have hnd : ∀ cs : List (Option CodesArg),
      (((registerSeries none cs).getD []).map Code.sequence).Nodup := by
    intro cs
    rw [registerSeries_getD]
    exact foldl_registerCode_nodup _ _ (by simp)
  refine ⟨hnd calls, ?_, ?_⟩
  · intro before code after sequence hsplit hs hlater
    have hmem : storedCode code sequence ∈ (registerSeries none calls).getD [] := by
      rw [registerSeries_getD, hsplit, List.foldl_append, List.foldl_cons]
      have hb : ((before.foldl registerCode []).map Code.sequence).Nodup :=
        foldl_registerCode_nodup _ _ (by simp)
      apply mem_foldl_registerCode after _ _ (registerCode_nodup _ code hb)
      · rw [registerCode_eq _ code sequence hb hs]
        simp
      · exact hlater
    refine ⟨hmem, fun c hc hcs => ?_⟩
    exact List.inj_on_of_nodup_map (hnd calls) hc hmem (by rw [hcs]; rfl)
  · intro earlier later hsplit
    have h1 := filter_sublist_foldl_registerCode (later.flatMap entriesOf)
      ((registerSeries none earlier).getD []) (hnd earlier)
    have e : (registerSeries none calls).getD []
        = (later.flatMap entriesOf).foldl registerCode ((registerSeries none earlier).getD []) := by
      rw [registerSeries_getD, registerSeries_getD, hsplit, List.flatMap_append,
        List.foldl_append]
    rw [e]
    exact h1

/-- Witness of claim C7: the short example code registered twice, the second
time without callbacks, with the long example code in between. -/
theorem registerSeries_lastWriteWins_witness :
    storedCode exampleMute [.UP, .UP, .DOWN]
        ∈ (registerSeries none
            [some (.array [exampleShort, exampleLong]), some (.single exampleMute)]).getD []
      ∧ ∀ c ∈ (registerSeries none
            [some (.array [exampleShort, exampleLong]), some (.single exampleMute)]).getD [],
          c.sequence = [.UP, .UP, .DOWN] → c = storedCode exampleMute [.UP, .UP, .DOWN] :=
  (registerSeries_lastWriteWins
    [some (.array [exampleShort, exampleLong]), some (.single exampleMute)]).2.1
    [exampleShort, exampleLong] exampleMute [] [.UP, .UP, .DOWN] rfl (by decide)
    (fun _ h => absurd h (List.not_mem_nil _))

/-- Every stored sequence has at least three keys. -/
theorem checkSequence_length (arg : Option SequenceArg) (sequence : List Key)
    (h : checkSequence arg = some sequence) : 3 ≤ sequence.length := by
  match arg with
  | none =>
    simp only [checkSequence, Option.some.injEq] at h
    rw [← h]
    decide
  | some .other => simp [checkSequence] at h
  | some (.array xs) =>
    by_cases hv : ValidSequence (.array xs)
    · obtain ⟨ks, hks, hmap⟩ := (checkSequence_array xs).1 hv
      rw [hks, Option.some.injEq] at h
      have hlen := congrArg List.length hmap
      simp only [List.length_map] at hlen
      rw [← h, ← hlen]
      exact hv.1
    · rw [(checkSequence_array xs).2 hv] at h
      cases h

theorem registerCode_length (codes : List Code) (code : CodeArg)
    (h : ∀ c ∈ codes, 3 ≤ c.sequence.length) :
    ∀ c ∈ registerCode codes code, 3 ≤ c.sequence.length := by
  intro c hc
  unfold registerCode at hc
  cases hs : checkSequence code.sequence with
  | none =>
    rw [hs] at hc
    exact h c hc
  | some sequence =>
    rw [hs] at hc
    simp only [List.mem_append, List.mem_singleton] at hc
    rcases hc with hc | hc
    · split at hc
      · exact h c (List.mem_of_mem_eraseIdx hc)
      · exact h c hc
    · rw [hc]
      exact checkSequence_length _ _ hs

/-- The registry built by any series of calls of `register` holds only
sequences of at least three keys. -/
theorem registerSeries_length (calls : List (Option CodesArg)) :
    ∀ c ∈ (registerSeries none calls).getD [], 3 ≤ c.sequence.length := by
  rw [registerSeries_getD]
  have h : ∀ (entries : List CodeArg) (codes : List Code),
      (∀ c ∈ codes, 3 ≤ c.sequence.length) →
      ∀ c ∈ entries.foldl registerCode codes, 3 ≤ c.sequence.length := by
    intro entries
    induction entries with
    | nil => intro codes hc; exact hc
    | cons a t ih => intro codes hc; exact ih _ (registerCode_length codes a hc)
  exact h _ _ (by simp)

/-! ### The constructor -/

theorem registerCode_ne_nil (codes : List Code) (code : CodeArg)
    (h : codes ≠ [] ∨ (checkSequence code.sequence).isSome = true) :
    registerCode codes code ≠ [] := by
  cases hs : checkSequence code.sequence with
  | none =>
    rcases h with h | h
    · simpa [registerCode, hs] using h
    · simp [hs] at h
  | some sequence => simp [registerCode, hs]

theorem foldl_registerCode_ne_nil (entries : List CodeArg) (codes : List Code)
    (h : codes ≠ []) : entries.foldl registerCode codes ≠ [] := by
  induction entries generalizing codes with
  | nil => exact h
  | cons a t ih => exact ih _ (registerCode_ne_nil codes a (Or.inl h))

theorem foldl_registerCode_eq_nil_iff (entries : List CodeArg) :
    entries.foldl registerCode [] = []
      ↔ ∀ code ∈ entries, checkSequence code.sequence = none := by
  induction entries with
  | nil => simp
  | cons a t ih =>
    cases hs : checkSequence a.sequence with
    | none =>
      have e : registerCode [] a = [] := by simp [registerCode, hs]
      rw [List.foldl_cons, e, ih]
      simp [hs]
    | some sequence =>
      have hne := foldl_registerCode_ne_nil t (registerCode [] a)
        (registerCode_ne_nil [] a (Or.inr (by simp [hs])))
      rw [List.foldl_cons]
      simp [hne, hs]

/-- A call of `register` on a new instance on whose entries line 92 does not
throw. -/
theorem register_none_eq (codes : Option CodesArg) (h : codes ≠ none)
    (hno : (suppliedEntries codes).any (fun code => sequenceThrows code.sequence) = false) :
    register none codes = .ok ((suppliedEntries codes).foldl registerCode []) := by
  cases codes with
  | none => exact absurd rfl h
  | some a =>
    rw [register_some, hno]
    simp only [Bool.false_eq_true, if_false, entriesOf, takeWhile_of_not_any _ hno]
    rfl

/-- The outcomes of the constructor, line by line: the four errors thrown
before the instance is recorded leave `KonaCode.n_n` as it was; the three
errors thrown by the calls that need the page leave the instance in it. -/
theorem constructor_cases (n_n : Option KonaCode) (setup : Setup) (page : Page) :
    (n_n.isSome = true →
        constructor n_n setup page = (.error "Only one instance of KC allowed", n_n))
      ∧ (n_n.isSome = false → setup.codes = none →
        constructor n_n setup page = (.error "You have to define at least 1 code", n_n))
      ∧ (n_n.isSome = false →
        (suppliedEntries setup.codes).any (fun code => sequenceThrows code.sequence) = true →
        constructor n_n setup page = (.error "TypeError", n_n))
      ∧ (n_n.isSome = false → setup.codes ≠ none →
        (suppliedEntries setup.codes).any (fun code => sequenceThrows code.sequence) = false →
        (∀ code ∈ suppliedEntries setup.codes, checkSequence code.sequence = none) →
        constructor n_n setup page = (.error "You have to define at least 1 valid code", n_n))
      ∧ (n_n.isSome = false → setup.codes ≠ none →
        (suppliedEntries setup.codes).any (fun code => sequenceThrows code.sequence) = false →
        (∃ code ∈ suppliedEntries setup.codes, (checkSequence code.sequence).isSome = true) →
        (page.domParser = false ∨ page.head = false
            ∨ (setup.feedback = some true ∧ page.body = false) →
          ∃ msg this, constructor n_n setup page = (.error msg, some this)
            ∧ this.codes = (suppliedEntries setup.codes).foldl registerCode [])
        ∧ (page.domParser = true → page.head = true →
            (setup.feedback = some true → page.body = true) →
          ∃ this, constructor n_n setup page = (.ok this, some this)
            ∧ this.codes = (suppliedEntries setup.codes).foldl registerCode [])) := by
  refine ⟨fun hm => by simp [constructor, hm], fun hm hc => ?_, fun hm ht => ?_,
    fun hm hc hno hall => ?_, fun hm hc hno hsome => ?_⟩
  · have hm2 : n_n = none := by simpa using hm
    simp [constructor, hm2, hc, register]
  · have hm2 : n_n = none := by simpa using hm
    cases hcodes : setup.codes with
    | none => rw [hcodes] at ht; simp [suppliedEntries] at ht
    | some a =>
      rw [hcodes] at ht
      simp only [constructor, hm2, Option.isSome_none, Bool.false_eq_true, if_false, hcodes,
        register_some, ht, if_true]
  · have hm2 : n_n = none := by simpa using hm
    have hr := register_none_eq setup.codes hc hno
    have hnil := (foldl_registerCode_eq_nil_iff _).mpr hall
    simp [constructor, hm2, hr, hnil]
  · have hm2 : n_n = none := by simpa using hm
    have hr := register_none_eq setup.codes hc hno
    have hne : (suppliedEntries setup.codes).foldl registerCode [] ≠ [] := by
      intro hnil
      obtain ⟨code, hcode, hs⟩ := hsome
      rw [(foldl_registerCode_eq_nil_iff _).mp hnil code hcode] at hs
      simp at hs
    constructor
    · intro hpage
      by_cases h1 : page.domParser = true
      · by_cases h2 : page.head = true
        · rcases hpage with h | h | ⟨hf, hb⟩
          · rw [h] at h1; cases h1
          · rw [h] at h2; cases h2
          · exact ⟨"TypeError",
              { codes := (suppliedEntries setup.codes).foldl registerCode []
                joystickEnable := setup.joystickEnable.getD true, feedbackEnable := true },
              by simp [constructor, hm2, hr, hne, h1, h2, hf, hb], rfl⟩
        · exact ⟨"TypeError", { codes := (suppliedEntries setup.codes).foldl registerCode [] },
            by simp [constructor, hm2, hr, hne, h1, h2], rfl⟩
      · exact ⟨"ReferenceError",
          { codes := (suppliedEntries setup.codes).foldl registerCode [] },
          by simp [constructor, hm2, hr, hne, h1], rfl⟩
    · intro h1 h2 hb
      by_cases hf : setup.feedback = some true
      · exact ⟨{ codes := (suppliedEntries setup.codes).foldl registerCode []
                 joystickEnable := setup.joystickEnable.getD true, feedbackEnable := true },
          by simp [constructor, hm2, hr, hne, h1, h2, hf, hb hf], rfl⟩
      · have hf2 : setup.feedback.getD false = false := by
          cases hfe : setup.feedback with
          | none => rfl
          | some b =>
            cases b with
            | false => rfl
            | true => exact absurd hfe hf
        exact ⟨{ codes := (suppliedEntries setup.codes).foldl registerCode []
                 joystickEnable := setup.joystickEnable.getD true, feedbackEnable := false },
          by simp [constructor, hm2, hr, hne, h1, h2, hf2], rfl⟩

/-- When the constructor throws and when it does not, and what it leaves in
`KonaCode.n_n`. -/
theorem constructor_error_iff (n_n : Option KonaCode) (setup : Setup) (page : Page) :
    ((∃ msg, (constructor n_n setup page).1 = .error msg)
        ↔ (n_n.isSome = true ∨ setup.codes = none
            ∨ (∃ code ∈ suppliedEntries setup.codes, sequenceThrows code.sequence = true)
            ∨ (∀ code ∈ suppliedEntries setup.codes, checkSequence code.sequence = none)
            ∨ page.domParser = false ∨ page.head = false
            ∨ (setup.feedback = some true ∧ page.body = false)))
      ∧ ((n_n.isSome = true ∨ setup.codes = none
            ∨ (∃ code ∈ suppliedEntries setup.codes, sequenceThrows code.sequence = true)
            ∨ (∀ code ∈ suppliedEntries setup.codes, checkSequence code.sequence = none)) →
          (constructor n_n setup page).2 = n_n)
      ∧ (¬ (n_n.isSome = true ∨ setup.codes = none
            ∨ (∃ code ∈ suppliedEntries setup.codes, sequenceThrows code.sequence = true)
            ∨ (∀ code ∈ suppliedEntries setup.codes, checkSequence code.sequence = none)) →
          ∃ this, (constructor n_n setup page).2 = some this
            ∧ this.codes = (suppliedEntries setup.codes).foldl registerCode [])
      ∧ (∀ this, (constructor n_n setup page).1 = .ok this →
          (constructor n_n setup page).2 = some this) := by
  have hc := constructor_cases n_n setup page
  by_cases hm : n_n.isSome = true
  · rw [hc.1 hm]
    exact ⟨⟨fun _ => Or.inl hm, fun _ => ⟨_, rfl⟩⟩, fun _ => rfl,
      fun h => absurd (Or.inl hm) h, fun this h => by cases h⟩
  have hm2 : n_n.isSome = false := by simpa using hm
  by_cases hcodes : setup.codes = none
  · rw [hc.2.1 hm2 hcodes]
    exact ⟨⟨fun _ => Or.inr (Or.inl hcodes), fun _ => ⟨_, rfl⟩⟩, fun _ => rfl,
      fun h => absurd (Or.inr (Or.inl hcodes)) h, fun this h => by cases h⟩
  by_cases ht : (suppliedEntries setup.codes).any (fun code => sequenceThrows code.sequence)
      = true
  · have hex : ∃ code ∈ suppliedEntries setup.codes, sequenceThrows code.sequence = true :=
      List.any_eq_true.mp ht
    rw [hc.2.2.1 hm2 ht]
    exact ⟨⟨fun _ => Or.inr (Or.inr (Or.inl hex)), fun _ => ⟨_, rfl⟩⟩, fun _ => rfl,
      fun h => absurd (Or.inr (Or.inr (Or.inl hex))) h, fun this h => by cases h⟩
  have ht2 : (suppliedEntries setup.codes).any (fun code => sequenceThrows code.sequence)
      = false := by simpa using ht
  have hnex : ¬ ∃ code ∈ suppliedEntries setup.codes, sequenceThrows code.sequence = true :=
    fun h => ht (List.any_eq_true.mpr h)
  by_cases hall : ∀ code ∈ suppliedEntries setup.codes, checkSequence code.sequence = none
  · rw [hc.2.2.2.1 hm2 hcodes ht2 hall]
    exact ⟨⟨fun _ => Or.inr (Or.inr (Or.inr (Or.inl hall))), fun _ => ⟨_, rfl⟩⟩, fun _ => rfl,
      fun h => absurd (Or.inr (Or.inr (Or.inr hall))) h, fun this h => by cases h⟩
  have hsome : ∃ code ∈ suppliedEntries setup.codes,
      (checkSequence code.sequence).isSome = true := by
    by_contra hcon
    apply hall
    intro code hcode
    cases hs : checkSequence code.sequence with
    | none => rfl
    | some sequence => exact absurd ⟨code, hcode, by simp [hs]⟩ hcon
  have hfirst : ¬ (n_n.isSome = true ∨ setup.codes = none
      ∨ (∃ code ∈ suppliedEntries setup.codes, sequenceThrows code.sequence = true)
      ∨ (∀ code ∈ suppliedEntries setup.codes, checkSequence code.sequence = none)) := by
    rintro (h | h | h | h)
    · exact hm h
    · exact hcodes h
    · exact hnex h
    · exact hall h
  have h5 := hc.2.2.2.2 hm2 hcodes ht2 hsome
  by_cases hpage : page.domParser = false ∨ page.head = false
      ∨ (setup.feedback = some true ∧ page.body = false)
  · obtain ⟨msg, this, he, hcs⟩ := h5.1 hpage
    rw [he]
    exact ⟨⟨fun _ => Or.inr (Or.inr (Or.inr (Or.inr hpage))), fun _ => ⟨_, rfl⟩⟩,
      fun h => absurd h hfirst, fun _ => ⟨this, rfl, hcs⟩, fun this h => by cases h⟩
  · have h1 : page.domParser = true := by
      by_contra h
      exact hpage (Or.inl (by simpa using h))
    have h2 : page.head = true := by
      by_contra h
      exact hpage (Or.inr (Or.inl (by simpa using h)))
    have h3 : setup.feedback = some true → page.body = true := by
      intro hf
      by_contra h
      exact hpage (Or.inr (Or.inr ⟨hf, by simpa using h⟩))
    obtain ⟨this, he, hcs⟩ := h5.2 h1 h2 h3
    rw [he]
    refine ⟨⟨fun ⟨msg, h⟩ => Except.noConfusion h, fun h => ?_⟩, fun h => absurd h hfirst,
      fun _ => ⟨this, rfl, hcs⟩, fun that h => ?_⟩
    · rcases h with h | h | h | h | h
      · exact absurd h hm
      · exact absurd h hcodes
      · exact absurd h hnex
      · exact absurd h hall
      · exact absurd h hpage
    · cases h
      rfl

/-- What the hypotheses of the matcher theorems ask of an instance holds of
every constructed one, whatever the page: it is idle, no two of its codes have
the same sequence, and every sequence has at least three keys. -/
theorem constructor_ok (n_n : Option KonaCode) (setup : Setup) (page : Page) (this : KonaCode)
    (h : (constructor n_n setup page).1 = .ok this) :
    Idle this ∧ (this.codes.map Code.sequence).Nodup
      ∧ ∀ c ∈ this.codes, 3 ≤ c.sequence.length := by
  have hser : ∀ codes, register none setup.codes = .ok codes →
      codes = (registerSeries none [setup.codes]).getD [] := by
    intro codes hc
    have e : registerSeries none [setup.codes]
        = match register none setup.codes with
          | .ok codes => some codes
          | .error e => e.codes := rfl
    rw [e, hc]
    rfl
  unfold constructor at h
  by_cases hm : n_n.isSome = true
  · simp [hm] at h
  · cases hr : register none setup.codes with
    | error msg => simp [hm, hr] at h
    | ok codes =>
      by_cases hl : codes.length = 0
      · simp [hm, hr, hl] at h
      · simp only [hm, hr, hl, if_false, Bool.false_eq_true] at h
        split_ifs at h
        simp only [Except.ok.injEq] at h
        subst h
        refine ⟨⟨rfl, rfl, rfl⟩, ?_, ?_⟩
        · show (codes.map Code.sequence).Nodup
          rw [hser codes hr, registerSeries_getD]
          exact foldl_registerCode_nodup _ _ (by simp)
        · show ∀ c ∈ codes, 3 ≤ c.sequence.length
          rw [hser codes hr]
          exact registerSeries_length [setup.codes]

/-! ### Errors that `register` and the constructor do not announce -/

/-- Claim C6 fails in the code.  An entry whose sequence is an array of at
least three elements, one of them `undefined` or `null`, is not skipped: line
92 throws a `TypeError` on it.  With the registry `[short]`, registering the
entry `UP, UP, undefined` throws, alone or followed by the long example code,
and the long code, which is valid and is stored when it is registered without
it, is not registered.  In general `register` throws exactly when one of the
entries passed has such a sequence.  For every entry with a sequence on which
line 92 does not throw the claim holds: the call for the entry alone returns
normally; the entry is added, as the last entry and with the upper-cased
sequence, when the sequence is valid, and the registry is unchanged when it
is not.  Upper-casing is that of JavaScript: `right` written with the dotless
i is stored as `RIGHT`. -/
theorem undefined_element_throws :
    exampleBroken.sequence = some (.array [.str "UP", .str "UP", .undefined])
      ∧ ¬ ValidSequence (.array [.str "UP", .str "UP", .undefined])
      ∧ register (some [storedShort]) (some (.single exampleBroken))
          = .error { message := "TypeError", codes := some [storedShort] }
      ∧ register (some [storedShort]) (some (.array [exampleBroken, exampleLong]))
          = .error { message := "TypeError", codes := some [storedShort] }
      ∧ register (some [storedShort]) (some (.single exampleLong))
          = .ok [storedShort, storedLong]
      ∧ (∀ (thisCodes : Option (List Code)) (arg : CodesArg),
          (∃ e, register thisCodes (some arg) = .error e)
            ↔ ∃ code ∈ suppliedEntries (some arg), sequenceThrows code.sequence = true)
      ∧ (∀ xs : List Element,
          sequenceThrows (some (.array xs)) = true
            ↔ 3 ≤ xs.length ∧ ∃ x ∈ xs, x = .undefined ∨ x = .null)
      ∧ (∀ (codes : List Code) (code : CodeArg) (arg : SequenceArg),
          code.sequence = some arg → sequenceThrows code.sequence = false →
          register (some codes) (some (.single code)) = .ok (registerCode codes code)
            ∧ (ValidSequence arg →
                ∃ sequence,
                  (∀ xs, arg = .array xs →
                      xs.map Element.toUpperCase = sequence.map fun key => some key.toJs)
                    ∧ storedCode code sequence ∈ registerCode codes code
                    ∧ (registerCode codes code).getLast? = some (storedCode code sequence))
            ∧ (¬ ValidSequence arg → registerCode codes code = codes))
      ∧ registerCode [] exampleDotless = [storedCode exampleDotless [.RIGHT, .UP, .UP]] := by
  refine ⟨rfl, ?_, rfl, rfl, rfl, ?_, ?_, ?_, by decide⟩
  · intro h
    obtain ⟨key, hkey⟩ := h.2.2 .undefined (by simp)
    cases hkey
  · intro thisCodes arg
    rw [register_some]
    by_cases ht : (suppliedEntries (some arg)).any (fun code => sequenceThrows code.sequence)
        = true
    · rw [if_pos ht]
      exact ⟨fun _ => List.any_eq_true.mp ht, fun _ => ⟨_, rfl⟩⟩
    · rw [if_neg ht]
      exact ⟨fun ⟨e, h⟩ => Except.noConfusion h, fun h => absurd (List.any_eq_true.mpr h) ht⟩
  · intro xs
    rw [sequenceThrows_array]
    constructor
    · rintro ⟨hl, x, hx, hn⟩
      refine ⟨hl, x, hx, ?_⟩
      cases x <;> simp [Element.isNullish] at hn ⊢
    · rintro ⟨hl, x, hx, hn⟩
      refine ⟨hl, x, hx, ?_⟩
      rcases hn with rfl | rfl <;> rfl
  · intro codes code arg h hno
    have hv := registerCode_of_sequence codes code arg h
    refine ⟨?_, hv.1, hv.2⟩
    simp [register, registerLoop, hno]

/-- Claim C8 fails in the code.  The instance is recorded in `KonaCode.n_n` at
line 43, before the calls of lines 47-69 that can throw.  On a page without
`document.body` (a script of the `head`), the construction from the two
example codes with `feedback: true` throws a `TypeError` and leaves the
half-built instance in the slot, so that every later construction throws
`Only one instance of KC allowed`, although no construction ever succeeded;
on a page with a body the same setup constructs.  A setup with an `undefined`
element throws a `TypeError` too, although another of its entries is valid
(the slot is unchanged there).  In general the constructor throws exactly
when an instance is recorded, or `setup.codes` is missing, or line 92 throws
on an entry, or no entry passes the validation, or one of the calls that need
the page fails; the slot is unchanged in the first four cases and holds the
new instance in all others.  What is left of the claim: on a page where the
calls succeed, after a construction that threw with no instance recorded, a
construction from entries on which line 92 does not throw, one of them
valid, succeeds. -/
theorem failed_construction_keeps_slot :
    (constructor none feedbackSetup headPage).1 = .error "TypeError"
      ∧ (∃ half, (constructor none feedbackSetup headPage).2 = some half
          ∧ half.codes = [storedShort, storedLong])
      ∧ (∀ (next : Setup) (page : Page),
          (constructor (constructor none feedbackSetup headPage).2 next page).1
            = .error "Only one instance of KC allowed")
      ∧ (∃ this, constructor none feedbackSetup = (.ok this, some this))
      ∧ (constructor none brokenSetup).1 = .error "TypeError"
      ∧ (constructor none brokenSetup).2 = none
      ∧ exampleShort ∈ suppliedEntries brokenSetup.codes
      ∧ checkSequence exampleShort.sequence = some [.UP, .UP, .DOWN]
      ∧ (∀ (n_n : Option KonaCode) (setup : Setup) (page : Page),
          ((∃ msg, (constructor n_n setup page).1 = .error msg)
            ↔ (n_n.isSome = true ∨ setup.codes = none
                ∨ (∃ code ∈ suppliedEntries setup.codes, sequenceThrows code.sequence = true)
                ∨ (∀ code ∈ suppliedEntries setup.codes, checkSequence code.sequence = none)
                ∨ page.domParser = false ∨ page.head = false
                ∨ (setup.feedback = some true ∧ page.body = false)))
          ∧ ((n_n.isSome = true ∨ setup.codes = none
                ∨ (∃ code ∈ suppliedEntries setup.codes, sequenceThrows code.sequence = true)
                ∨ (∀ code ∈ suppliedEntries setup.codes, checkSequence code.sequence = none)) →
              (constructor n_n setup page).2 = n_n)
          ∧ (¬ (n_n.isSome = true ∨ setup.codes = none
                ∨ (∃ code ∈ suppliedEntries setup.codes, sequenceThrows code.sequence = true)
                ∨ (∀ code ∈ suppliedEntries setup.codes, checkSequence code.sequence = none)) →
              ∃ this, (constructor n_n setup page).2 = some this
                ∧ this.codes = (suppliedEntries setup.codes).foldl registerCode [])
          ∧ (∀ this, (constructor n_n setup page).1 = .ok this →
              (constructor n_n setup page).2 = some this))
      ∧ (∀ setup next : Setup,
          (∃ msg, (constructor none setup).1 = .error msg) →
          (∀ code ∈ suppliedEntries next.codes, sequenceThrows code.sequence = false) →
          (∃ code ∈ suppliedEntries next.codes, (checkSequence code.sequence).isSome = true) →
          (constructor none setup).2 = none
            ∧ ∃ this, (constructor (constructor none setup).2 next).1 = .ok this) := by
  refine ⟨rfl, ⟨_, rfl, rfl⟩, fun next page => ?_, ⟨_, rfl⟩, rfl, rfl, by decide, rfl,
    constructor_error_iff, ?_⟩
  · have hslot : ((constructor none feedbackSetup headPage).2).isSome = true := rfl
    rw [(constructor_cases _ next page).1 hslot]
  · intro setup next herr hno hvalid
    have h1 := constructor_error_iff none setup {}
    have hslot : (constructor none setup).2 = none := by
      apply h1.2.1
      rcases h1.1.mp herr with h | h | h | h | h | h | h
      · exact Or.inl h
      · exact Or.inr (Or.inl h)
      · exact Or.inr (Or.inr (Or.inl h))
      · exact Or.inr (Or.inr (Or.inr h))
      · cases h
      · cases h
      · cases h.2
    refine ⟨hslot, ?_⟩
    rw [hslot]
    have h2 := (constructor_error_iff none next {}).1
    cases hres : (constructor none next).1 with
    | ok this => exact ⟨this, rfl⟩
    | error msg =>
      exfalso
      obtain ⟨code, hcode, hsome⟩ := hvalid
      rcases h2.mp ⟨msg, hres⟩ with h | h | h | h | h | h | h
      · cases h
      · rw [h] at hcode
        cases hcode
      · obtain ⟨c, hc, ht⟩ := h
        rw [hno c hc] at ht
        cases ht
      · rw [h code hcode] at hsome
        cases hsome
      · cases h
      · cases h
      · cases h.2

/-! ### One accepted key -/

theorem find?_eq_head?_filter (p : Code → Bool) (l : List Code) :
    l.find? p = (l.filter p).head? := by
  induction l with
  | nil => rfl
  | cons a t ih =>
    by_cases h : p a = true
    · rw [List.find?_cons_of_pos _ h, List.filter_cons_of_pos h]
      rfl
    · rw [List.find?_cons_of_neg _ h, List.filter_cons_of_neg h, ih]

theorem length_ne_one_of_mem {a b : Code} {l : List Code} (ha : a ∈ l) (hb : b ∈ l)
    (hne : a ≠ b) : l.length ≠ 1 := by
  intro h
  match l, h with
  | [x], _ =>
    rw [List.mem_singleton] at ha hb
    exact hne (ha.trans hb.symm)

theorem matching_filter_length (codes : List Code) (typed : List Key) :
    (matching codes typed).filter (fun code => code.sequence.length == typed.length)
      = codes.filter fun code => code.sequence == typed := by
  unfold matching
  rw [List.filter_filter]
  apply List.filter_congr
  intro code _
  rw [Bool.eq_iff_iff, Bool.and_eq_true, beq_iff_eq, beq_iff_eq, List.isPrefixOf_iff_prefix]
  constructor
  · rintro ⟨hlen, hpre⟩
    exact (hpre.eq_of_length hlen.symm).symm
  · intro h
    rw [h]
    exact ⟨rfl, List.prefix_refl _⟩

theorem filter_sequence_eq_singleton (codes : List Code) (code : Code)
    (h : (codes.map Code.sequence).Nodup) (hc : code ∈ codes) :
    (codes.filter fun c => c.sequence == code.sequence) = [code] := by
  induction codes with
  | nil => cases hc
  | cons a t ih =>
    rw [List.map_cons, List.nodup_cons] at h
    rcases List.mem_cons.mp hc with rfl | hct
    · have hrest : t.filter (fun c => c.sequence == code.sequence) = [] := by
        rw [List.filter_eq_nil_iff]
        intro c hcm hcs
        exact h.1 (List.mem_map.mpr ⟨c, hcm, by simpa using hcs⟩)
      simp [List.filter_cons, hrest]
    · have hne : (a.sequence == code.sequence) = false := by
        rw [beq_eq_false_iff_ne]
        intro has
        exact h.1 (List.mem_map.mpr ⟨code, hct, has.symm⟩)
      simp [List.filter_cons, hne, ih h.2 hct]

/-- The accepting branch of `handler` (lines 171-216): the key is appended,
the progress calls are made, and `finish` decides what follows. -/
theorem handleKey_of_match (this : KonaCode) (keyCode : JsVal)
    (h : (liveCandidates this).filter
      (fun code => looseEq (code.sequenceAt this.currentSequence.length) keyCode) ≠ []) :
    handleKey this keyCode
      = ((finish { this with
            validCodes := some ((liveCandidates this).filter fun code =>
              looseEq (code.sequenceAt this.currentSequence.length) keyCode)
            currentSequence := this.currentSequence ++ [keyCode] }).1,
          [.appendToFeedback keyCode]
            ++ ((liveCandidates this).filter fun code =>
                looseEq (code.sequenceAt this.currentSequence.length) keyCode).flatMap
              (fun code => progressCall (this.currentSequence.length + 1)
                (percent (this.currentSequence.length + 1) code.sequence.length) code)
            ++ ((liveCandidates this).filter fun code =>
                !looseEq (code.sequenceAt this.currentSequence.length) keyCode).flatMap
              (progressCall 0 0)
            ++ (finish { this with
            validCodes := some ((liveCandidates this).filter fun code =>
              looseEq (code.sequenceAt this.currentSequence.length) keyCode)
            currentSequence := this.currentSequence ++ [keyCode] }).2) := by
  unfold liveCandidates at h ⊢
  have hlen : ((this.validCodes.getD this.codes).filter
      (fun code => looseEq (code.sequenceAt this.currentSequence.length) keyCode)).length ≠ 0 := by
    rwa [Ne, List.length_eq_zero]
  simp [handleKey, hlen]

theorem finish_pending (this : KonaCode) (typed : List Key) (long : Code)
    (hv : this.validCodes = some (matching this.codes typed))
    (hlen : this.currentSequence.length = typed.length)
    (hto : this.execTimeout = none)
    (hL : long ∈ this.codes) (hpre : typed <+: long.sequence) (hne : typed ≠ long.sequence)
    (hcb : ∀ D ∈ this.codes, D.sequence = typed → D.callback.truthy = true) :
    (finish this).1
        = { this with execTimeout := this.codes.find? fun c => c.sequence == typed }
      ∧ callbacks (finish this).2 = [] := by
  have hfin := matching_filter_length this.codes typed
  rw [find?_eq_head?_filter]
  unfold finish
  simp only [hv, Option.getD_some, hlen, hfin]
  cases hf : this.codes.filter (fun c => c.sequence == typed) with
  | nil =>
    simp only [List.head?_nil]
    split <;> (cases this; simp_all)
  | cons D r =>
    have hD : D ∈ this.codes.filter (fun c => c.sequence == typed) := by
      rw [hf]; exact List.mem_cons_self _ _
    rw [List.mem_filter, beq_iff_eq] at hD
    have hDm : D ∈ matching this.codes typed := mem_matching.mpr ⟨hD.1, by rw [hD.2]⟩
    have hLm : long ∈ matching this.codes typed := mem_matching.mpr ⟨hL, hpre⟩
    have hDL : D ≠ long := by
      intro h
      rw [h] at hD
      exact hne hD.2.symm
    have h1 : ((matching this.codes typed).length != 1) = true := by
      rw [bne_iff_ne]
      exact length_ne_one_of_mem hDm hLm hDL
    simp only [List.head?_cons, exec, hcb D hD.1 hD.2, if_true, h1]
    exact ⟨by rw [hv], rfl⟩

/-! ### Typing a sequence from the idle session -/

theorem typedState_nil (this : KonaCode) (h : Idle this) : typedState this [] = this := by
  obtain ⟨h1, h2, h3⟩ := h
  cases this
  simp_all [typedState]

theorem presses_iff (e : KeyEvent) (key : Key) :
    Presses e key ↔ ∃ code, e.pressed = some code ∧ transcript (some code) = key.toJs := by
  unfold Presses
  cases e.pressed <;> simp

theorem presses_press (key : Key) : Presses (press key) key := by
  cases key <;> decide

theorem handler_of_presses (this : KonaCode) (e : KeyEvent) (key : Key) (h : Presses e key) :
    handler this e = handleKey (cleanExecTimeout this) key.toJs := by
  obtain ⟨code, hc, ht⟩ := (presses_iff e key).mp h
  simp [handler, hc, ht]

theorem liveCandidates_typedState (this : KonaCode) (typed : List Key) :
    liveCandidates (cleanExecTimeout (typedState this typed)) = matching this.codes typed := by
  by_cases h : typed = []
  · subst h
    simp [liveCandidates, cleanExecTimeout, typedState, matching_nil]
  · simp [liveCandidates, cleanExecTimeout, typedState, h]

theorem filter_typedState (this : KonaCode) (typed : List Key) (key : Key) :
    (liveCandidates (cleanExecTimeout (typedState this typed))).filter
        (fun code => looseEq
          (code.sequenceAt (cleanExecTimeout (typedState this typed)).currentSequence.length)
          key.toJs)
      = matching this.codes (typed ++ [key]) := by
  rw [liveCandidates_typedState]
  have hlen : (cleanExecTimeout (typedState this typed)).currentSequence.length
      = typed.length := by
    simp [cleanExecTimeout, typedState]
  rw [hlen, matching_filter_snoc]

/-- A key that extends the typed keys to a proper prefix of a registered
sequence: the session moves on to the longer typed prefix, and no completion
callback is invoked, provided a code completed by the key has a callback. -/
theorem handler_typedState_step (this : KonaCode) (typed : List Key) (key : Key)
    (e : KeyEvent) (hp : Presses e key) (long : Code) (hL : long ∈ this.codes)
    (hpre : typed ++ [key] <+: long.sequence) (hne : typed ++ [key] ≠ long.sequence)
    (hcb : ∀ D ∈ this.codes, D.sequence = typed ++ [key] → D.callback.truthy = true) :
    (handler (typedState this typed) e).1 = typedState this (typed ++ [key])
      ∧ callbacks (handler (typedState this typed) e).2 = [] := by
  have hfilter := filter_typedState this typed key
  have hLm : long ∈ matching this.codes (typed ++ [key]) := mem_matching.mpr ⟨hL, hpre⟩
  rw [handler_of_presses _ e key hp, handleKey_of_match _ _ (by
    rw [hfilter]; exact List.ne_nil_of_mem hLm)]
  simp only [hfilter]
  have hfin := finish_pending
    { cleanExecTimeout (typedState this typed) with
      validCodes := some (matching this.codes (typed ++ [key]))
      currentSequence :=
        (cleanExecTimeout (typedState this typed)).currentSequence ++ [key.toJs] }
    (typed ++ [key]) long rfl (by simp [cleanExecTimeout, typedState]) rfl hL hpre hne hcb
  refine ⟨?_, ?_⟩
  · rw [hfin.1]
    simp [cleanExecTimeout, typedState]
  · simp only [callbacks_append, hfin.2, List.append_nil]
    rw [callbacks_flatMap_nil _ _ (fun code => callbacks_progressCall _ _ code)]
    simp

theorem run_cons (this : KonaCode) (i : Input) (rest : List Input) :
    run this (i :: rest)
      = ((run (step this i).1 rest).1, (step this i).2 ++ (run (step this i).1 rest).2) :=
  rfl

theorem run_append (this : KonaCode) (a b : List Input) :
    run this (a ++ b) = ((run (run this a).1 b).1, (run this a).2 ++ (run (run this a).1 b).2) := by
  induction a generalizing this with
  | nil => rfl
  | cons i rest ih =>
    rw [List.cons_append, run_cons, ih, run_cons]
    simp [List.append_assoc]

/-- The keys of a proper prefix of a registered sequence, typed one after the
other: the session follows them and no completion callback is invoked,
provided every registered code that is completed on the way has a callback. -/
theorem run_typedState (this : KonaCode) (long : Code) (hL : long ∈ this.codes) :
    ∀ (rest typed : List Key) (es : List KeyEvent), List.Forall₂ Presses es rest →
      typed ++ rest <+: long.sequence → typed ++ rest ≠ long.sequence →
      (∀ D ∈ this.codes, D.sequence <+: typed ++ rest → D.callback.truthy = true) →
      (run (typedState this typed) (es.map Input.key)).1 = typedState this (typed ++ rest)
        ∧ callbacks (run (typedState this typed) (es.map Input.key)).2 = [] := by
  intro rest
  induction rest with
  | nil =>
    intro typed es hes _ _ _
    cases hes
    simp [run]
  | cons key r ih =>
    intro typed es hes hpre hne hcb
    cases hes with
    | cons hp hrest =>
      rename_i e es2
      have happ : typed ++ key :: r = (typed ++ [key]) ++ r := by simp
      have hpre1 : typed ++ [key] <+: long.sequence :=
        (List.prefix_append (typed ++ [key]) r).trans (happ ▸ hpre)
      have hne1 : typed ++ [key] ≠ long.sequence := by
        intro heq
        cases r with
        | nil => exact hne (by simpa using heq)
        | cons b r2 =>
          have hlen := hpre.length_le
          rw [← heq] at hlen
          simp at hlen
      have hstep := handler_typedState_step this typed key e hp long hL hpre1 hne1
        (fun D hD hDs => hcb D hD (by
          rw [hDs, happ]; exact List.prefix_append _ _))
      have hind := ih (typed ++ [key]) es2 hrest (happ ▸ hpre) (happ ▸ hne) (happ ▸ hcb)
      rw [List.map_cons, run_cons]
      simp only [step]
      rw [hstep.1, hind.1, callbacks_append, hstep.2, hind.2, happ]
      exact ⟨rfl, rfl⟩

theorem finish_complete (this : KonaCode) (code : Code)
    (hv : this.validCodes = some (matching this.codes code.sequence))
    (hlen : this.currentSequence.length = code.sequence.length)
    (hc : code ∈ this.codes) (hnd : (this.codes.map Code.sequence).Nodup) :
    finish this = exec this code ((matching this.codes code.sequence).length != 1) := by
  unfold finish
  simp only [hv, Option.getD_some, hlen, matching_filter_length,
    filter_sequence_eq_singleton this.codes code hnd hc]

/-- The key that completes a registered code with a callback: when the code
is the only live candidate its callback is invoked at once and the session
is idle again; otherwise its completion is left pending on the timer. -/
theorem handler_typedState_final (this : KonaCode) (hidle : Idle this) (typed : List Key)
    (key : Key) (e : KeyEvent) (hp : Presses e key) (code : Code) (hc : code ∈ this.codes)
    (hnd : (this.codes.map Code.sequence).Nodup) (hseq : typed ++ [key] = code.sequence)
    (hcb : code.callback.truthy = true) :
    (matching this.codes code.sequence = [code] →
        (handler (typedState this typed) e).1 = this
          ∧ callbacks (handler (typedState this typed) e).2
              = if code.callback.isFunction then [code] else [])
      ∧ (matching this.codes code.sequence ≠ [code] →
        (handler (typedState this typed) e).1 = typedState this code.sequence
          ∧ callbacks (handler (typedState this typed) e).2 = []
          ∧ (typedState this code.sequence).execTimeout = some code) := by
  have hfilter := filter_typedState this typed key
  rw [hseq] at hfilter
  have hcm : code ∈ matching this.codes code.sequence :=
    mem_matching.mpr ⟨hc, List.prefix_refl _⟩
  have hne : code.sequence ≠ [] := by
    rw [← hseq]; simp
  rw [handler_of_presses _ e key hp, handleKey_of_match _ _ (by
    rw [hfilter]; exact List.ne_nil_of_mem hcm)]
  simp only [hfilter]
  have hfin : ∀ k : KonaCode,
      k = { cleanExecTimeout (typedState this typed) with
            validCodes := some (matching this.codes code.sequence)
            currentSequence :=
              (cleanExecTimeout (typedState this typed)).currentSequence ++ [key.toJs] } →
      finish k = exec k code ((matching this.codes code.sequence).length != 1) := by
    intro k hk
    have h := finish_complete k code (by rw [hk]; rfl)
      (by rw [hk]; simp [cleanExecTimeout, typedState, ← hseq])
      (by rw [hk]; exact hc) (by rw [hk]; exact hnd)
    rw [h, hk]
    rfl
  rw [hfin _ rfl]
  have hprog : ∀ (n : Nat) (l : List Code), callbacks (l.flatMap fun c =>
      progressCall n (percent n c.sequence.length) c) = [] :=
    fun n l => callbacks_flatMap_nil _ _ (fun c => callbacks_progressCall _ _ c)
  obtain ⟨h1, h2, h3⟩ := hidle
  constructor
  · intro hone
    have hlen : ((matching this.codes code.sequence).length != 1) = false := by
      rw [hone]; rfl
    simp only [hlen, exec, hcb, if_true, Bool.false_eq_true, if_false]
    constructor
    · cases this
      simp_all [cleanExecTimeout, typedState, resetCurrentSequence]
    · simp only [callbacks_append, hprog, callbacks_flatMap_progressCall]
      cases code.callback.isFunction <;> simp [resetCurrentSequence]
  · intro hmany
    have hlen : ((matching this.codes code.sequence).length != 1) = true := by
      rw [bne_iff_ne]
      intro h
      match hm : matching this.codes code.sequence, h with
      | [x], _ =>
        rw [hm, List.mem_singleton] at hcm
        exact hmany (by rw [hm, hcm])
    have hfind : (this.codes.find? fun c => c.sequence == code.sequence) = some code := by
      rw [find?_eq_head?_filter, filter_sequence_eq_singleton this.codes code hnd hc]
      rfl
    simp only [hlen, exec, hcb, if_true]
    refine ⟨?_, ?_, ?_⟩
    · simp [cleanExecTimeout, typedState, ← hseq]
      rw [hseq]
      exact hfind.symm
    · simp only [callbacks_append, hprog, callbacks_flatMap_progressCall]
      rfl
    · simp [typedState, hne, hfind]

/-- Typing the first `n` keys of a registered sequence, `n` less than its
length, from the idle session. -/
theorem run_take (this : KonaCode) (hidle : Idle this) (long : Code) (hL : long ∈ this.codes)
    (es : List KeyEvent) (hes : List.Forall₂ Presses es long.sequence) (n : Nat)
    (hn : n < long.sequence.length)
    (hcb : ∀ D ∈ this.codes, D.sequence <+: long.sequence.take n → D.callback.truthy = true) :
    (run this ((es.take n).map Input.key)).1 = typedState this (long.sequence.take n)
      ∧ callbacks (run this ((es.take n).map Input.key)).2 = [] := by
  have h := run_typedState this long hL (long.sequence.take n) [] (es.take n)
    (List.forall₂_take n hes) (by simpa using List.take_prefix n long.sequence)
    (by
      intro heq
      have hlen := congrArg List.length heq
      simp at hlen
      omega)
    (by simpa using hcb)
  rw [typedState_nil this hidle] at h
  simpa using h

theorem forall₂_split_last (es : List KeyEvent) (typed : List Key) (key : Key)
    (hes : List.Forall₂ Presses es (typed ++ [key])) :
    ∃ e, es = es.take typed.length ++ [e] ∧ Presses e key := by
  have h2 := List.forall₂_drop_append es typed [key] hes
  cases hd : es.drop typed.length with
  | nil => rw [hd] at h2; cases h2
  | cons e r =>
    rw [hd] at h2
    cases h2 with
    | cons hp hr =>
      cases hr
      refine ⟨e, ?_, hp⟩
      rw [← hd, List.take_append_drop]

/-- Typing a whole registered sequence from the idle session, when every
registered code completed on the way, and the code itself, has a callback. -/
theorem run_sequence (this : KonaCode) (hidle : Idle this) (code : Code)
    (hc : code ∈ this.codes) (hnd : (this.codes.map Code.sequence).Nodup)
    (hne : code.sequence ≠ [])
    (hcb : ∀ D ∈ this.codes, D.sequence <+: code.sequence → D.callback.truthy = true)
    (es : List KeyEvent) (hes : List.Forall₂ Presses es code.sequence) :
    (matching this.codes code.sequence = [code] →
        (run this (es.map Input.key)).1 = this
          ∧ callbacks (run this (es.map Input.key)).2
              = if code.callback.isFunction then [code] else [])
      ∧ (matching this.codes code.sequence ≠ [code] →
        (run this (es.map Input.key)).1 = typedState this code.sequence
          ∧ callbacks (run this (es.map Input.key)).2 = []
          ∧ (typedState this code.sequence).execTimeout = some code) := by
  obtain ⟨typed, key, hseq⟩ : ∃ typed key, code.sequence = typed ++ [key] :=
    ⟨code.sequence.dropLast, code.sequence.getLast hne,
      (List.dropLast_append_getLast hne).symm⟩
  obtain ⟨e, hsplit, hp⟩ := forall₂_split_last es typed key (hseq ▸ hes)
  have hlen : typed.length < code.sequence.length := by
    rw [hseq]; simp
  have htyped : code.sequence.take typed.length = typed := by
    rw [hseq]; simp
  have htake := run_take this hidle code hc es hes typed.length hlen
    (fun D hD h1 => hcb D hD (h1.trans (List.take_prefix _ _)))
  rw [htyped] at htake
  have hfinal := handler_typedState_final this hidle typed key e hp code hc hnd hseq.symm
    (hcb code hc (List.prefix_refl _))
  have hrun : run this (es.map Input.key)
      = ((handler (typedState this typed) e).1,
          (run this ((es.take typed.length).map Input.key)).2
            ++ (handler (typedState this typed) e).2) := by
    conv_lhs => rw [hsplit, List.map_append, run_append]
    rw [htake.1]
    simp [run, step]
  rw [hrun]
  simp only [callbacks_append, htake.2, List.nil_append]
  exact hfinal

theorem forall₂_press (keys : List Key) : List.Forall₂ Presses (keys.map press) keys := by
  induction keys with
  | nil => exact List.Forall₂.nil
  | cons a t ih => exact List.Forall₂.cons (presses_press a) ih

theorem truthy_of_isFunction {slot : Slot} (h : slot.isFunction = true) :
    slot.truthy = true := by
  cases slot <;> simp_all [Slot.isFunction, Slot.truthy]

theorem constructor_muteSetup :
    constructor none muteSetup = (.ok muteInstance, some muteInstance) := by
  rfl

theorem constructor_adjacentSetup :
    constructor none adjacentSetup = (.ok adjacentInstance, some adjacentInstance) := by
  rfl

theorem constructor_konami :
    constructor none { codes := some (.single { callback := .fn 1 }) }
      = (.ok konamiInstance, some konamiInstance) := by
  rfl

/-- Claim C1. For every registry without repeated sequences and every
registered code with a callback function whose sequence is neither a prefix
of, nor has as a prefix, the sequence of another registered code: typing the
sequence key by key from an idle session invokes the callback of the code
exactly once and no other callback, leaves the session as it was (idle);
after every shorter part of the input no callback has been invoked and no
timer is pending, so the callback is invoked while the last key is handled. -/
theorem typing_unshared_code (this : KonaCode) (hidle : Idle this) (code : Code)
    (hc : code ∈ this.codes) (hnd : (this.codes.map Code.sequence).Nodup)
    (hfn : code.callback.isFunction = true) (hne : code.sequence ≠ [])
    (hun : ∀ D ∈ this.codes, D ≠ code →
      ¬ D.sequence <+: code.sequence ∧ ¬ code.sequence <+: D.sequence)
    (es : List KeyEvent) (hes : List.Forall₂ Presses es code.sequence) :
    (run this (es.map Input.key)).1 = this
      ∧ Idle (run this (es.map Input.key)).1
      ∧ callbacks (run this (es.map Input.key)).2 = [code]
      ∧ ∀ n, n < es.length →
          callbacks (run this ((es.take n).map Input.key)).2 = []
            ∧ (run this ((es.take n).map Input.key)).1.execTimeout = none := by
  have hself : ∀ D ∈ this.codes, D.sequence <+: code.sequence → D = code := by
    intro D hD hpre
    by_contra hDc
    exact (hun D hD hDc).1 hpre
  have hcb : ∀ D ∈ this.codes, D.sequence <+: code.sequence → D.callback.truthy = true := by
    intro D hD hpre
    rw [hself D hD hpre]
    exact truthy_of_isFunction hfn
  have hone : matching this.codes code.sequence = [code] := by
    have e : matching this.codes code.sequence
        = this.codes.filter fun c => c.sequence == code.sequence := by
      unfold matching
      apply List.filter_congr
      intro D hD
      rw [Bool.eq_iff_iff, List.isPrefixOf_iff_prefix, beq_iff_eq]
      constructor
      · intro hpre
        by_contra hDs
        have hDc : D ≠ code := fun h => hDs (by rw [h])
        exact (hun D hD hDc).2 hpre
      · intro h
        rw [h]
    rw [e, filter_sequence_eq_singleton this.codes code hnd hc]
  have hrun := (run_sequence this hidle code hc hnd hne hcb es hes).1 hone
  rw [hfn] at hrun
  refine ⟨hrun.1, by rw [hrun.1]; exact hidle, hrun.2, ?_⟩
  intro n hn
  rw [hes.length_eq] at hn
  have htake := run_take this hidle code hc es hes n hn
    (fun D hD h1 => hcb D hD (h1.trans (List.take_prefix _ _)))
  refine ⟨htake.2, ?_⟩
  rw [htake.1]
  have hnone : (this.codes.find? fun c => c.sequence == code.sequence.take n) = none := by
    rw [List.find?_eq_none]
    intro D hD hDs
    rw [beq_iff_eq] at hDs
    have hDc := hself D hD (hDs ▸ List.take_prefix _ _)
    rw [hDc] at hDs
    have hlen := congrArg List.length hDs
    simp at hlen
    omega
  simp [typedState, hnone]

/-- Witness of claim C1: the original sequence, registered alone with a
callback, typed with the ten key presses. -/
theorem typing_unshared_code_witness :
    (run konamiInstance (pressAll basicSetup.sequence)).1 = konamiInstance
      ∧ callbacks (run konamiInstance (pressAll basicSetup.sequence)).2 = [konamiCode] :=
  have h := typing_unshared_code konamiInstance (by decide) konamiCode
    (by decide) (by decide) (by decide) (by decide)
    (by
      intro D hD hne
      rw [show konamiInstance.codes = [konamiCode] from rfl, List.mem_singleton] at hD
      exact absurd hD hne)
    (konamiCode.sequence.map press) (forall₂_press konamiCode.sequence)
  ⟨h.1, h.2.2.1⟩

/-! ### Codes that share a prefix -/

theorem callbacks_exec_subset (this : KonaCode) (code : Code) (delayed : Bool) :
    ∀ c ∈ callbacks (exec this code delayed).2, c = code := by
  intro c hc
  by_cases ht : code.callback.truthy = true <;>
    by_cases hf : code.callback.isFunction = true <;> cases delayed <;>
    simp_all [exec, resetCurrentSequence]

theorem execTimeout_exec (this : KonaCode) (code : Code) (delayed : Bool) (c : Code)
    (h : (exec this code delayed).1.execTimeout = some c) :
    this.execTimeout = some c ∨ c = code := by
  by_cases ht : code.callback.truthy = true <;> cases delayed <;>
    simp_all [exec, resetCurrentSequence]

/-- Whatever `finish` executes is a code as long as the keys typed. -/
theorem finish_only_finished (this : KonaCode) (c : Code) :
    (c ∈ callbacks (finish this).2 → c.sequence.length = this.currentSequence.length)
      ∧ ((finish this).1.execTimeout = some c →
          this.execTimeout = some c ∨ c.sequence.length = this.currentSequence.length) := by
  unfold finish
  dsimp only
  split
  · next D r heq =>
    have hD : D ∈ (this.validCodes.getD []).filter
        (fun code => code.sequence.length == this.currentSequence.length) := by
      rw [heq]; exact List.mem_cons_self _ _
    rw [List.mem_filter, beq_iff_eq] at hD
    constructor
    · intro hc
      rw [callbacks_exec_subset _ _ _ c hc]
      exact hD.2
    · intro hc
      rcases execTimeout_exec _ _ _ c hc with h | h
      · exact Or.inl h
      · exact Or.inr (h ▸ hD.2)
  · split
    · constructor
      · intro hc
        simp at hc
      · intro hc
        exact Or.inl hc
    · constructor
      · intro hc
        simp at hc
      · intro hc
        exact Or.inl hc

/-- A key accepted after the keys `typed`: only a code of `typed.length + 1`
keys can have its callback invoked or its completion left pending. -/
theorem handler_typedState_only_finished (this : KonaCode) (typed : List Key) (key : Key)
    (e : KeyEvent) (hp : Presses e key) (hm : matching this.codes (typed ++ [key]) ≠ [])
    (c : Code) :
    (c ∈ callbacks (handler (typedState this typed) e).2 → c.sequence.length = typed.length + 1)
      ∧ ((handler (typedState this typed) e).1.execTimeout = some c →
          c.sequence.length = typed.length + 1) := by
  have hfilter := filter_typedState this typed key
  rw [handler_of_presses _ e key hp, handleKey_of_match _ _ (by rw [hfilter]; exact hm)]
  simp only [hfilter]
  have hfin := finish_only_finished
    { cleanExecTimeout (typedState this typed) with
      validCodes := some (matching this.codes (typed ++ [key]))
      currentSequence :=
        (cleanExecTimeout (typedState this typed)).currentSequence ++ [key.toJs] } c
  have hlen : ((cleanExecTimeout (typedState this typed)).currentSequence ++ [key.toJs]).length
      = typed.length + 1 := by
    simp [cleanExecTimeout, typedState]
  simp only [hlen] at hfin
  constructor
  · intro hc
    apply hfin.1
    simp only [callbacks_append] at hc
    rw [callbacks_flatMap_nil _ _ (fun code => callbacks_progressCall _ _ code)] at hc
    simpa using hc
  · intro hc
    rcases hfin.2 hc with h | h
    · simp [cleanExecTimeout] at h
    · exact h

/-- The timer firing in the session where the keys of a registered code with
a callback have been typed and its completion is pending. -/
theorem timeout_typedState (this : KonaCode) (hidle : Idle this) (code : Code)
    (hc : code ∈ this.codes) (hnd : (this.codes.map Code.sequence).Nodup)
    (hne : code.sequence ≠ []) (hcb : code.callback.truthy = true) :
    (typedState this code.sequence).execTimeout = some code
      ∧ (timeout (typedState this code.sequence)).1 = this
      ∧ callbacks (timeout (typedState this code.sequence)).2
          = if code.callback.isFunction then [code] else [] := by
  have hfind : (this.codes.find? fun c => c.sequence == code.sequence) = some code := by
    rw [find?_eq_head?_filter, filter_sequence_eq_singleton this.codes code hnd hc]
    rfl
  have hpend : (typedState this code.sequence).execTimeout = some code := by
    simp [typedState, hne, hfind]
  obtain ⟨h1, h2, h3⟩ := hidle
  refine ⟨hpend, ?_, ?_⟩
  · simp only [timeout, hpend, exec, hcb, if_true, Bool.false_eq_true, if_false]
    cases this
    simp_all [typedState, resetCurrentSequence]
  · simp only [timeout, hpend, exec, hcb, if_true, Bool.false_eq_true, if_false]
    cases code.callback.isFunction <;> simp [resetCurrentSequence]

/-- The keys of a registered code that starts a longer registered code,
typed from the idle session, when every registered code completed on the way
has a callback: no callback is invoked and the completion of the code is
pending. -/
theorem run_short (this : KonaCode) (hidle : Idle this) (short long : Code)
    (hS : short ∈ this.codes) (hL : long ∈ this.codes)
    (hnd : (this.codes.map Code.sequence).Nodup)
    (hpre : short.sequence <+: long.sequence) (hproper : short.sequence ≠ long.sequence)
    (hne : short.sequence ≠ [])
    (hcb : ∀ D ∈ this.codes, D.sequence <+: short.sequence → D.callback.truthy = true)
    (es : List KeyEvent) (hes : List.Forall₂ Presses es short.sequence) :
    (run this (es.map Input.key)).1 = typedState this short.sequence
      ∧ callbacks (run this (es.map Input.key)).2 = []
      ∧ (typedState this short.sequence).execTimeout = some short := by
  have h := run_typedState this long hL short.sequence [] es hes (by simpa using hpre)
    (by simpa using hproper) (by simpa using hcb)
  rw [typedState_nil this hidle] at h
  have ht := timeout_typedState this hidle short hS hnd hne (hcb short hS (List.prefix_refl _))
  exact ⟨by simpa using h.1, h.2, ht.1⟩

/-- Claim C5, as stated, fails.  In the registry built from `muteSetup` the
code `UP, UP, DOWN` has no callback and starts the code
`UP, UP, DOWN, DOWN, LEFT`; typing the five keys of the long code invokes no
callback and leaves no completion pending. -/
theorem long_code_lost_after_mute_prefix :
    constructor none muteSetup = (.ok muteInstance, some muteInstance)
      ∧ storedMute ∈ muteInstance.codes ∧ storedLong ∈ muteInstance.codes
      ∧ storedLong.sequence = storedMute.sequence ++ [.DOWN, .LEFT]
      ∧ callbacks (run muteInstance (pressAll storedLong.sequence)).2 = []
      ∧ (run muteInstance (pressAll storedLong.sequence)).1.execTimeout = none :=
  ⟨rfl, by decide, by decide, by decide, by decide, by decide⟩

/-- Claim C5, amended.  For every registry without repeated sequences in which
every registered code whose sequence is a prefix of the sequence of `long`
(the code `long` included) has a callback, and every registered `short` whose
sequence is a proper prefix of that of `long`: typing the keys of `long` from
an idle session, with no timer firing in between, never invokes the callback
of `short`; after the last key, when `long` is the only live candidate its
callback is invoked at once and the session is idle, and otherwise the
completion of `long` is the one pending on the timer. -/
theorem typing_long_code (this : KonaCode) (hidle : Idle this) (short long : Code)
    (_hS : short ∈ this.codes) (hL : long ∈ this.codes)
    (hnd : (this.codes.map Code.sequence).Nodup)
    (hpre : short.sequence <+: long.sequence) (hproper : short.sequence ≠ long.sequence)
    (hcb : ∀ D ∈ this.codes, D.sequence <+: long.sequence → D.callback.truthy = true)
    (es : List KeyEvent) (hes : List.Forall₂ Presses es long.sequence) :
    short ∉ callbacks (run this (es.map Input.key)).2
      ∧ (matching this.codes long.sequence = [long] →
          (run this (es.map Input.key)).1 = this
            ∧ callbacks (run this (es.map Input.key)).2
                = if long.callback.isFunction then [long] else [])
      ∧ (matching this.codes long.sequence ≠ [long] →
          (run this (es.map Input.key)).1 = typedState this long.sequence
            ∧ (run this (es.map Input.key)).1.execTimeout = some long
            ∧ callbacks (run this (es.map Input.key)).2 = []) := by
  have hne : long.sequence ≠ [] := by
    intro h
    rw [h] at hpre hproper
    exact hproper (List.prefix_nil.mp hpre)
  have hSL : short ≠ long := fun h => hproper (by rw [h])
  have hrun := run_sequence this hidle long hL hnd hne hcb es hes
  refine ⟨?_, hrun.1, ?_⟩
  · by_cases hone : matching this.codes long.sequence = [long]
    · rw [(hrun.1 hone).2]
      cases long.callback.isFunction <;> simp [hSL]
    · rw [(hrun.2 hone).2.1]
      simp
  · intro hmany
    have h := hrun.2 hmany
    exact ⟨h.1, by rw [h.1]; exact h.2.2, h.2.1⟩

/-- Witness of the amended claim C5: the two example codes. -/
theorem typing_long_code_witness :
    storedShort ∉ callbacks (run exampleInstance (pressAll storedLong.sequence)).2
      ∧ (matching exampleInstance.codes storedLong.sequence = [storedLong] →
          (run exampleInstance (pressAll storedLong.sequence)).1 = exampleInstance
            ∧ callbacks (run exampleInstance (pressAll storedLong.sequence)).2
                = if storedLong.callback.isFunction then [storedLong] else []) :=
  have h := typing_long_code exampleInstance (by decide) storedShort storedLong
    (by decide) (by decide) (by decide) ⟨[Key.DOWN, Key.LEFT], rfl⟩ (by decide)
    (by
      intro D hD _
      rw [show exampleInstance.codes = [storedShort, storedLong] from rfl] at hD
      simp only [List.mem_cons, List.mem_singleton, List.not_mem_nil, or_false] at hD
      rcases hD with rfl | rfl <;> rfl)
    (storedLong.sequence.map press) (forall₂_press storedLong.sequence)
  ⟨h.1, h.2.1⟩

/-- Claim C3, as stated, fails.  In the registry built from `muteSetup` the
code `UP, UP, DOWN, DOWN` has a callback and starts a longer code, but the
registered code `UP, UP, DOWN` has none: typing the four keys leaves no
completion pending, and the timer firing afterwards invokes nothing. -/
theorem short_code_lost_after_mute_prefix :
    constructor none muteSetup = (.ok muteInstance, some muteInstance)
      ∧ storedMid ∈ muteInstance.codes ∧ storedLong ∈ muteInstance.codes
      ∧ storedLong.sequence = storedMid.sequence ++ [.LEFT]
      ∧ (run muteInstance (pressAll storedMid.sequence)).1.execTimeout = none
      ∧ callbacks (run muteInstance (pressAll storedMid.sequence ++ [.timer])).2 = [] :=
  ⟨rfl, by decide, by decide, by decide, by decide, by decide⟩

/-- Claim C3, amended.  For every registry without repeated sequences, every
registered `short` with a callback function whose sequence is a proper
prefix of the sequence of a registered `long`, when every registered code
whose sequence is a prefix of that of `short` has a callback: typing the keys
of `short` from an idle session invokes no callback and leaves the
completion of `short` pending; if the timer then fires, the callback of
`short` is invoked exactly once, no other callback is, and the session is
idle again. -/
theorem short_code_waits_for_timer (this : KonaCode) (hidle : Idle this)
    (short long : Code) (hS : short ∈ this.codes) (hL : long ∈ this.codes)
    (hnd : (this.codes.map Code.sequence).Nodup)
    (hpre : short.sequence <+: long.sequence) (hproper : short.sequence ≠ long.sequence)
    (hne : short.sequence ≠ [])
    (hcb : ∀ D ∈ this.codes, D.sequence <+: short.sequence → D.callback.truthy = true)
    (hfn : short.callback.isFunction = true)
    (es : List KeyEvent) (hes : List.Forall₂ Presses es short.sequence) :
    callbacks (run this (es.map Input.key)).2 = []
      ∧ (run this (es.map Input.key)).1.execTimeout = some short
      ∧ (run this (es.map Input.key ++ [.timer])).1 = this
      ∧ Idle (run this (es.map Input.key ++ [.timer])).1
      ∧ callbacks (run this (es.map Input.key ++ [.timer])).2 = [short] := by
  have hrun := run_short this hidle short long hS hL hnd hpre hproper hne hcb es hes
  have ht := timeout_typedState this hidle short hS hnd hne (hcb short hS (List.prefix_refl _))
  rw [hfn] at ht
  have hfire : run this (es.map Input.key ++ [.timer])
      = ((timeout (typedState this short.sequence)).1,
          (run this (es.map Input.key)).2 ++ (timeout (typedState this short.sequence)).2) := by
    rw [run_append, hrun.1]
    simp [run, step]
  refine ⟨hrun.2.1, by rw [hrun.1]; exact hrun.2.2, ?_, ?_, ?_⟩
  · rw [hfire]; exact ht.2.1
  · rw [hfire]
    show Idle (timeout (typedState this short.sequence)).1
    rw [ht.2.1]; exact hidle
  · rw [hfire]
    simp only [callbacks_append, hrun.2.1, List.nil_append]
    exact ht.2.2

/-- Witness of the amended claim C3: the two example codes. -/
theorem short_code_waits_for_timer_witness :
    callbacks (run exampleInstance (pressAll storedShort.sequence)).2 = []
      ∧ (run exampleInstance (pressAll storedShort.sequence)).1.execTimeout = some storedShort
      ∧ (run exampleInstance (pressAll storedShort.sequence ++ [.timer])).1 = exampleInstance
      ∧ Idle (run exampleInstance (pressAll storedShort.sequence ++ [.timer])).1
      ∧ callbacks (run exampleInstance (pressAll storedShort.sequence ++ [.timer])).2
          = [storedShort] :=
  short_code_waits_for_timer exampleInstance (by decide) storedShort storedLong
    (by decide) (by decide) (by decide) ⟨[Key.DOWN, Key.LEFT], rfl⟩ (by decide) (by decide)
    (by
      intro D hD hp
      rw [show exampleInstance.codes = [storedShort, storedLong] from rfl] at hD
      simp only [List.mem_cons, List.mem_singleton, List.not_mem_nil, or_false] at hD
      rcases hD with rfl | rfl <;> rfl)
    (by decide) (storedShort.sequence.map press) (forall₂_press storedShort.sequence)

/-- Claim C2, as stated, fails.  In the registry built from `adjacentSetup`
(`UP, UP, DOWN` and `UP, UP, DOWN, DOWN`, both with callbacks) the key after
the short code completes the long one, whose callback is invoked at once:
nothing is typed afterwards.  In the registry built from `muteSetup`, typing
`UP, UP, DOWN, DOWN` and then `LEFT` (the next key of the long code) leaves
nothing typed either, the session having been reset on the way by the code
without callback. -/
theorem next_key_does_not_continue :
    constructor none adjacentSetup = (.ok adjacentInstance, some adjacentInstance)
      ∧ storedMid.sequence = storedShort.sequence ++ [.DOWN]
      ∧ (run adjacentInstance (pressAll storedShort.sequence)).1.execTimeout = some storedShort
      ∧ (run adjacentInstance
          (pressAll storedShort.sequence ++ [.key (press .DOWN)])).1.currentSequence = []
      ∧ constructor none muteSetup = (.ok muteInstance, some muteInstance)
      ∧ storedLong.sequence = storedMid.sequence ++ [.LEFT]
      ∧ (run muteInstance (pressAll storedMid.sequence)).1.execTimeout = none
      ∧ (run muteInstance
          (pressAll storedMid.sequence ++ [.key (press .LEFT)])).1.currentSequence = [] :=
  ⟨rfl, by decide, by decide, by decide, rfl, by decide, by decide, by decide⟩

/-- Claim C2, amended.  For every registry without repeated sequences, every
registered `short` and `long` such that the sequence of `short` followed by
`key` is a prefix of the sequence of `long`, when every registered code whose
sequence is a prefix of that of `short` has a callback: after the keys of
`short` have been typed from an idle session the completion of `short` is
pending and no callback has been invoked; handling `key` then does not invoke
the callback of `short` and leaves no completion of `short` pending; and,
unless `key` completes a registered code that has no callback or is the only
live candidate left, no callback is invoked at all, the keys typed are those
of `short` followed by `key`, and `long` is among the live candidates. -/
theorem next_key_supersedes_pending (this : KonaCode) (hidle : Idle this)
    (short long : Code) (hS : short ∈ this.codes) (hL : long ∈ this.codes)
    (hnd : (this.codes.map Code.sequence).Nodup) (key : Key)
    (hnext : short.sequence ++ [key] <+: long.sequence) (hne : short.sequence ≠ [])
    (hcb : ∀ D ∈ this.codes, D.sequence <+: short.sequence → D.callback.truthy = true)
    (es : List KeyEvent) (hes : List.Forall₂ Presses es short.sequence)
    (e : KeyEvent) (hp : Presses e key) :
    (run this (es.map Input.key)).1.execTimeout = some short
      ∧ callbacks (run this (es.map Input.key)).2 = []
      ∧ short ∉ callbacks (handler (run this (es.map Input.key)).1 e).2
      ∧ (handler (run this (es.map Input.key)).1 e).1.execTimeout ≠ some short
      ∧ ((∀ D ∈ this.codes, D.sequence = short.sequence ++ [key] →
            D.callback.truthy = true
              ∧ ∃ other ∈ this.codes, short.sequence ++ [key] <+: other.sequence
                  ∧ other.sequence ≠ short.sequence ++ [key]) →
          callbacks (handler (run this (es.map Input.key)).1 e).2 = []
            ∧ (handler (run this (es.map Input.key)).1 e).1.currentSequence
                = (short.sequence ++ [key]).map Key.toJs
            ∧ long ∈ liveCandidates (handler (run this (es.map Input.key)).1 e).1) := by
  have hpre : short.sequence <+: long.sequence :=
    (List.prefix_append short.sequence [key]).trans hnext
  have hproper : short.sequence ≠ long.sequence := by
    intro h
    have hlen := hnext.length_le
    rw [← h] at hlen
    simp at hlen
  have hrun := run_short this hidle short long hS hL hnd hpre hproper hne hcb es hes
  have hLm : long ∈ matching this.codes (short.sequence ++ [key]) :=
    mem_matching.mpr ⟨hL, hnext⟩
  have honly := handler_typedState_only_finished this short.sequence key e hp
    (List.ne_nil_of_mem hLm) short
  rw [hrun.1]
  refine ⟨hrun.2.2, hrun.2.1, fun h => ?_, fun h => ?_, fun hcont => ?_⟩
  · have := honly.1 h
    omega
  · have := honly.2 h
    omega
  · have hstep : (handler (typedState this short.sequence) e).1
          = typedState this (short.sequence ++ [key])
        ∧ callbacks (handler (typedState this short.sequence) e).2 = [] := by
      by_cases hex : ∃ D ∈ this.codes, D.sequence = short.sequence ++ [key]
      · obtain ⟨D, hD, hDs⟩ := hex
        obtain ⟨_, other, hO, hOpre, hOne⟩ := hcont D hD hDs
        exact handler_typedState_step this short.sequence key e hp other hO hOpre hOne.symm
          (fun D2 hD2 hD2s => (hcont D2 hD2 hD2s).1)
      · exact handler_typedState_step this short.sequence key e hp long hL hnext
          (fun h => hex ⟨long, hL, h.symm⟩)
          (fun D2 hD2 hD2s => absurd ⟨D2, hD2, hD2s⟩ hex)
    rw [hstep.1]
    refine ⟨hstep.2, by simp [typedState], ?_⟩
    simpa [liveCandidates, typedState] using hLm

/-- Witness of the amended claim C2: the two example codes and the key `DOWN`
after `UP, UP, DOWN`. -/
theorem next_key_supersedes_pending_witness :
    (run exampleInstance (pressAll storedShort.sequence)).1.execTimeout = some storedShort
      ∧ storedShort ∉ callbacks
          (handler (run exampleInstance (pressAll storedShort.sequence)).1 (press .DOWN)).2
      ∧ (handler (run exampleInstance (pressAll storedShort.sequence)).1 (press .DOWN)).1.currentSequence
          = (storedShort.sequence ++ [Key.DOWN]).map Key.toJs
      ∧ storedLong ∈ liveCandidates
          (handler (run exampleInstance (pressAll storedShort.sequence)).1 (press .DOWN)).1 :=
  have h := next_key_supersedes_pending exampleInstance (by decide) storedShort storedLong
    (by decide) (by decide) (by decide) Key.DOWN ⟨[Key.LEFT], rfl⟩ (by decide)
    (by
      intro D hD hp
      rw [show exampleInstance.codes = [storedShort, storedLong] from rfl] at hD
      simp only [List.mem_cons, List.mem_singleton, List.not_mem_nil, or_false] at hD
      rcases hD with rfl | rfl <;> rfl)
    (storedShort.sequence.map press) (forall₂_press storedShort.sequence)
    (press .DOWN) (presses_press .DOWN)
  have h2 := h.2.2.2.2 (by
    intro D hD hDs
    rw [show exampleInstance.codes = [storedShort, storedLong] from rfl] at hD
    simp only [List.mem_cons, List.mem_singleton, List.not_mem_nil, or_false] at hD
    rcases hD with rfl | rfl <;> exact absurd hDs (by decide))
  ⟨h.1, h.2.2.1, h2.2.1, h2.2.2⟩

/-! ### Progress calls -/

/-- For fewer than fifty keys the double arithmetic of `percent` gives the
exact integer percentage. -/
theorem percent_eq_floor_of_lt_fifty :
    ∀ length, length < 50 → ∀ count, count < length + 1 →
      percent count length = count * 100 / length := by
  decide!

/-- An accepted key, in any session state: the key is appended to
`currentSequence`, the candidates become those that accepted it, and the
calls made are, in this order, the feedback, `progress` on every candidate
that accepted the key (registry order, with the new length of
`currentSequence` and `percent` of it) and `progress( 0, 0 )` on every live
candidate that did not, followed by what `finish` does in the new state. -/
theorem handler_accepted_key (this : KonaCode) (e : KeyEvent) (code : JsVal)
    (hpress : e.pressed = some code)
    (hacc : ∃ c ∈ liveCandidates this,
      looseEq (c.sequenceAt this.currentSequence.length) (transcript (some code)) = true) :
    ∃ next : KonaCode,
      next.currentSequence = this.currentSequence ++ [transcript (some code)]
        ∧ next.validCodes = some ((liveCandidates this).filter fun c =>
            looseEq (c.sequenceAt this.currentSequence.length) (transcript (some code)))
        ∧ next.codes = this.codes
        ∧ handler this e
          = ((finish next).1,
              [.appendToFeedback (transcript (some code))]
                ++ ((liveCandidates this).filter fun c =>
                    looseEq (c.sequenceAt this.currentSequence.length)
                      (transcript (some code))).flatMap
                  (fun c => progressCall next.currentSequence.length
                    (percent next.currentSequence.length c.sequence.length) c)
                ++ ((liveCandidates this).filter fun c =>
                    !looseEq (c.sequenceAt this.currentSequence.length)
                      (transcript (some code))).flatMap
                  (progressCall 0 0)
                ++ (finish next).2) := by
  obtain ⟨c, hc, hcm⟩ := hacc
  have hne : (liveCandidates (cleanExecTimeout this)).filter
      (fun c => looseEq (c.sequenceAt (cleanExecTimeout this).currentSequence.length)
        (transcript (some code))) ≠ [] :=
    List.ne_nil_of_mem (List.mem_filter.mpr ⟨hc, hcm⟩)
  refine ⟨{ cleanExecTimeout this with
      validCodes := some ((liveCandidates this).filter fun c =>
        looseEq (c.sequenceAt this.currentSequence.length) (transcript (some code)))
      currentSequence := this.currentSequence ++ [transcript (some code)] },
    rfl, rfl, rfl, ?_⟩
  have hh : handler this e = handleKey (cleanExecTimeout this) (transcript (some code)) := by
    simp [handler, hpress]
  rw [hh, handleKey_of_match _ _ hne]
  simp [cleanExecTimeout, liveCandidates]

/-- The two roundings behind `Math.floor( 29 / 50 * 100 )`: the double
nearest to `29 / 50` is `5224175567749775 / 2 ^ 53`, just below `0.58`, and
the double nearest to a hundred times that is `8162774324609023 / 2 ^ 47`,
just below `58`. -/
theorem roundDouble_twenty_nine_fiftieths :
    roundDouble 29 50 = (5224175567749775, 2 ^ 53)
      ∧ roundDouble (5224175567749775 * 100) (2 ^ 53) = (8162774324609023, 2 ^ 47)
      ∧ 8162774324609023 / 2 ^ 47 = 57
      ∧ percent 29 50 = 57 := by
  decide

theorem constructor_fifty :
    constructor none { codes := some (.single exampleFifty) }
      = (.ok fiftyInstance, some fiftyInstance) := by
  rfl

/-- Claim C9 fails on the percentage.  With the single code of fifty keys
`UP`, registered through the constructor, the twenty-ninth key makes the call
`progress( 29, 57 )`: `29 / 50 * 100` is `57.99999999999999` in double
arithmetic, while the integer part of the exact value is `58`. -/
theorem progress_percent_rounds_down :
    constructor none { codes := some (.single exampleFifty) }
        = (.ok fiftyInstance, some fiftyInstance)
      ∧ (run fiftyInstance (pressAll (List.replicate 28 .UP))).1.currentSequence.length = 28
      ∧ progressCalls
          (handler (run fiftyInstance (pressAll (List.replicate 28 .UP))).1 (press .UP)).2
          = [(storedFifty, 29, 57)]
      ∧ 29 * 100 / storedFifty.sequence.length = 58 :=
  ⟨rfl, by decide, by decide, by decide⟩

/-! ### The normalizer (`transcript`) -/

theorem transcript_rawForms (key : Key) :
    ∀ raw ∈ key.rawForms, transcript (some raw) = key.toJs := by
  cases key <;> decide

theorem transcript_str_default (s : String) (h1 : s ≠ "ArrowUp") (h2 : s ≠ "UP")
    (h3 : s ≠ "ArrowDown") (h4 : s ≠ "DOWN") (h5 : s ≠ "ArrowLeft") (h6 : s ≠ "LEFT")
    (h7 : s ≠ "ArrowRight") (h8 : s ≠ "RIGHT") (h9 : s ≠ "KeyA") (h10 : s ≠ "A")
    (h11 : s ≠ "KeyB") (h12 : s ≠ "B") (h13 : s ≠ "KeyX") (h14 : s ≠ "X")
    (h15 : s ≠ "KeyY") (h16 : s ≠ "Y") : transcript (some (.str s)) = .num (-1) := by
  delta transcript transcript.match_1
  dsimp only
  rw [dif_neg h1, dif_neg h2, dif_neg h3, dif_neg h4, dif_neg h5, dif_neg h6, dif_neg h7,
    dif_neg h8, dif_neg h9, dif_neg h10, dif_neg h11, dif_neg h12, dif_neg h13, dif_neg h14,
    dif_neg h15, dif_neg h16]

theorem transcript_num_default (n : Int) (h1 : n ≠ 38) (h2 : n ≠ 40) (h3 : n ≠ 37)
    (h4 : n ≠ 39) (h5 : n ≠ 65) (h6 : n ≠ 66) (h7 : n ≠ 88) (h8 : n ≠ 89) :
    transcript (some (.num n)) = .num (-1) := by
  delta transcript transcript.match_1
  dsimp only
  rw [dif_neg h1, dif_neg h2, dif_neg h3, dif_neg h4, dif_neg h5, dif_neg h6, dif_neg h7,
    dif_neg h8]

theorem transcript_eq_invalid_or (v : Option JsVal) :
    transcript v = .num (-1) ∨ ∃ key : Key, ∃ raw ∈ key.rawForms, v = some raw := by
  match v with
  | none => exact Or.inl rfl
  | some (.num n) =>
    by_cases h1 : n = 38
    · subst h1
      exact Or.inr ⟨.UP, .num 38, by decide, rfl⟩
    by_cases h2 : n = 40
    · subst h2
      exact Or.inr ⟨.DOWN, .num 40, by decide, rfl⟩
    by_cases h3 : n = 37
    · subst h3
      exact Or.inr ⟨.LEFT, .num 37, by decide, rfl⟩
    by_cases h4 : n = 39
    · subst h4
      exact Or.inr ⟨.RIGHT, .num 39, by decide, rfl⟩
    by_cases h5 : n = 65
    · subst h5
      exact Or.inr ⟨.A, .num 65, by decide, rfl⟩
    by_cases h6 : n = 66
    · subst h6
      exact Or.inr ⟨.B, .num 66, by decide, rfl⟩
    by_cases h7 : n = 88
    · subst h7
      exact Or.inr ⟨.X, .num 88, by decide, rfl⟩
    by_cases h8 : n = 89
    · subst h8
      exact Or.inr ⟨.Y, .num 89, by decide, rfl⟩
    exact Or.inl (transcript_num_default n h1 h2 h3 h4 h5 h6 h7 h8)
  | some (.str s) =>
    by_cases h1 : s = "ArrowUp"
    · subst h1
      exact Or.inr ⟨.UP, .str "ArrowUp", by decide, rfl⟩
    by_cases h2 : s = "UP"
    · subst h2
      exact Or.inr ⟨.UP, .str "UP", by decide, rfl⟩
    by_cases h3 : s = "ArrowDown"
    · subst h3
      exact Or.inr ⟨.DOWN, .str "ArrowDown", by decide, rfl⟩
    by_cases h4 : s = "DOWN"
    · subst h4
      exact Or.inr ⟨.DOWN, .str "DOWN", by decide, rfl⟩
    by_cases h5 : s = "ArrowLeft"
    · subst h5
      exact Or.inr ⟨.LEFT, .str "ArrowLeft", by decide, rfl⟩
    by_cases h6 : s = "LEFT"
    · subst h6
      exact Or.inr ⟨.LEFT, .str "LEFT", by decide, rfl⟩
    by_cases h7 : s = "ArrowRight"
    · subst h7
      exact Or.inr ⟨.RIGHT, .str "ArrowRight", by decide, rfl⟩
    by_cases h8 : s = "RIGHT"
    · subst h8
      exact Or.inr ⟨.RIGHT, .str "RIGHT", by decide, rfl⟩
    by_cases h9 : s = "KeyA"
    · subst h9
      exact Or.inr ⟨.A, .str "KeyA", by decide, rfl⟩
    by_cases h10 : s = "A"
    · subst h10
      exact Or.inr ⟨.A, .str "A", by decide, rfl⟩
    by_cases h11 : s = "KeyB"
    · subst h11
      exact Or.inr ⟨.B, .str "KeyB", by decide, rfl⟩
    by_cases h12 : s = "B"
    · subst h12
      exact Or.inr ⟨.B, .str "B", by decide, rfl⟩
    by_cases h13 : s = "KeyX"
    · subst h13
      exact Or.inr ⟨.X, .str "KeyX", by decide, rfl⟩
    by_cases h14 : s = "X"
    · subst h14
      exact Or.inr ⟨.X, .str "X", by decide, rfl⟩
    by_cases h15 : s = "KeyY"
    · subst h15
      exact Or.inr ⟨.Y, .str "KeyY", by decide, rfl⟩
    by_cases h16 : s = "Y"
    · subst h16
      exact Or.inr ⟨.Y, .str "Y", by decide, rfl⟩
    exact Or.inl (transcript_str_default s h1 h2 h3 h4 h5 h6 h7 h8 h9 h10 h11 h12 h13 h14
      h15 h16)

theorem toJs_ne_invalid (key : Key) : key.toJs ≠ .num (-1) := by
  cases key <;> decide

/-- Claim C11. The method `transcript` maps the named keys `ArrowUp`,
`ArrowDown`, `ArrowLeft`, `ArrowRight`, `KeyA`, `KeyB`, `KeyX`, `KeyY`, the
numeric codes 38, 40, 37, 39, 65, 66, 88, 89 and the canonical symbols
themselves to `UP`, `DOWN`, `LEFT`, `RIGHT`, `A`, `B`, `X`, `Y` respectively;
every other input, `undefined` included, gives `-1`, which is no symbol; a
value yields a symbol only if it is one of these raw forms, and the symbol is
then the one of the form; and `transcript` applied to its result gives the
result again. -/
theorem transcript_table :
    (∀ key : Key, ∀ raw ∈ key.rawForms, transcript (some raw) = key.toJs)
      ∧ (∀ key : Key, transcript (some key.toJs) = key.toJs)
      ∧ (∀ (v : Option JsVal) (key : Key),
          transcript v = key.toJs ↔ ∃ raw ∈ key.rawForms, v = some raw)
      ∧ (∀ v : Option JsVal,
          (∀ key : Key, ∀ raw ∈ key.rawForms, v ≠ some raw) → transcript v = .num (-1))
      ∧ (∀ key : Key, key.toJs ≠ .num (-1))
      ∧ (∀ v : Option JsVal, transcript (some (transcript v)) = transcript v) := by
  refine ⟨transcript_rawForms, transcript_toJs, ?_, ?_, toJs_ne_invalid, ?_⟩
  · intro v key
    constructor
    · intro h
      rcases transcript_eq_invalid_or v with hv | ⟨k, raw, hraw, rfl⟩
      · rw [hv] at h
        exact absurd h.symm (toJs_ne_invalid key)
      · rw [transcript_rawForms k raw hraw] at h
        rw [← Key.toJs_injective _ _ h]
        exact ⟨raw, hraw, rfl⟩
    · rintro ⟨raw, hraw, rfl⟩
      exact transcript_rawForms key raw hraw
  · intro v h
    rcases transcript_eq_invalid_or v with hv | ⟨k, raw, hraw, hvr⟩
    · exact hv
    · exact absurd hvr (h k raw hraw)
  · intro v
    rcases transcript_eq_invalid_or v with hv | ⟨k, raw, hraw, rfl⟩
    · rw [hv]
      rfl
    · rw [transcript_rawForms k raw hraw, transcript_toJs]

/-! ### Entries without a sequence -/

/-- Claim C14. For every registry and every entry passed to `register` without
a sequence: the validation of the sequence does not drop the entry, and the
entry is stored, as the last entry of the registry, with the default sequence
`UP, UP, DOWN, DOWN, LEFT, RIGHT, LEFT, RIGHT, B, A`; registering the entry by
itself does not throw. -/
theorem register_default_sequence (codes : List Code) (code : CodeArg)
    (h : code.sequence = none) :
    checkSequence code.sequence
        = some [.UP, .UP, .DOWN, .DOWN, .LEFT, .RIGHT, .LEFT, .RIGHT, .B, .A]
      ∧ storedCode code [.UP, .UP, .DOWN, .DOWN, .LEFT, .RIGHT, .LEFT, .RIGHT, .B, .A]
          ∈ registerCode codes code
      ∧ (registerCode codes code).getLast?
          = some (storedCode code [.UP, .UP, .DOWN, .DOWN, .LEFT, .RIGHT, .LEFT, .RIGHT, .B, .A])
      ∧ ∃ result, register (some codes) (some (.single code)) = .ok result
          ∧ storedCode code [.UP, .UP, .DOWN, .DOWN, .LEFT, .RIGHT, .LEFT, .RIGHT, .B, .A]
              ∈ result := by
  have hs : checkSequence code.sequence
      = some [.UP, .UP, .DOWN, .DOWN, .LEFT, .RIGHT, .LEFT, .RIGHT, .B, .A] := by
    rw [h]
    rfl
  have hmem : storedCode code [.UP, .UP, .DOWN, .DOWN, .LEFT, .RIGHT, .LEFT, .RIGHT, .B, .A]
      ∈ registerCode codes code := by
    simp [registerCode, hs, storedCode]
  refine ⟨hs, hmem, ?_, registerCode codes code, ?_, hmem⟩
  · simp [registerCode, hs, storedCode]
  · simp [register, registerLoop, sequenceThrows, h]

/-- Witness of claim C14: the entry `{ callback: f }` registered after the
short example code. -/
theorem register_default_sequence_witness :
    storedCode { callback := .fn 1 }
        [.UP, .UP, .DOWN, .DOWN, .LEFT, .RIGHT, .LEFT, .RIGHT, .B, .A]
      ∈ registerCode [storedShort] { callback := .fn 1 } :=
  (register_default_sequence [storedShort] { callback := .fn 1 } rfl).2.1

/-! ### The keyboard event -/

/-- Whatever the setup asks for, and whatever the page, a constructed instance
listens on `keyup`. -/
theorem constructor_keyboardEvent (n_n : Option KonaCode) (setup : Setup) (page : Page)
    (this : KonaCode) (h : (constructor n_n setup page).1 = .ok this) :
    this.keyboardEvent = "keyup" := by
  unfold constructor at h
  by_cases hm : n_n.isSome = true
  · simp [hm] at h
  · cases hr : register none setup.codes with
    | error msg => simp [hm, hr] at h
    | ok codes =>
      by_cases hl : codes.length = 0
      · simp [hm, hr, hl] at h
      · simp only [hm, hr, hl, if_false, Bool.false_eq_true] at h
        split_ifs at h
        simp only [Except.ok.injEq] at h
        rw [← h]

/-- Claim C13 fails in the code.  The check of lines 50-53 keeps the event
`keydown` of the setup, but line 54 assigns the literal `'keyup'`: the
instance constructed from `keydownSetup` listens on `keyup`. -/
theorem keyboardEvent_ignores_keydown :
    keydownSetup.event = some (.str "keydown")
      ∧ checkEvent keydownSetup.event = .str "keydown"
      ∧ ∃ this, (constructor none keydownSetup).1 = .ok this
          ∧ this.keyboardEvent = "keyup" :=
  ⟨rfl, by decide, exampleInstance, rfl, rfl⟩

/-! ### The slot of a replaced entry -/

/-- Claim C17, as stated, fails.  Registering the keys `UP, UP, DOWN` again in
the registry of the short and the long example code removes the first entry
and puts the new one after the long code: the slot of the replaced entry was
the first, the slot of the new entry is the last. -/
theorem replaced_entry_moves_to_end :
    registerCode [storedShort, storedLong] exampleMute = [storedLong, storedMute]
      ∧ storedMute.sequence = storedShort.sequence
      ∧ [storedShort, storedLong].indexOf storedShort = 0
      ∧ (registerCode [storedShort, storedLong] exampleMute).indexOf storedMute = 1 := by
  decide

/-- Claim C17, amended.  When `register` replaces an existing entry by a new
entry with the same sequence, in a registry without repeated sequences, the
replaced entry is removed from its slot and the new entry is put at the end
of the registry; the entries before and after the replaced one keep their
order. -/
theorem register_replaces_at_end (before after : List Code) (old : Code) (code : CodeArg)
    (sequence : List Key)
    (hnd : ((before ++ old :: after).map Code.sequence).Nodup)
    (hs : checkSequence code.sequence = some sequence) (hold : old.sequence = sequence) :
    registerCode (before ++ old :: after) code
      = before ++ after ++ [storedCode code sequence] := by
  rw [registerCode_eq _ code sequence hnd hs]
  have hb : ∀ c ∈ before, (c.sequence != sequence) = true := by
    intro c hc
    rw [bne_iff_ne, ← hold]
    intro h
    rw [List.map_append, List.map_cons, List.nodup_append] at hnd
    exact hnd.2.2 (List.mem_map.mpr ⟨c, hc, h⟩) (List.mem_cons_self _ _)
  have ha : ∀ c ∈ after, (c.sequence != sequence) = true := by
    intro c hc
    rw [bne_iff_ne, ← hold]
    intro h
    rw [List.map_append, List.map_cons, List.nodup_append, List.nodup_cons] at hnd
    exact hnd.2.1.1 (List.mem_map.mpr ⟨c, hc, h⟩)
  have ho : (old.sequence != sequence) = false := by
    rw [hold]
    exact bne_self_eq_false _
  rw [List.filter_append, List.filter_cons_of_neg (by rw [ho]; simp),
    List.filter_eq_self.mpr hb, List.filter_eq_self.mpr ha]

/-- Witness of the amended claim C17: the short example code replaced in the
registry of the two example codes. -/
theorem register_replaces_at_end_witness :
    registerCode ([] ++ storedShort :: [storedLong]) exampleMute
      = [] ++ [storedLong] ++ [storedCode exampleMute [.UP, .UP, .DOWN]] :=
  register_replaces_at_end [] [storedLong] storedShort exampleMute [.UP, .UP, .DOWN]
    (by decide) (by decide) rfl

/-! ### Swipes (`touchEnd`) -/

theorem presses_swipeEvent (key : Key) : Presses (swipeEvent key) key := by
  cases key <;> decide

theorem swipeSymbol_direction (dx dy : Int) (key : Key) (h : swipeSymbol dx dy = some key) :
    key ∈ [Key.UP, Key.DOWN, Key.LEFT, Key.RIGHT] := by
  unfold swipeSymbol at h
  split_ifs at h <;> simp_all

/-- Claim C12. For every drag from `(xStart, yStart)` to the point of the end
event, with the minimum movement of 15 pixels: `touchEnd` records the end
point and either calls `handler` once or not at all.  The axis of the larger
absolute displacement decides (the vertical one when both are equal); when
the displacement on that axis is at most 15 no event is passed; when it is
more, the event passed is the arrow key of the direction, which `transcript`
maps to `UP` for a decreasing `y`, `DOWN` for an increasing `y`, `LEFT` for a
decreasing `x` and `RIGHT` for an increasing `x`. -/
theorem touchEnd_swipe (this : KonaCode) (xStart yStart : Int) (e : TouchPoint)
    (hx : this.touchXStart = some xStart) (hy : this.touchYStart = some yStart)
    (hmin : this.touchMinMovement = 15) :
    touchEnd this e
        = (match swipeSymbol (e.clientX - xStart) (e.clientY - yStart) with
          | none => ({ this with touchXEnd := some e.clientX, touchYEnd := some e.clientY }, [])
          | some key =>
            handler { this with touchXEnd := some e.clientX, touchYEnd := some e.clientY }
              (swipeEvent key))
      ∧ (∀ key, swipeSymbol (e.clientX - xStart) (e.clientY - yStart) = some key →
          Presses (swipeEvent key) key ∧ key ∈ [Key.UP, Key.DOWN, Key.LEFT, Key.RIGHT])
      ∧ (|e.clientX - xStart| ≤ |e.clientY - yStart| →
          (|e.clientY - yStart| ≤ 15 →
              swipeSymbol (e.clientX - xStart) (e.clientY - yStart) = none)
            ∧ (15 < |e.clientY - yStart| → e.clientY < yStart →
              swipeSymbol (e.clientX - xStart) (e.clientY - yStart) = some .UP)
            ∧ (15 < |e.clientY - yStart| → yStart < e.clientY →
              swipeSymbol (e.clientX - xStart) (e.clientY - yStart) = some .DOWN))
      ∧ (|e.clientY - yStart| < |e.clientX - xStart| →
          (|e.clientX - xStart| ≤ 15 →
              swipeSymbol (e.clientX - xStart) (e.clientY - yStart) = none)
            ∧ (15 < |e.clientX - xStart| → e.clientX < xStart →
              swipeSymbol (e.clientX - xStart) (e.clientY - yStart) = some .LEFT)
            ∧ (15 < |e.clientX - xStart| → xStart < e.clientX →
              swipeSymbol (e.clientX - xStart) (e.clientY - yStart) = some .RIGHT)) := by
  have hdx := abs_cases (e.clientX - xStart)
  have hdy := abs_cases (e.clientY - yStart)
  refine ⟨?_, fun key hk => ⟨presses_swipeEvent key, swipeSymbol_direction _ _ key hk⟩, ?_, ?_⟩
  · simp only [touchEnd, hx, hy, hmin, swipeSymbol]
    split_ifs <;> first | rfl | (exfalso; omega)
  · intro hv
    refine ⟨fun h => ?_, fun h hlt => ?_, fun h hlt => ?_⟩ <;>
      (simp only [swipeSymbol]; split_ifs <;> first | rfl | (exfalso; omega))
  · intro hv
    refine ⟨fun h => ?_, fun h hlt => ?_, fun h hlt => ?_⟩ <;>
      (simp only [swipeSymbol]; split_ifs <;> first | rfl | (exfalso; omega))

/-- Witness of claim C12: the drag of the specification, 5 pixels to the right
and 10 pixels down, passes no event; a drag of 40 pixels up passes `ArrowUp`. -/
theorem touchEnd_swipe_witness :
    (touchEnd (touchStart exampleInstance ⟨100, 100⟩) ⟨105, 110⟩).2 = []
      ∧ touchEnd (touchStart exampleInstance ⟨100, 100⟩) ⟨100, 60⟩
        = handler { touchStart exampleInstance ⟨100, 100⟩ with
            touchXEnd := some 100, touchYEnd := some 60 } { code := some (.str "ArrowUp") } :=
  have h1 := (touchEnd_swipe (touchStart exampleInstance ⟨100, 100⟩) 100 100 ⟨105, 110⟩
    rfl rfl rfl).1
  have h2 := (touchEnd_swipe (touchStart exampleInstance ⟨100, 100⟩) 100 100 ⟨100, 60⟩
    rfl rfl rfl).1
  ⟨by rw [h1]; decide, by rw [h2]; rfl⟩

/-! ### The session invariant -/

theorem isPrefixOf_concat_js (typed : List JsVal) (key : JsVal) (l : List JsVal) :
    (typed ++ [key]).isPrefixOf l = (typed.isPrefixOf l && (l[typed.length]? == some key)) := by
  induction typed generalizing l with
  | nil => cases l <;> simp [List.isPrefixOf, eq_comm]
  | cons a t ih =>
    cases l with
    | nil => simp [List.isPrefixOf]
    | cons b l => simp [List.isPrefixOf, ih, Bool.and_assoc]

theorem looseEq_sequenceAt_js (code : Code) (i : Nat) (key : JsVal) :
    looseEq (code.sequenceAt i) key = ((code.sequence.map Key.toJs)[i]? == some key) := by
  unfold looseEq Code.sequenceAt
  rw [List.getElem?_map]

theorem candidatesFor_filter (codes : List Code) (typed : List JsVal) (key : JsVal) :
    (candidatesFor codes typed).filter (fun code => looseEq (code.sequenceAt typed.length) key)
      = candidatesFor codes (typed ++ [key]) := by
  unfold candidatesFor
  rw [List.filter_filter]
  apply List.filter_congr
  intro code _
  rw [looseEq_sequenceAt_js, isPrefixOf_concat_js, Bool.and_comm]

theorem candidatesFor_nil (codes : List Code) : candidatesFor codes [] = codes := by
  simp [candidatesFor, List.isPrefixOf]

theorem exec_cases (this : KonaCode) (code : Code) (delayed : Bool) :
    (exec this code delayed).1.codes = this.codes
      ∧ (((exec this code delayed).1.currentSequence = this.currentSequence
            ∧ (exec this code delayed).1.validCodes = this.validCodes)
          ∨ ((exec this code delayed).1.currentSequence = []
            ∧ (exec this code delayed).1.validCodes = none)) := by
  by_cases ht : code.callback.truthy = true <;> cases delayed <;>
    simp [exec, resetCurrentSequence, ht]

theorem finish_cases (this : KonaCode) :
    (finish this).1.codes = this.codes
      ∧ (((finish this).1.currentSequence = this.currentSequence
            ∧ (finish this).1.validCodes = this.validCodes)
          ∨ ((finish this).1.currentSequence = [] ∧ (finish this).1.validCodes = none)) := by
  unfold finish
  dsimp only
  split
  · exact exec_cases _ _ _
  · split <;> exact ⟨rfl, Or.inl ⟨rfl, rfl⟩⟩

/-- What `handler` can do to the keys typed and to the candidates: leave
them, reset them, or append the key and keep the candidates that accept it. -/
theorem handler_cases (this : KonaCode) (e : KeyEvent) :
    (handler this e).1.codes = this.codes
      ∧ (((handler this e).1.currentSequence = this.currentSequence
            ∧ (handler this e).1.validCodes = this.validCodes)
          ∨ ((handler this e).1.currentSequence = [] ∧ (handler this e).1.validCodes = none)
          ∨ ∃ key,
              (liveCandidates this).filter
                  (fun c => looseEq (c.sequenceAt this.currentSequence.length) key) ≠ []
                ∧ (handler this e).1.currentSequence = this.currentSequence ++ [key]
                ∧ (handler this e).1.validCodes
                    = some ((liveCandidates this).filter
                        fun c => looseEq (c.sequenceAt this.currentSequence.length) key)) := by
  cases hp : e.pressed with
  | none => simp [handler, hp, cleanExecTimeout]
  | some code =>
    have hh : handler this e = handleKey (cleanExecTimeout this) (transcript (some code)) := by
      simp [handler, hp]
    rw [hh]
    by_cases hm : (liveCandidates (cleanExecTimeout this)).filter
        (fun c => looseEq (c.sequenceAt (cleanExecTimeout this).currentSequence.length)
          (transcript (some code))) = []
    · rw [handleKey_of_no_match _ _ (by
        intro c hc
        have := List.filter_eq_nil_iff.mp hm c hc
        simpa using this)]
      exact ⟨rfl, Or.inr (Or.inl ⟨rfl, rfl⟩)⟩
    · rw [handleKey_of_match _ _ hm]
      have hf := finish_cases
        { cleanExecTimeout this with
          validCodes := some ((liveCandidates (cleanExecTimeout this)).filter fun c =>
            looseEq (c.sequenceAt (cleanExecTimeout this).currentSequence.length)
              (transcript (some code)))
          currentSequence := (cleanExecTimeout this).currentSequence ++ [transcript (some code)] }
      refine ⟨hf.1, ?_⟩
      rcases hf.2 with h | h
      · exact Or.inr (Or.inr ⟨transcript (some code), hm, h.1, h.2⟩)
      · exact Or.inr (Or.inl h)

theorem timeout_cases (this : KonaCode) :
    (timeout this).1.codes = this.codes
      ∧ (((timeout this).1.currentSequence = this.currentSequence
            ∧ (timeout this).1.validCodes = this.validCodes)
          ∨ ((timeout this).1.currentSequence = [] ∧ (timeout this).1.validCodes = none)) := by
  unfold timeout
  cases this.execTimeout with
  | none => exact ⟨rfl, Or.inl ⟨rfl, rfl⟩⟩
  | some code => exact exec_cases _ _ _

theorem sessionInv_of_reset (this : KonaCode) (h1 : this.currentSequence = [])
    (h2 : this.validCodes = none) : SessionInv this := by
  unfold SessionInv liveCandidates
  rw [h1, h2, candidatesFor_nil]
  exact ⟨rfl, fun h => absurd rfl h⟩

theorem sessionInv_of_same (this next : KonaCode) (h : SessionInv this)
    (hc : next.codes = this.codes) (h1 : next.currentSequence = this.currentSequence)
    (h2 : next.validCodes = this.validCodes) : SessionInv next := by
  unfold SessionInv liveCandidates at h ⊢
  rw [hc, h1, h2]
  exact h

theorem step_sessionInv (this : KonaCode) (i : Input) (h : SessionInv this) :
    SessionInv (step this i).1 ∧ (step this i).1.codes = this.codes := by
  cases i with
  | timer =>
    have hc := timeout_cases this
    refine ⟨?_, hc.1⟩
    rcases hc.2 with h1 | h1
    · exact sessionInv_of_same this _ h hc.1 h1.1 h1.2
    · exact sessionInv_of_reset _ h1.1 h1.2
  | key e =>
    have hc := handler_cases this e
    refine ⟨?_, hc.1⟩
    rcases hc.2 with h1 | h1 | ⟨key, hne, h1, h2⟩
    · exact sessionInv_of_same this _ h hc.1 h1.1 h1.2
    · exact sessionInv_of_reset _ h1.1 h1.2
    · show SessionInv (handler this e).1
      unfold SessionInv liveCandidates
      rw [hc.1, h1, h2]
      simp only [Option.getD_some]
      rw [h.1, candidatesFor_filter] at hne ⊢
      exact ⟨rfl, fun _ => hne⟩

/-- Every session reached from an idle one satisfies the invariant and has
the registry it started with. -/
theorem run_sessionInv (this : KonaCode) (hidle : Idle this) (inputs : List Input) :
    SessionInv (run this inputs).1 ∧ (run this inputs).1.codes = this.codes := by
  have hgen : ∀ (inputs : List Input) (st : KonaCode), SessionInv st →
      SessionInv (run st inputs).1 ∧ (run st inputs).1.codes = st.codes := by
    intro inputs
    induction inputs with
    | nil => intro st h; exact ⟨h, rfl⟩
    | cons i rest ih =>
      intro st h
      rw [run_cons]
      have hs := step_sessionInv st i h
      have hr := ih (step st i).1 hs.1
      exact ⟨hr.1, hr.2.trans hs.2⟩
  exact hgen inputs this (sessionInv_of_reset this hidle.1 hidle.2.1)

/-- Claim C15. With the registry fixed, in every session reached from an idle
one by any succession of events and timer firings: the registry is the one
of the start; the live candidates are exactly the registry entries, in
registry order, whose sequence has the values typed as a prefix; there is at
least one when something is typed; they are the whole registry when nothing
is typed; and an event after which something is typed leaves candidates
that were candidates before it, in the same order. -/
theorem session_invariant (this : KonaCode) (hidle : Idle this) (inputs : List Input) :
    (run this inputs).1.codes = this.codes
      ∧ liveCandidates (run this inputs).1
          = candidatesFor this.codes (run this inputs).1.currentSequence
      ∧ ((run this inputs).1.currentSequence ≠ [] → liveCandidates (run this inputs).1 ≠ [])
      ∧ ((run this inputs).1.currentSequence = [] →
          liveCandidates (run this inputs).1 = this.codes)
      ∧ ∀ e : KeyEvent, (handler (run this inputs).1 e).1.currentSequence ≠ [] →
          List.Sublist (liveCandidates (handler (run this inputs).1 e).1)
            (liveCandidates (run this inputs).1) := by
  have hinv := run_sessionInv this hidle inputs
  refine ⟨hinv.2, ?_, hinv.1.2, ?_, ?_⟩
  · rw [hinv.1.1, hinv.2]
  · intro h
    rw [hinv.1.1, hinv.2, h, candidatesFor_nil]
  · intro e hne
    have hc := handler_cases (run this inputs).1 e
    rcases hc.2 with h1 | h1 | ⟨key, _, h1, h2⟩
    · unfold liveCandidates
      rw [hc.1, h1.2]
    · exact absurd h1.1 hne
    · unfold liveCandidates
      rw [h2]
      exact List.filter_sublist _

/-- Witness of claim C15: two accepted keys, a firing of the timer with
nothing pending, and a third key on the example instance. -/
theorem session_invariant_witness :
    liveCandidates (run exampleInstance
        [.key (press .UP), .key (press .UP), .timer, .key (press .DOWN)]).1
      = candidatesFor exampleInstance.codes (run exampleInstance
        [.key (press .UP), .key (press .UP), .timer, .key (press .DOWN)]).1.currentSequence :=
  (session_invariant exampleInstance (by decide)
    [.key (press .UP), .key (press .UP), .timer, .key (press .DOWN)]).2.1

/-! ### Finished candidates -/

theorem length_le_one_of_nodup_same (l : List Code) (h : (l.map Code.sequence).Nodup)
    (hsame : ∀ a ∈ l, ∀ b ∈ l, a.sequence = b.sequence) : l.length ≤ 1 := by
  match l, h, hsame with
  | [], _, _ => simp
  | [_], _, _ => simp
  | a :: b :: r, h, hsame =>
    exfalso
    rw [List.map_cons, List.nodup_cons] at h
    apply h.1
    rw [hsame a (List.mem_cons_self _ _) b (List.mem_cons_of_mem _ (List.mem_cons_self _ _))]
    exact List.mem_map.mpr ⟨b, List.mem_cons_self _ _, rfl⟩

theorem map_toJs_injective (a b : List Key) (h : a.map Key.toJs = b.map Key.toJs) : a = b := by
  induction a generalizing b with
  | nil =>
    cases b with
    | nil => rfl
    | cons _ _ => simp at h
  | cons x t ih =>
    cases b with
    | nil => simp at h
    | cons y r =>
      rw [List.map_cons, List.map_cons, List.cons.injEq] at h
      rw [Key.toJs_injective x y h.1, ih r h.2]

/-- The entries of a registry without repeated sequences that have exactly
the values typed as their sequence: there is at most one. -/
theorem finished_at_most_one (codes : List Code) (typed : List JsVal)
    (hnd : (codes.map Code.sequence).Nodup) :
    ((candidatesFor codes typed).filter fun c => c.sequence.length == typed.length).length ≤ 1
      ∧ ∀ c ∈ (candidatesFor codes typed).filter fun c => c.sequence.length == typed.length,
          c.sequence.map Key.toJs = typed := by
  have hall : ∀ c ∈ (candidatesFor codes typed).filter
      fun c => c.sequence.length == typed.length, c.sequence.map Key.toJs = typed := by
    intro c hc
    rw [List.mem_filter, beq_iff_eq] at hc
    have hp := (List.mem_filter.mp hc.1).2
    rw [List.isPrefixOf_iff_prefix] at hp
    exact (hp.eq_of_length (by rw [List.length_map, hc.2])).symm
  refine ⟨?_, hall⟩
  apply length_le_one_of_nodup_same
  · exact (((List.filter_sublist _).trans (List.filter_sublist _)).map _).nodup hnd
  · intro a ha b hb
    exact map_toJs_injective _ _ ((hall a ha).trans (hall b hb).symm)

/-- Claim C18. In every session reached, by any succession of events and
timer firings, from an idle one whose registry was built by calls of
`register` alone, and for every key: the candidates that are finished after
the key, those accepting it whose length is the number of values typed, are
at most one, and the sequence of a finished candidate is the values typed; so
the first finished candidate is followed by no other.  The same holds of the
candidates of the session itself. -/
theorem at_most_one_finished (calls : List (Option CodesArg)) (this : KonaCode)
    (hreg : this.codes = (registerSeries none calls).getD []) (hidle : Idle this)
    (inputs : List Input) (key : JsVal) :
    (((liveCandidates (run this inputs).1).filter
          (fun c => looseEq (c.sequenceAt (run this inputs).1.currentSequence.length) key)).filter
        (fun c => c.sequence.length == (run this inputs).1.currentSequence.length + 1)).length ≤ 1
      ∧ (∀ c ∈ ((liveCandidates (run this inputs).1).filter
            (fun c => looseEq (c.sequenceAt (run this inputs).1.currentSequence.length) key)).filter
          (fun c => c.sequence.length == (run this inputs).1.currentSequence.length + 1),
          c.sequence.map Key.toJs = (run this inputs).1.currentSequence ++ [key])
      ∧ (∀ c rest, ((liveCandidates (run this inputs).1).filter
            (fun c => looseEq (c.sequenceAt (run this inputs).1.currentSequence.length) key)).filter
          (fun c => c.sequence.length == (run this inputs).1.currentSequence.length + 1)
            = c :: rest → rest = [])
      ∧ ((liveCandidates (run this inputs).1).filter
          (fun c => c.sequence.length == (run this inputs).1.currentSequence.length)).length ≤ 1
      ∧ ∀ c ∈ (liveCandidates (run this inputs).1).filter
          (fun c => c.sequence.length == (run this inputs).1.currentSequence.length),
          c.sequence.map Key.toJs = (run this inputs).1.currentSequence := by
  have hnd : (this.codes.map Code.sequence).Nodup := by
    rw [hreg, registerSeries_getD]
    exact foldl_registerCode_nodup _ _ (by simp)
  have hinv := run_sessionInv this hidle inputs
  have hnd2 : ((run this inputs).1.codes.map Code.sequence).Nodup := by
    rw [hinv.2]; exact hnd
  have hlen : ((run this inputs).1.currentSequence ++ [key]).length
      = (run this inputs).1.currentSequence.length + 1 := by simp
  have h1 := finished_at_most_one (run this inputs).1.codes
    ((run this inputs).1.currentSequence ++ [key]) hnd2
  rw [← candidatesFor_filter, ← hinv.1.1, hlen] at h1
  have h2 := finished_at_most_one (run this inputs).1.codes
    (run this inputs).1.currentSequence hnd2
  rw [← hinv.1.1] at h2
  refine ⟨h1.1, h1.2, ?_, h2.1, h2.2⟩
  intro c rest hcr
  have hl := h1.1
  rw [hcr] at hl
  cases rest with
  | nil => rfl
  | cons _ _ => simp at hl

/-- Witness of claim C18: the third key of the short example code, after the
first two, in the registry of the two example codes. -/
theorem at_most_one_finished_witness :
    (((liveCandidates (run exampleInstance (pressAll [.UP, .UP])).1).filter
          (fun c => looseEq
            (c.sequenceAt (run exampleInstance (pressAll [.UP, .UP])).1.currentSequence.length)
            Key.DOWN.toJs)).filter
        (fun c => c.sequence.length
          == (run exampleInstance (pressAll [.UP, .UP])).1.currentSequence.length + 1)).length
      ≤ 1 :=
  (at_most_one_finished [exampleSetup.codes] exampleInstance rfl (by decide)
    (pressAll [.UP, .UP]) Key.DOWN.toJs).1

/-! ### The joystick -/

theorem needJoystick_sequenceAt (c : Code) (n : Nat) :
    needJoystick (transcript (c.sequenceAt n)) = (c.sequence[n]?).any Key.isButton := by
  unfold Code.sequenceAt
  cases c.sequence[n]? with
  | none => decide
  | some k => cases k <;> decide

theorem joystickCalls_append (a b : List Effect) :
    joystickCalls (a ++ b) = joystickCalls a ++ joystickCalls b := by
  simp [joystickCalls]

theorem joystickCalls_flatMap_progressCall (l : List Code) (f : Code → Nat × Nat) :
    joystickCalls (l.flatMap fun c => progressCall (f c).1 (f c).2 c) = [] := by
  induction l with
  | nil => rfl
  | cons a t ih =>
    rw [List.flatMap_cons, joystickCalls_append, ih]
    unfold progressCall joystickCalls
    split <;> rfl

theorem mem_showJoystick_iff (c : Code) (calls : List Effect) :
    Effect.showJoystick c ∈ calls ↔ Effect.showJoystick c ∈ joystickCalls calls := by
  simp [joystickCalls]

/-- What `finish` does when no candidate is finished: it leaves the session
and shows the joystick for the first candidate whose next key is a button,
or hides it. -/
theorem finish_of_none_finished (this : KonaCode) (valid : List Code)
    (hv : this.validCodes = some valid)
    (hnone : ∀ c ∈ valid, c.sequence.length ≠ this.currentSequence.length) :
    finish this
      = (this,
          match valid.find? fun c => (c.sequence[this.currentSequence.length]?).any Key.isButton with
          | some c => [.showJoystick c]
          | none => [.hideJoystick]) := by
  have hf : valid.filter (fun code => code.sequence.length == this.currentSequence.length) = [] := by
    rw [List.filter_eq_nil_iff]
    intro c hc
    simpa using hnone c hc
  have hj : (valid.filter fun code =>
        needJoystick (transcript (code.sequenceAt this.currentSequence.length))).head?
      = valid.find? fun c => (c.sequence[this.currentSequence.length]?).any Key.isButton := by
    rw [← find?_eq_head?_filter]
    congr 1
    funext c
    exact needJoystick_sequenceAt c _
  unfold finish
  simp only [hv, Option.getD_some, hf]
  rw [← hj]
  cases (valid.filter fun code =>
      needJoystick (transcript (code.sequenceAt this.currentSequence.length))) <;> rfl

/-- Claim C16. For every state and every event whose key some live candidate
accepts while no candidate that accepts it is finished by it: the one
joystick call of `handler` shows the joystick for the first candidate, in the
order of the candidates, whose next key is one of `A`, `B`, `X`, `Y`, and
hides the joystick when there is no such candidate; so the joystick is shown
exactly when the next key of some candidate is a button.  When the session
invariant holds the candidates are the registry entries that start with the
values typed, in registry order. -/
theorem joystick_for_next_key (this : KonaCode) (e : KeyEvent) (code : JsVal)
    (hpress : e.pressed = some code)
    (hacc : (liveCandidates this).filter (fun c =>
      looseEq (c.sequenceAt this.currentSequence.length) (transcript (some code))) ≠ [])
    (hnone : ∀ c ∈ (liveCandidates this).filter (fun c =>
        looseEq (c.sequenceAt this.currentSequence.length) (transcript (some code))),
      c.sequence.length ≠ this.currentSequence.length + 1) :
    joystickCalls (handler this e).2
        = (match ((liveCandidates this).filter (fun c =>
              looseEq (c.sequenceAt this.currentSequence.length) (transcript (some code)))).find?
            (fun c => (c.sequence[this.currentSequence.length + 1]?).any Key.isButton) with
          | some c => [.showJoystick c]
          | none => [.hideJoystick])
      ∧ ((∃ c, Effect.showJoystick c ∈ (handler this e).2)
          ↔ ∃ c ∈ (liveCandidates this).filter (fun c =>
              looseEq (c.sequenceAt this.currentSequence.length) (transcript (some code))),
            (c.sequence[this.currentSequence.length + 1]?).any Key.isButton = true)
      ∧ (Effect.hideJoystick ∈ (handler this e).2
          ↔ ∀ c ∈ (liveCandidates this).filter (fun c =>
              looseEq (c.sequenceAt this.currentSequence.length) (transcript (some code))),
            (c.sequence[this.currentSequence.length + 1]?).any Key.isButton = false)
      ∧ (SessionInv this →
          (liveCandidates this).filter (fun c =>
              looseEq (c.sequenceAt this.currentSequence.length) (transcript (some code)))
            = this.codes.filter fun c =>
                (this.currentSequence ++ [transcript (some code)]).isPrefixOf
                  (c.sequence.map Key.toJs)) := by
  obtain ⟨c0, hc0⟩ := List.exists_mem_of_ne_nil _ hacc
  obtain ⟨next, hseq, hvalid, _, hh⟩ := handler_accepted_key this e code hpress
    ⟨c0, (List.mem_filter.mp hc0).1, (List.mem_filter.mp hc0).2⟩
  have hlen : next.currentSequence.length = this.currentSequence.length + 1 := by
    rw [hseq]; simp
  have hfin := finish_of_none_finished next _ hvalid (by rw [hlen]; exact hnone)
  rw [hlen] at hfin
  have hcalls : joystickCalls (handler this e).2
      = (match ((liveCandidates this).filter (fun c =>
              looseEq (c.sequenceAt this.currentSequence.length) (transcript (some code)))).find?
            (fun c => (c.sequence[this.currentSequence.length + 1]?).any Key.isButton) with
          | some c => [.showJoystick c]
          | none => [.hideJoystick]) := by
    rw [hh, hfin]
    simp only [joystickCalls_append]
    rw [joystickCalls_flatMap_progressCall _
        (fun c => (next.currentSequence.length,
          percent next.currentSequence.length c.sequence.length)),
      joystickCalls_flatMap_progressCall _ (fun _ => (0, 0))]
    cases ((liveCandidates this).filter (fun c =>
        looseEq (c.sequenceAt this.currentSequence.length) (transcript (some code)))).find?
      (fun c => (c.sequence[this.currentSequence.length + 1]?).any Key.isButton) <;> rfl
  refine ⟨hcalls, ?_, ?_, ?_⟩
  · constructor
    · rintro ⟨c, hc⟩
      rw [mem_showJoystick_iff, hcalls] at hc
      cases hf : ((liveCandidates this).filter (fun c =>
          looseEq (c.sequenceAt this.currentSequence.length) (transcript (some code)))).find?
        (fun c => (c.sequence[this.currentSequence.length + 1]?).any Key.isButton) with
      | none => rw [hf] at hc; simp at hc
      | some d =>
        have hb := List.find?_some hf
        exact ⟨d, List.mem_of_find?_eq_some hf, hb⟩
    · rintro ⟨c, hc, hb⟩
      cases hf : ((liveCandidates this).filter (fun c =>
          looseEq (c.sequenceAt this.currentSequence.length) (transcript (some code)))).find?
        (fun c => (c.sequence[this.currentSequence.length + 1]?).any Key.isButton) with
      | none => exact absurd hb (by simpa using List.find?_eq_none.mp hf c hc)
      | some d =>
        refine ⟨d, ?_⟩
        rw [mem_showJoystick_iff, hcalls, hf]
        simp
  · have hmem : Effect.hideJoystick ∈ (handler this e).2
        ↔ Effect.hideJoystick ∈ joystickCalls (handler this e).2 := by
      simp [joystickCalls]
    rw [hmem, hcalls]
    cases hf : ((liveCandidates this).filter (fun c =>
        looseEq (c.sequenceAt this.currentSequence.length) (transcript (some code)))).find?
      (fun c => (c.sequence[this.currentSequence.length + 1]?).any Key.isButton) with
    | none =>
      simp only [List.mem_singleton, true_iff]
      intro c hc
      simpa using List.find?_eq_none.mp hf c hc
    | some d =>
      have hb := List.find?_some hf
      simp only [List.mem_singleton]
      constructor
      · intro h
        cases h
      · intro hall
        rw [hall d (List.mem_of_find?_eq_some hf)] at hb
        exact absurd hb (by decide)
  · intro hinv
    rw [hinv.1, candidatesFor_filter]
    rfl

/-- Witness of claim C16: the eighth key of the original sequence, after
which the next key is `B`. -/
theorem joystick_for_next_key_witness :
    joystickCalls (handler
        (typedState konamiInstance [.UP, .UP, .DOWN, .DOWN, .LEFT, .RIGHT, .LEFT])
        (press .RIGHT)).2 = [.showJoystick konamiCode] :=
  (joystick_for_next_key (typedState konamiInstance [.UP, .UP, .DOWN, .DOWN, .LEFT, .RIGHT, .LEFT])
    (press .RIGHT) Key.RIGHT.toJs rfl (by decide) (by decide)).1

/-! ### A finished code without callback -/

theorem exec_of_no_callback (this : KonaCode) (code : Code) (delayed : Bool)
    (h : code.callback.truthy = false) :
    exec this code delayed
      = ({ this with currentSequence := [], validCodes := none },
          this.codes.flatMap (progressCall 0 0) ++ [.hideJoystick]) := by
  simp [exec, h, resetCurrentSequence]

/-- What `finish` does when the first finished candidate has no callback. -/
theorem finish_of_no_callback (this : KonaCode) (valid : List Code) (first : Code)
    (rest : List Code) (hv : this.validCodes = some valid)
    (hfin : valid.filter (fun c => c.sequence.length == this.currentSequence.length)
      = first :: rest)
    (h : first.callback.truthy = false) :
    finish this
      = ({ this with currentSequence := [], validCodes := none },
          this.codes.flatMap (progressCall 0 0) ++ [.hideJoystick]) := by
  unfold finish
  simp only [hv, Option.getD_some, hfin]
  exact exec_of_no_callback _ _ _ h

/-- The whole of `handler` when the key is accepted and the first candidate
it finishes has no callback. -/
theorem handler_of_no_callback (this : KonaCode) (e : KeyEvent) (code : JsVal) (first : Code)
    (rest : List Code) (hpress : e.pressed = some code)
    (hfin : ((liveCandidates this).filter (fun c =>
          looseEq (c.sequenceAt this.currentSequence.length) (transcript (some code)))).filter
        (fun c => c.sequence.length == this.currentSequence.length + 1) = first :: rest)
    (h : first.callback.truthy = false) :
    handler this e
      = ({ this with currentSequence := [], validCodes := none, execTimeout := none },
          [.appendToFeedback (transcript (some code))]
            ++ ((liveCandidates this).filter fun c =>
                looseEq (c.sequenceAt this.currentSequence.length)
                  (transcript (some code))).flatMap
              (fun c => progressCall (this.currentSequence.length + 1)
                (percent (this.currentSequence.length + 1) c.sequence.length) c)
            ++ ((liveCandidates this).filter fun c =>
                !looseEq (c.sequenceAt this.currentSequence.length)
                  (transcript (some code))).flatMap
              (progressCall 0 0)
            ++ (this.codes.flatMap (progressCall 0 0) ++ [.hideJoystick])) := by
  have hh : handler this e = handleKey (cleanExecTimeout this) (transcript (some code)) := by
    simp [handler, hpress]
  have hne : (liveCandidates (cleanExecTimeout this)).filter
      (fun c => looseEq (c.sequenceAt (cleanExecTimeout this).currentSequence.length)
        (transcript (some code))) ≠ [] := by
    intro hnil
    have hnil2 : (liveCandidates this).filter (fun c =>
        looseEq (c.sequenceAt this.currentSequence.length) (transcript (some code))) = [] := hnil
    rw [hnil2] at hfin
    simp at hfin
  rw [hh, handleKey_of_match _ _ hne]
  have hf := finish_of_no_callback
    { cleanExecTimeout this with
      validCodes := some ((liveCandidates (cleanExecTimeout this)).filter fun c =>
        looseEq (c.sequenceAt (cleanExecTimeout this).currentSequence.length)
          (transcript (some code)))
      currentSequence := (cleanExecTimeout this).currentSequence ++ [transcript (some code)] }
    _ first rest rfl (by simpa [cleanExecTimeout, liveCandidates] using hfin) h
  rw [hf]
  rfl

theorem finish_of_finished (this : KonaCode) (valid : List Code) (first : Code)
    (rest : List Code) (hv : this.validCodes = some valid)
    (hfin : valid.filter (fun c => c.sequence.length == this.currentSequence.length)
      = first :: rest) :
    finish this = exec this first (valid.length != 1) := by
  unfold finish
  simp only [hv, Option.getD_some, hfin]

theorem guarded_of_reset (mute : Code) (this : KonaCode) (hne : mute.sequence ≠ [])
    (h1 : this.currentSequence = []) (h2 : this.execTimeout = none) : Guarded mute this := by
  unfold Guarded
  rw [h1, h2]
  refine ⟨?_, fun c hc => by cases hc⟩
  rw [List.prefix_nil]
  intro h
  exact hne (List.map_eq_nil_iff.mp h)

/-- What `finish` does to the guard of a code without callback. -/
theorem finish_guarded (n : KonaCode) (mute : Code)
    (hv : n.validCodes = some (candidatesFor n.codes n.currentSequence))
    (ht : n.execTimeout = none)
    (hnd : (n.codes.map Code.sequence).Nodup) (hm : mute ∈ n.codes)
    (hmute : mute.callback.truthy = false) (hne : mute.sequence ≠ [])
    (H : mute.sequence.map Key.toJs <+: n.currentSequence →
      mute.sequence.map Key.toJs = n.currentSequence) :
    Guarded mute (finish n).1
      ∧ ∀ c ∈ callbacks (finish n).2, ¬ (mute.sequence <+: c.sequence) := by
  have hFmem : ∀ c ∈ (candidatesFor n.codes n.currentSequence).filter
      (fun c => c.sequence.length == n.currentSequence.length),
      c ∈ n.codes ∧ c.sequence.map Key.toJs = n.currentSequence := by
    intro c hc
    rw [List.mem_filter, beq_iff_eq] at hc
    have hp := List.mem_filter.mp hc.1
    refine ⟨hp.1, ?_⟩
    have hp2 := hp.2
    rw [List.isPrefixOf_iff_prefix] at hp2
    exact (hp2.eq_of_length (by rw [List.length_map, hc.2])).symm
  have hkey : ∀ c ∈ n.codes, c.callback.truthy = true →
      c.sequence.map Key.toJs = n.currentSequence →
      ¬ (mute.sequence.map Key.toJs <+: n.currentSequence) := by
    intro c hc htr hcs hpre
    have hseq : mute.sequence = c.sequence :=
      map_toJs_injective _ _ ((H hpre).trans hcs.symm)
    have hmc : mute = c := List.inj_on_of_nodup_map hnd hm hc hseq
    rw [hmc, htr] at hmute
    cases hmute
  cases hF : (candidatesFor n.codes n.currentSequence).filter
      (fun c => c.sequence.length == n.currentSequence.length) with
  | nil =>
    have hnone : ∀ c ∈ candidatesFor n.codes n.currentSequence,
        c.sequence.length ≠ n.currentSequence.length := by
      intro c hc
      simpa using List.filter_eq_nil_iff.mp hF c hc
    rw [finish_of_none_finished n _ hv hnone]
    refine ⟨⟨?_, fun c hc => by rw [ht] at hc; cases hc⟩, ?_⟩
    · intro hpre
      have heq := H hpre
      have hmem : mute ∈ (candidatesFor n.codes n.currentSequence).filter
          (fun c => c.sequence.length == n.currentSequence.length) := by
        rw [List.mem_filter, beq_iff_eq]
        refine ⟨List.mem_filter.mpr ⟨hm, ?_⟩, ?_⟩
        · rw [List.isPrefixOf_iff_prefix, heq]
        · rw [← heq, List.length_map]
      rw [hF] at hmem
      cases hmem
    · intro c hc
      cases hfd : (candidatesFor n.codes n.currentSequence).find?
          (fun c => (c.sequence[n.currentSequence.length]?).any Key.isButton) <;>
        simp [hfd] at hc
  | cons first rest =>
    have hfirst := hFmem first (by rw [hF]; exact List.mem_cons_self _ _)
    rw [finish_of_finished n _ first rest hv hF]
    by_cases htr : first.callback.truthy = true
    · have hnp := hkey first hfirst.1 htr hfirst.2
      cases (candidatesFor n.codes n.currentSequence).length != 1 with
      | true =>
        have he : exec n first true = ({ n with execTimeout := some first }, []) := by
          simp [exec, htr]
        rw [he]
        refine ⟨⟨hnp, ?_⟩, by simp [callbacks]⟩
        intro c hc
        have hcf : first = c := Option.some.inj hc
        rw [← hcf]
        exact ⟨htr, hfirst.2⟩
      | false =>
        refine ⟨guarded_of_reset mute _ hne ?_ ?_, ?_⟩
        · simp [exec, htr, resetCurrentSequence]
        · simp [exec, htr, resetCurrentSequence, ht]
        · intro c hc hpre
          rw [callbacks_exec_subset n first false c hc] at hpre
          apply hnp
          rw [← hfirst.2]
          exact hpre.map Key.toJs
    · have htf : first.callback.truthy = false := by simpa using htr
      rw [exec_of_no_callback n first _ htf]
      exact ⟨guarded_of_reset mute _ hne rfl ht, by simp⟩

/-- What `handler` does to the guard of a code without callback. -/
theorem handler_guarded (st : KonaCode) (e : KeyEvent) (mute : Code) (hinv : SessionInv st)
    (hnd : (st.codes.map Code.sequence).Nodup) (hm : mute ∈ st.codes)
    (hmute : mute.callback.truthy = false) (hne : mute.sequence ≠ [])
    (hg : Guarded mute st) :
    Guarded mute (handler st e).1
      ∧ ∀ c ∈ callbacks (handler st e).2, ¬ (mute.sequence <+: c.sequence) := by
  cases hp : e.pressed with
  | none =>
    have hh : handler st e = (cleanExecTimeout st, []) := by simp [handler, hp]
    rw [hh]
    exact ⟨⟨hg.1, fun c hc => by cases hc⟩, by simp [callbacks]⟩
  | some code =>
    by_cases hmatch : (liveCandidates st).filter (fun c =>
        looseEq (c.sequenceAt st.currentSequence.length) (transcript (some code))) = []
    · have hno : ∀ c ∈ liveCandidates st,
          looseEq (c.sequenceAt st.currentSequence.length) (transcript (some code)) = false := by
        intro c hc
        simpa using List.filter_eq_nil_iff.mp hmatch c hc
      rw [handler_of_no_match st e code hp hno]
      exact ⟨guarded_of_reset mute _ hne rfl rfl, by simp⟩
    · have hh : handler st e = handleKey (cleanExecTimeout st) (transcript (some code)) := by
        simp [handler, hp]
      rw [hh, handleKey_of_match (cleanExecTimeout st) _ hmatch]
      have hf := finish_guarded
        { cleanExecTimeout st with
          validCodes := some ((liveCandidates (cleanExecTimeout st)).filter fun c =>
            looseEq (c.sequenceAt (cleanExecTimeout st).currentSequence.length)
              (transcript (some code)))
          currentSequence := (cleanExecTimeout st).currentSequence ++ [transcript (some code)] }
        mute
        (by
          show some ((liveCandidates st).filter fun c =>
              looseEq (c.sequenceAt st.currentSequence.length) (transcript (some code)))
            = some (candidatesFor st.codes (st.currentSequence ++ [transcript (some code)]))
          rw [hinv.1, candidatesFor_filter])
        rfl hnd hm hmute hne
        (by
          intro hpre
          rcases List.prefix_concat_iff.mp hpre with h | h
          · exact h
          · exact absurd h hg.1)
      refine ⟨hf.1, ?_⟩
      intro c hc
      apply hf.2 c
      simp only [callbacks_append, callbacks_cons_appendToFeedback,
        callbacks_flatMap_progressCall, List.nil_append] at hc
      rw [callbacks_flatMap_nil _ _ (fun code => callbacks_progressCall _ _ code)] at hc
      simpa [callbacks] using hc

/-- What a firing of the timer does to the guard. -/
theorem timeout_guarded (st : KonaCode) (mute : Code) (hne : mute.sequence ≠ [])
    (hg : Guarded mute st) :
    Guarded mute (timeout st).1
      ∧ ∀ c ∈ callbacks (timeout st).2, ¬ (mute.sequence <+: c.sequence) := by
  unfold timeout
  cases ht : st.execTimeout with
  | none => exact ⟨hg, by simp [callbacks]⟩
  | some code =>
    have hc := hg.2 code ht
    refine ⟨guarded_of_reset mute _ hne ?_ ?_, ?_⟩
    · simp [exec, hc.1, resetCurrentSequence]
    · simp [exec, hc.1, resetCurrentSequence]
    · intro c hcc hpre
      rw [callbacks_exec_subset _ code false c hcc] at hpre
      apply hg.1
      rw [← hc.2]
      exact hpre.map Key.toJs

/-- In an idle session started on a registry without repeated sequences, no
succession of events and timer firings invokes the callback of a code whose
sequence starts with that of a registered code without callback. -/
theorem run_guarded (this : KonaCode) (mute : Code) (hidle : Idle this)
    (hnd : (this.codes.map Code.sequence).Nodup) (hm : mute ∈ this.codes)
    (hmute : mute.callback.truthy = false) (hne : mute.sequence ≠ [])
    (inputs : List Input) :
    ∀ c ∈ callbacks (run this inputs).2, ¬ (mute.sequence <+: c.sequence) := by
  have hgen : ∀ (inputs : List Input) (st : KonaCode), SessionInv st → st.codes = this.codes →
      Guarded mute st →
      ∀ c ∈ callbacks (run st inputs).2, ¬ (mute.sequence <+: c.sequence) := by
    intro inputs
    induction inputs with
    | nil => intro st _ _ _ c hc; simp [run, callbacks] at hc
    | cons i rest ih =>
      intro st hinv hcodes hg c hc
      rw [run_cons, callbacks_append, List.mem_append] at hc
      have hs := step_sessionInv st i hinv
      have hstep : Guarded mute (step st i).1
          ∧ ∀ c ∈ callbacks (step st i).2, ¬ (mute.sequence <+: c.sequence) := by
        cases i with
        | timer => exact timeout_guarded st mute hne hg
        | key e =>
          exact handler_guarded st e mute hinv (by rw [hcodes]; exact hnd)
            (by rw [hcodes]; exact hm) hmute hne hg
      rcases hc with hc | hc
      · exact hstep.2 c hc
      · exact ih (step st i).1 hs.1 (hs.2.trans hcodes) hstep.1 c hc
  exact hgen inputs this (sessionInv_of_reset this hidle.1 hidle.2.1) rfl
    (guarded_of_reset mute this hne hidle.1 hidle.2.2)

/-- Claim C19. A finished code without callback is never deferred.  `exec`
on a code without callback resets the session at once, whatever `delayed`
is: the values typed and the candidates are cleared, `progress( 0, 0 )` is
called on every code, and no timer is started.  So when the first candidate
that an accepted key finishes has no callback, `handler` leaves the session
idle and invokes no callback, whatever other candidates accepted the key.
Hence, on a registry built by `register`, no succession of events and timer
firings invokes the callback of a code whose sequence starts with that of a
registered code without callback; in the registry of `muteLongSetup`, typing
the five keys of the long code invokes nothing. -/
theorem finished_mute_code_resets_at_once :
    (∀ (this : KonaCode) (code : Code) (delayed : Bool), code.callback.truthy = false →
        exec this code delayed
          = ({ this with currentSequence := [], validCodes := none },
              this.codes.flatMap (progressCall 0 0) ++ [.hideJoystick]))
      ∧ (∀ (this : KonaCode) (e : KeyEvent) (code : JsVal) (first : Code) (rest : List Code),
          e.pressed = some code →
          ((liveCandidates this).filter (fun c =>
              looseEq (c.sequenceAt this.currentSequence.length) (transcript (some code)))).filter
            (fun c => c.sequence.length == this.currentSequence.length + 1) = first :: rest →
          first.callback.truthy = false →
          (handler this e).1
              = { this with currentSequence := [], validCodes := none, execTimeout := none }
            ∧ Idle (handler this e).1
            ∧ callbacks (handler this e).2 = []
            ∧ (this.codes.flatMap (progressCall 0 0) ++ [.hideJoystick]) <:+ (handler this e).2)
      ∧ (∀ (calls : List (Option CodesArg)) (this : KonaCode) (mute long : Code)
          (inputs : List Input),
          this.codes = (registerSeries none calls).getD [] → Idle this → mute ∈ this.codes →
          mute.callback.truthy = false → mute.sequence <+: long.sequence →
          long ∉ callbacks (run this inputs).2)
      ∧ constructor none muteLongSetup = (.ok muteLongInstance, some muteLongInstance)
      ∧ storedLong.sequence = storedMute.sequence ++ [.DOWN, .LEFT]
      ∧ storedMute.callback.truthy = false
      ∧ storedLong.callback.isFunction = true
      ∧ callbacks (run muteLongInstance (pressAll storedLong.sequence)).2 = []
      ∧ (run muteLongInstance (pressAll storedLong.sequence)).1.execTimeout = none := by
  refine ⟨exec_of_no_callback, ?_, ?_, rfl, by decide, by decide, by decide, by decide,
    by decide⟩
  · intro this e code first rest hpress hfin hmute
    have hh := handler_of_no_callback this e code first rest hpress hfin hmute
    rw [hh]
    refine ⟨rfl, ⟨rfl, rfl, rfl⟩, ?_, ?_⟩
    · simp only [callbacks_append, callbacks_cons_appendToFeedback,
        callbacks_flatMap_progressCall, List.nil_append, List.append_nil]
      rw [callbacks_flatMap_nil _ _ (fun code => callbacks_progressCall _ _ code)]
      simp [callbacks]
    · exact List.suffix_append _ _
  · intro calls this mute long inputs hreg hidle hm hmute hpre hmem
    have hnd : (this.codes.map Code.sequence).Nodup := by
      rw [hreg, registerSeries_getD]
      exact foldl_registerCode_nodup _ _ (by simp)
    have hne : mute.sequence ≠ [] := by
      intro h
      have h3 := registerSeries_length calls mute (by rw [← hreg]; exact hm)
      rw [h] at h3
      simp at h3
    exact run_guarded this mute hidle hnd hm hmute hne inputs long hmem hpre

/-- Witness of claim C19: `exec` of the code without callback, asked to
defer, in the registry of `muteLongSetup`. -/
theorem finished_mute_code_resets_at_once_witness :
    exec muteLongInstance storedMute true
      = ({ muteLongInstance with currentSequence := [], validCodes := none },
          muteLongInstance.codes.flatMap (progressCall 0 0) ++ [.hideJoystick]) :=
  finished_mute_code_resets_at_once.1 muteLongInstance storedMute true rfl

/-! ### A code inside a longer stream of keys -/

/-- Claim C20. The matcher does not find a code inside a longer stream of keys.
A key that no live candidate accepts is consumed by the reset: after it
nothing is typed, whether or not the key starts a registered code, and no
callback is invoked.  In the registry of the single code `UP, UP, DOWN`, the
keys `UP, UP, UP, DOWN` end with the registered sequence, yet the third `UP`
leaves the session idle with nothing typed, the `DOWN` that follows is
rejected as a first key, and no callback is invoked, with or without a
firing of the timer at the end. -/
theorem embedded_code_not_found :
    (∀ (this : KonaCode) (e : KeyEvent) (code : JsVal), e.pressed = some code →
        (∀ c ∈ liveCandidates this,
          looseEq (c.sequenceAt this.currentSequence.length) (transcript (some code)) = false) →
        (handler this e).1.currentSequence = [] ∧ (handler this e).1.validCodes = none
          ∧ callbacks (handler this e).2 = [])
      ∧ constructor none shortSetup = (.ok shortInstance, some shortInstance)
      ∧ [Key.UP, .UP, .UP, .DOWN] = [.UP] ++ storedShort.sequence
      ∧ storedShort.callback.isFunction = true
      ∧ (run shortInstance (pressAll [.UP, .UP])).1.currentSequence = [.str "UP", .str "UP"]
      ∧ (run shortInstance (pressAll [.UP, .UP, .UP])).1 = shortInstance
      ∧ (run shortInstance (pressAll [.UP, .UP, .UP, .DOWN])).1 = shortInstance
      ∧ callbacks (run shortInstance (pressAll [.UP, .UP, .UP, .DOWN])).2 = []
      ∧ callbacks (run shortInstance (pressAll [.UP, .UP, .UP, .DOWN] ++ [.timer])).2 = []
      ∧ callbacks (run shortInstance (pressAll [.UP, .UP, .DOWN])).2 = [storedShort] := by
  refine ⟨?_, rfl, rfl, by decide, by decide, by decide, by decide, by decide, by decide,
    by decide⟩
  intro this e code hpress hno
  rw [handler_of_no_match this e code hpress hno]
  exact ⟨rfl, rfl, by simp⟩

/-- Witness of claim C20: the third `UP` in the registry of the single code
`UP, UP, DOWN`. -/
theorem embedded_code_not_found_witness :
    (handler (typedState shortInstance [.UP, .UP]) (press .UP)).1.currentSequence = [] :=
  (embedded_code_not_found.1 (typedState shortInstance [.UP, .UP]) (press .UP) Key.UP.toJs rfl
    (by decide)).1

/-! ### The range of the progress percentage -/

theorem log2Fuel_spec (fuel n : Nat) (hn : 0 < n) (hf : n ≤ fuel) :
    2 ^ log2Fuel fuel n ≤ n ∧ n < 2 ^ (log2Fuel fuel n + 1) := by
  induction fuel generalizing n with
  | zero => omega
  | succ f ih =>
    unfold log2Fuel
    by_cases h2 : n < 2
    · rw [if_pos h2]
      have : n = 1 := by omega
      subst this
      decide
    · rw [if_neg h2]
      have h := ih (n / 2) (by omega) (by omega)
      constructor
      · rw [pow_succ]
        have := Nat.div_mul_le_self n 2
        nlinarith [h.1]
      · rw [pow_succ]
        have := Nat.div_add_mod n 2
        have := Nat.mod_lt n (show 0 < 2 by decide)
        omega

theorem log2_spec (n : Nat) (hn : 0 < n) : 2 ^ log2 n ≤ n ∧ n < 2 ^ (log2 n + 1) :=
  log2Fuel_spec n n hn (le_refl n)

theorem log2_le_of_lt (n d j : Nat) (hn : 0 < n) (hd : 0 < d) (h : n < d * 2 ^ j) :
    log2 n ≤ log2 d + j := by
  have ha := (log2_spec n hn).1
  have hb := (log2_spec d hd).2
  by_contra hcon
  have h1 : 2 ^ (log2 d + 1 + j) ≤ 2 ^ log2 n := Nat.pow_le_pow_right (by decide) (by omega)
  have h2 : d * 2 ^ j < 2 ^ (log2 d + 1 + j) := by
    rw [pow_add]
    exact Nat.mul_lt_mul_of_pos_right hb (by positivity)
  omega

/-- The shape of a rounded quotient below `2 ^ j`: the denominator is a power
of two, at least `2 ^ (53 - j)`, and the numerator is the scaled quotient
rounded down or up, never above the half-way rounding. -/
theorem roundDouble_of_lt (n d j : Nat) (hn : 0 < n) (hd : 0 < d) (h : n < d * 2 ^ j)
    (hj : j ≤ 53) :
    ∃ s m, 53 ≤ s + j ∧ roundDouble n d = (m, 2 ^ s) ∧ m * (2 * d) ≤ 2 * (n * 2 ^ s) + d
      ∧ n * 2 ^ s / d ≤ m := by
  have hlog := log2_le_of_lt n d j hn hd h
  unfold roundDouble
  rw [if_neg (by omega)]
  dsimp only
  generalize hk : (if (if (0 : Int) ≤ (log2 n : Int) - (log2 d : Int) then
        decide (d * 2 ^ ((log2 n : Int) - (log2 d : Int)).toNat ≤ n)
      else decide (d ≤ n * 2 ^ (-((log2 n : Int) - (log2 d : Int))).toNat)) = true
    then (log2 n : Int) - (log2 d : Int) else (log2 n : Int) - (log2 d : Int) - 1) = k
  have hkj : k ≤ (j : Int) - 1 := by
    by_cases heq : log2 n = log2 d + j
    · have h0 : (0 : Int) ≤ (log2 n : Int) - (log2 d : Int) := by omega
      have ht : ((log2 n : Int) - (log2 d : Int)).toNat = j := by omega
      rw [if_pos h0, ht] at hk
      have hdec : decide (d * 2 ^ j ≤ n) = false := by simpa using h
      rw [hdec] at hk
      simp only [Bool.false_eq_true, if_false] at hk
      omega
    · split_ifs at hk <;> omega
  have hsh : (0 : Int) ≤ 52 - k := by omega
  simp only [if_pos hsh]
  generalize hs : (52 - k).toNat = s
  have hsj : 53 ≤ s + j := by omega
  refine ⟨s, _, hsj, rfl, ?_, ?_⟩
  · have hdm := Nat.div_add_mod (n * 2 ^ s) d
    have hml := Nat.mod_lt (n * 2 ^ s) hd
    generalize n * 2 ^ s = sn at hdm hml ⊢
    generalize hq : sn / d = q at hdm ⊢
    generalize hr : sn % d = r at hdm hml ⊢
    have hq2 : q % 2 ≤ 1 := by omega
    split_ifs with h1 h2
    · nlinarith
    · nlinarith
    · nlinarith
  · split_ifs <;> omega

/-- The double nearest to a proper fraction with a denominator of at most
`2 ^ 53` is at most `1 - 2⁻⁵³`, the largest double below one. -/
theorem roundDouble_lt_one (n d : Nat) (hn : 0 < n) (h : n < d) (hd : d ≤ 2 ^ 53) :
    (roundDouble n d).1 * 2 ^ 53 ≤ (roundDouble n d).2 * (2 ^ 53 - 1)
      ∧ 0 < (roundDouble n d).2 := by
  obtain ⟨s, m, hs, he, hm, _⟩ := roundDouble_of_lt n d 0 hn (by omega) (by simpa using h)
    (by omega)
  rw [he]
  dsimp only
  obtain ⟨t, rfl⟩ : ∃ t, s = 53 + t := ⟨s - 53, by omega⟩
  have hpos : 0 < 2 ^ t := by positivity
  refine ⟨?_, by positivity⟩
  rw [pow_add] at hm ⊢
  generalize (2 : Nat) ^ t = T at hm hpos ⊢
  have hn1 : n + 1 ≤ d := h
  by_contra hcon
  have hcon2 : 2 ^ 53 * T * (2 ^ 53 - 1) + 1 ≤ m * 2 ^ 53 := by omega
  have hT : (2 : Nat) ^ 53 * T * (2 ^ 53 - 1) = 2 ^ 53 * (T * (2 ^ 53 - 1)) := by ring
  have hm2 : T * (2 ^ 53 - 1) + 1 ≤ m := by
    rw [hT] at hcon2
    by_contra hlt
    have : m ≤ T * (2 ^ 53 - 1) := by omega
    have := Nat.mul_le_mul_right (2 ^ 53) this
    nlinarith
  have h3 : (T * (2 ^ 53 - 1) + 1) * (2 * d) ≤ 2 * (n * (2 ^ 53 * T)) + d :=
    le_trans (Nat.mul_le_mul_right _ hm2) hm
  have h4 : n * (2 ^ 53 * T) + 2 ^ 53 * T ≤ d * (2 ^ 53 * T) := by
    have := Nat.mul_le_mul_right (2 ^ 53 * T) hn1
    nlinarith
  have h5 : d * T ≤ 2 ^ 53 * T := Nat.mul_le_mul_right T hd
  norm_num at h3 h4 h5 ⊢
  nlinarith

/-- A hundred times a double below one rounds to a double below a hundred. -/
theorem roundDouble_lt_hundred (a b : Nat) (hb : 0 < b)
    (h : a * 2 ^ 53 ≤ b * (2 ^ 53 - 1)) :
    (roundDouble (a * 100) b).1 < 100 * (roundDouble (a * 100) b).2 := by
  by_cases ha : a = 0
  · subst ha
    simp [roundDouble]
  · have hab : a * 100 < b * 2 ^ 7 := by
      norm_num at h ⊢
      omega
    obtain ⟨s, m, hs, he, hm, _⟩ := roundDouble_of_lt (a * 100) b 7 (by omega) hb hab
      (by omega)
    rw [he]
    dsimp only
    obtain ⟨t, rfl⟩ : ∃ t, s = 46 + t := ⟨s - 46, by omega⟩
    have hpos : 0 < 2 ^ t := by positivity
    rw [pow_add] at hm ⊢
    generalize (2 : Nat) ^ t = T at hm hpos ⊢
    by_contra hcon
    have hcon2 : 100 * (2 ^ 46 * T) ≤ m := by omega
    have h3 : 100 * (2 ^ 46 * T) * (2 * b) ≤ 2 * (a * 100 * (2 ^ 46 * T)) + b :=
      le_trans (Nat.mul_le_mul_right _ hcon2) hm
    have h4 : a * 2 ^ 53 * T ≤ b * (2 ^ 53 - 1) * T := Nat.mul_le_mul_right T h
    have h5 : b ≤ b * T := Nat.le_mul_of_pos_right b hpos
    norm_num at h3 h4 ⊢
    nlinarith

/-- A quotient that is a whole number below `2 ^ j` is rounded to itself. -/
theorem roundDouble_exact (c d j : Nat) (hc : 0 < c) (hd : 0 < d) (h : c < 2 ^ j)
    (hj : j ≤ 53) : ∃ s, roundDouble (c * d) d = (c * 2 ^ s, 2 ^ s) := by
  obtain ⟨s, m, _, he, hm, hq⟩ := roundDouble_of_lt (c * d) d j (Nat.mul_pos hc hd)
    hd (by rw [Nat.mul_comm]; exact Nat.mul_lt_mul_of_pos_left h hd) hj
  refine ⟨s, ?_⟩
  rw [he]
  have hq2 : c * 2 ^ s ≤ m := by
    have e : c * d * 2 ^ s = c * 2 ^ s * d := by ring
    rw [e, Nat.mul_div_cancel _ hd] at hq
    exact hq
  have hm2 : m ≤ c * 2 ^ s := by
    by_contra hcon
    have h1 : c * 2 ^ s + 1 ≤ m := by omega
    have h2 := Nat.mul_le_mul_right (2 * d) h1
    have e : 2 * (c * d * 2 ^ s) = c * 2 ^ s * (2 * d) := by ring
    rw [e] at hm
    have h3 : (c * 2 ^ s + 1) * (2 * d) = c * 2 ^ s * (2 * d) + 2 * d := by ring
    omega
  rw [le_antisymm hm2 hq2]

/-- The percentage of a complete sequence is `100`. -/
theorem percent_self (n : Nat) (hn : 0 < n) : percent n n = 100 := by
  obtain ⟨s, hs⟩ := roundDouble_exact 1 n 1 (by decide) hn (by decide) (by decide)
  rw [Nat.one_mul, Nat.one_mul] at hs
  obtain ⟨t, ht⟩ := roundDouble_exact 100 (2 ^ s) 7 (by decide) (by positivity) (by decide)
    (by decide)
  unfold percent
  dsimp only
  rw [hs]
  dsimp only
  rw [Nat.mul_comm (2 ^ s) 100, ht]
  exact Nat.mul_div_cancel _ (by positivity)

/-- The percentage of an incomplete sequence of at most `2 ^ 53` keys is
below `100`. -/
theorem percent_lt_hundred (count length : Nat) (h : count < length)
    (hl : length ≤ 2 ^ 53) : percent count length < 100 := by
  by_cases hc : count = 0
  · subst hc
    simp [percent, roundDouble]
  · have hx := roundDouble_lt_one count length (by omega) h hl
    have hy := roundDouble_lt_hundred _ _ hx.2 hx.1
    unfold percent
    dsimp only
    apply Nat.div_lt_of_lt_mul
    omega

/-- The percentage is `100` exactly for the complete sequence. -/
theorem percent_eq_hundred_iff (count length : Nat) (hc : 0 < count) (h : count ≤ length)
    (hl : length ≤ 2 ^ 53) : percent count length = 100 ↔ count = length := by
  constructor
  · intro hp
    by_contra hne
    have := percent_lt_hundred count length (by omega) hl
    omega
  · intro he
    rw [he]
    exact percent_self length (by omega)

theorem percent_upper_aux (A B d n m m2 F : Nat) (hA : 100 * d < A) (hB : d < B)
    (hm : m * (2 * d) ≤ 2 * (n * A) + d) (hm2 : m2 * (2 * A) ≤ 2 * (m * 100 * B) + A)
    (hF2 : n * 100 < (F + 1) * d) (hcon : (F + 1) * B ≤ m2) : False := by
  have hApos : 0 < A := by omega
  have hBpos : 0 < B := by omega
  have e1 : (F + 1) * B * (2 * A) ≤ 2 * (m * 100 * B) + A :=
    le_trans (Nat.mul_le_mul_right _ hcon) hm2
  have e2 := Nat.mul_le_mul_right d e1
  have e3 : 100 * B * (m * (2 * d)) ≤ 100 * B * (2 * (n * A) + d) :=
    Nat.mul_le_mul_left _ hm
  have e4 : (n * 100 + 1) * (2 * A * B) ≤ (F + 1) * d * (2 * A * B) :=
    Nat.mul_le_mul_right _ hF2
  have e5 : 100 * d * B < A * B := Nat.mul_lt_mul_of_pos_right hA hBpos
  have e6 : d * A < B * A := Nat.mul_lt_mul_of_pos_right hB hApos
  nlinarith

theorem percent_lower_aux (A B d n m m2 F : Nat) (hA : 100 < A) (hB : 0 < B) (hd : 0 < d)
    (hq3 : m * 100 * B < (m2 + 1) * A) (hq1 : n * A < (m + 1) * d) (hF1 : F * d ≤ n * 100)
    (hcon : m2 + 1 + B ≤ F * B) : False := by
  have f1 := Nat.mul_le_mul_right (A * d) hcon
  have f2 := Nat.mul_lt_mul_of_pos_right hq3 hd
  have f3 := Nat.mul_le_mul_right (A * B) hF1
  have f4 := Nat.mul_le_mul_left (100 * B) (Nat.le_of_lt hq1)
  have f5 : 100 * (B * d) < A * (B * d) :=
    Nat.mul_lt_mul_of_pos_right hA (Nat.mul_pos hB hd)
  nlinarith

/-- The percentage in double arithmetic is the whole part of the exact
percentage or one less, for sequences of fewer than `2 ^ 32` keys. -/
theorem percent_near_floor (count length : Nat) (hc : 0 < count) (h : count ≤ length)
    (hl : length < 2 ^ 32) :
    percent count length ≤ count * 100 / length
      ∧ count * 100 / length ≤ percent count length + 1 := by
  by_cases heq : count = length
  · subst heq
    rw [percent_self count hc, Nat.mul_comm, Nat.mul_div_cancel _ hc]
    omega
  have hlt : count < length := by omega
  have hd : 0 < length := by omega
  obtain ⟨s, m, hs, he, hm, hq⟩ := roundDouble_of_lt count length 0 hc hd (by simpa using hlt)
    (by omega)
  have hone := (roundDouble_lt_one count length hc hlt (by omega)).1
  rw [he] at hone
  dsimp only at hone
  obtain ⟨t, rfl⟩ : ∃ t, s = 53 + t := ⟨s - 53, by omega⟩
  have hA : 2 ^ 53 ≤ 2 ^ (53 + t) := Nat.pow_le_pow_right (by decide) (by omega)
  generalize (2 : Nat) ^ (53 + t) = A at he hm hq hone hA
  have hmA : m < A := by omega
  have hq1 : count * A < (m + 1) * length :=
    (Nat.div_lt_iff_lt_mul hd).mp (Nat.lt_succ_of_le hq)
  have hmpos : 0 < m := by
    by_contra hm0
    have hm00 : m = 0 := by omega
    subst hm00
    have : A ≤ count * A := Nat.le_mul_of_pos_left A hc
    omega
  have hApos : 0 < A := by omega
  obtain ⟨s2, m2, hs2, he2, hm2, hq2⟩ := roundDouble_of_lt (m * 100) A 7 (by omega) hApos
    (by omega) (by omega)
  obtain ⟨t2, rfl⟩ : ∃ t2, s2 = 46 + t2 := ⟨s2 - 46, by omega⟩
  have hB : 2 ^ 46 ≤ 2 ^ (46 + t2) := Nat.pow_le_pow_right (by decide) (by omega)
  generalize (2 : Nat) ^ (46 + t2) = B at he2 hm2 hq2 hB
  have hBpos : 0 < B := by omega
  have hq3 : m * 100 * B < (m2 + 1) * A :=
    (Nat.div_lt_iff_lt_mul hApos).mp (Nat.lt_succ_of_le hq2)
  have hp : percent count length = m2 / B := by
    unfold percent
    dsimp only
    rw [he]
    dsimp only
    rw [he2]
  rw [hp]
  have hF1 : count * 100 / length * length ≤ count * 100 := Nat.div_mul_le_self _ _
  have hF2 : count * 100 < (count * 100 / length + 1) * length :=
    (Nat.div_lt_iff_lt_mul hd).mp (Nat.lt_succ_self _)
  generalize count * 100 / length = F at hF1 hF2 ⊢
  have hA2 : 100 * length < A := by
    have : (100 : Nat) * 2 ^ 32 ≤ 2 ^ 53 := by decide
    omega
  have hB2 : length < B := by
    have : (2 : Nat) ^ 32 ≤ 2 ^ 46 := by decide
    omega
  constructor
  · rw [← Nat.lt_succ_iff, Nat.div_lt_iff_lt_mul hBpos]
    by_contra hcon
    exact percent_upper_aux A B length count m m2 F hA2 hB2 hm hm2 hF2 (Nat.le_of_not_lt hcon)
  · by_cases hF0 : F = 0
    · omega
    · have hgoal : F - 1 ≤ m2 / B := by
        rw [Nat.le_div_iff_mul_le hBpos]
        by_contra hcon
        have e : (F - 1) * B + B = F * B := by
          have hF : F = (F - 1) + 1 := by omega
          nth_rewrite 2 [hF]
          ring
        exact percent_lower_aux A B length count m m2 F (by omega) hBpos hd hq3 hq1 hF1
          (by omega)
      omega

/-- The range of the exact percentage. -/
theorem exact_percent_range (count length : Nat) (hc : 0 < count) (h : count ≤ length) :
    count * 100 / length ≤ 100 ∧ (count * 100 / length = 100 ↔ count = length) := by
  have hd : 0 < length := by omega
  have hle : count * 100 / length ≤ 100 := by
    apply Nat.div_le_of_le_mul
    nlinarith
  refine ⟨hle, ?_, ?_⟩
  · intro he
    by_contra hne
    have hlt : count * 100 / length < 100 := by
      rw [Nat.div_lt_iff_lt_mul hd]
      omega
    omega
  · intro he
    rw [he, Nat.mul_comm, Nat.mul_div_cancel _ hd]

/-- The range of the percentage passed to `progress`, for a count between one
and the length of a sequence of fewer than `2 ^ 32` keys. -/
theorem percent_range (count length : Nat) (hc : 0 < count) (h : count ≤ length)
    (hl : length < 2 ^ 32) :
    percent count length ≤ 100 ∧ (percent count length = 100 ↔ count = length)
      ∧ percent count length ≤ count * 100 / length
      ∧ count * 100 / length ≤ percent count length + 1 := by
  have hl2 : length ≤ 2 ^ 53 :=
    le_trans (Nat.le_of_lt hl) (Nat.pow_le_pow_right (by decide) (by decide))
  have hnear := percent_near_floor count length hc h hl
  have hex := exact_percent_range count length hc h
  exact ⟨le_trans hnear.1 hex.1, percent_eq_hundred_iff count length hc h hl2, hnear.1, hnear.2⟩

theorem mem_progressCalls (calls : List Effect) (c : Code) (n p : Nat) :
    (c, n, p) ∈ progressCalls calls ↔ Effect.progress c n p ∈ calls := by
  unfold progressCalls
  rw [List.mem_filterMap]
  constructor
  · rintro ⟨a, ha, h⟩
    cases a <;> simp at h
    obtain ⟨rfl, rfl, rfl⟩ := h
    exact ha
  · intro h
    exact ⟨_, h, rfl⟩

theorem mem_progressCall (a b : Nat) (code c : Code) (n p : Nat) :
    Effect.progress c n p ∈ progressCall a b code
      ↔ code.progress.isFunction = true ∧ c = code ∧ n = a ∧ p = b := by
  unfold progressCall
  split_ifs with h <;> simp [h]

theorem progress_mem_reset (this : KonaCode) (c : Code) (n p : Nat)
    (h : Effect.progress c n p ∈ (resetCurrentSequence this).2) : n = 0 ∧ p = 0 := by
  simp only [resetCurrentSequence, List.mem_append, List.mem_flatMap, mem_progressCall,
    List.mem_singleton] at h
  rcases h with ⟨_, _, _, _, h1, h2⟩ | h
  · exact ⟨h1, h2⟩
  · cases h

theorem progress_mem_exec (this : KonaCode) (code : Code) (delayed : Bool) (c : Code)
    (n p : Nat) (h : Effect.progress c n p ∈ (exec this code delayed).2) : n = 0 ∧ p = 0 := by
  have hr := progress_mem_reset this c n p
  by_cases h1 : code.callback.truthy = true
  · cases delayed with
    | true => simp [exec, h1] at h
    | false =>
      by_cases h2 : code.callback.isFunction = true
      · simp only [exec, h1, h2, if_true, Bool.false_eq_true, if_false, List.mem_append,
          List.mem_singleton] at h
        rcases h with (h | h) | h
        · cases h
        · cases h
        · exact hr h
      · simp only [exec, h1, h2, if_true, Bool.false_eq_true, if_false, List.mem_append,
          List.mem_singleton, List.not_mem_nil, false_or] at h
        rcases h with h | h
        · cases h
        · exact hr h
  · have he : exec this code delayed = resetCurrentSequence this := by simp [exec, h1]
    rw [he] at h
    exact hr h

theorem progress_mem_finish (this : KonaCode) (c : Code) (n p : Nat)
    (h : Effect.progress c n p ∈ (finish this).2) : n = 0 ∧ p = 0 := by
  unfold finish at h
  dsimp only at h
  split at h
  · exact progress_mem_exec _ _ _ c n p h
  · split at h <;> simp at h

theorem looseEq_lt_length (c : Code) (i : Nat) (key : JsVal)
    (h : looseEq (c.sequenceAt i) key = true) : i < c.sequence.length := by
  by_contra hcon
  have hnone : c.sequence[i]? = none := List.getElem?_eq_none (by omega)
  simp [looseEq, Code.sequenceAt, hnone] at h

/-- Claim C21. For every state whose live candidates have sequences of fewer
than `2 ^ 32` keys (the longest array there is) and every event with a key:
every candidate that accepts the key and has a `progress` function gets the
call `progress( count, percent )` with `count` the number of values typed
after the key and `percent` the value of `Math.floor( count / length * 100 )`
in double arithmetic; and every `progress` call that `handler` makes either
is a reset call `progress( 0, 0 )` or is such a call to a candidate that
accepted the key, for which `1 ≤ count ≤ length`, the percentage passed is at
most `100` and is `100` exactly when `count = length`, that is exactly when
the candidate is finished; the percentage passed is the whole part of
`count * 100 / length` or one less, and that whole part too is at most `100`
and is `100` exactly when `count = length`. -/
theorem progress_call_range (this : KonaCode) (e : KeyEvent) (code : JsVal)
    (hpress : e.pressed = some code)
    (hlen : ∀ c ∈ liveCandidates this, c.sequence.length < 2 ^ 32) :
    (∀ c ∈ (liveCandidates this).filter (fun c =>
          looseEq (c.sequenceAt this.currentSequence.length) (transcript (some code))),
        c.progress.isFunction = true →
        (c, this.currentSequence.length + 1,
            percent (this.currentSequence.length + 1) c.sequence.length)
          ∈ progressCalls (handler this e).2)
      ∧ ∀ (c : Code) (count pct : Nat), (c, count, pct) ∈ progressCalls (handler this e).2 →
          (count = 0 ∧ pct = 0)
            ∨ (c ∈ (liveCandidates this).filter (fun c =>
                  looseEq (c.sequenceAt this.currentSequence.length) (transcript (some code)))
              ∧ count = this.currentSequence.length + 1
              ∧ pct = percent count c.sequence.length
              ∧ 1 ≤ count ∧ count ≤ c.sequence.length
              ∧ pct ≤ 100
              ∧ (pct = 100 ↔ count = c.sequence.length)
              ∧ (pct = 100 ↔ c ∈ ((liveCandidates this).filter (fun c =>
                  looseEq (c.sequenceAt this.currentSequence.length)
                    (transcript (some code)))).filter
                  (fun c => c.sequence.length == this.currentSequence.length + 1))
              ∧ pct ≤ count * 100 / c.sequence.length
              ∧ count * 100 / c.sequence.length ≤ pct + 1
              ∧ count * 100 / c.sequence.length ≤ 100
              ∧ (count * 100 / c.sequence.length = 100 ↔ count = c.sequence.length)) := by
  by_cases hmatch : (liveCandidates this).filter (fun c =>
      looseEq (c.sequenceAt this.currentSequence.length) (transcript (some code))) = []
  · have hno : ∀ c ∈ liveCandidates this,
        looseEq (c.sequenceAt this.currentSequence.length) (transcript (some code)) = false := by
      intro c hc
      simpa using List.filter_eq_nil_iff.mp hmatch c hc
    rw [hmatch, handler_of_no_match this e code hpress hno]
    refine ⟨fun c hc => absurd hc (List.not_mem_nil c), ?_⟩
    intro c count pct hc
    left
    rw [mem_progressCalls] at hc
    rw [List.mem_append, List.mem_append, List.mem_singleton, List.mem_singleton,
      List.mem_flatMap] at hc
    rcases hc with (hc | ⟨c1, _, hc1⟩) | hc
    · cases hc
    · have h := (mem_progressCall 0 0 c1 c count pct).mp hc1
      exact ⟨h.2.2.1, h.2.2.2⟩
    · cases hc
  · obtain ⟨c0, hc0⟩ := List.exists_mem_of_ne_nil _ hmatch
    obtain ⟨next, hseq, _, _, hh⟩ := handler_accepted_key this e code hpress
      ⟨c0, (List.mem_filter.mp hc0).1, (List.mem_filter.mp hc0).2⟩
    have hnl : next.currentSequence.length = this.currentSequence.length + 1 := by
      rw [hseq]; simp
    rw [hh, hnl]
    constructor
    · intro c hc hf
      rw [mem_progressCalls]
      apply List.mem_append_left
      apply List.mem_append_left
      apply List.mem_append_right
      rw [List.mem_flatMap]
      exact ⟨c, hc, (mem_progressCall _ _ c c _ _).mpr ⟨hf, rfl, rfl, rfl⟩⟩
    · intro c count pct hc
      rw [mem_progressCalls] at hc
      rw [List.mem_append, List.mem_append, List.mem_append, List.mem_singleton,
        List.mem_flatMap, List.mem_flatMap] at hc
      rcases hc with ((hc | ⟨c1, hc1, hcall⟩) | ⟨c2, _, hcall⟩) | hc
      · cases hc
      · right
        obtain ⟨_, rfl, hn, hp⟩ := (mem_progressCall _ _ c1 c count pct).mp hcall
        have hm := List.mem_filter.mp hc1
        have hlt := looseEq_lt_length c _ _ hm.2
        have hr := percent_range count c.sequence.length (by omega) (by omega) (hlen c hm.1)
        have hex := exact_percent_range count c.sequence.length (by omega) (by omega)
        rw [← hn] at hp
        rw [hp]
        refine ⟨hc1, hn, rfl, by omega, by omega, hr.1, hr.2.1, ?_, hr.2.2.1, hr.2.2.2,
          hex.1, hex.2⟩
        rw [hr.2.1, List.mem_filter, beq_iff_eq, hn]
        constructor
        · intro h
          exact ⟨hc1, h.symm⟩
        · intro h
          exact h.2.symm
      · have h := (mem_progressCall 0 0 c2 c count pct).mp hcall
        exact Or.inl ⟨h.2.2.1, h.2.2.2⟩
      · exact Or.inl (progress_mem_finish next c count pct hc)

/-- Witness of claim C21: the third key of the short example code, typed in
the registry of the two example codes, makes the call `progress( 3, 60 )` to
the long code. -/
theorem progress_call_range_witness :
    (storedLong, 3, 60)
      ∈ progressCalls (handler (typedState exampleInstance [.UP, .UP]) (press .DOWN)).2 :=
  (progress_call_range (typedState exampleInstance [.UP, .UP]) (press .DOWN) Key.DOWN.toJs rfl
    (by decide)).1 storedLong (by decide) (by decide)

end KonaCode
